import Mathlib

/-!
# RateLimiter: five admission algorithms, embedded and verified

The Go repository holds five packages (`fixedwindow`, `slidinglog`,
`slidingwindow`, `leakybucket`, `tokenbucket`).  Each is embedded below as pure
state-passing functions.

Modelling conventions:

* `time.Time` is a clock reading in nanoseconds (`Time := Int`), and
  `time.Duration` is a count of nanoseconds (`Duration := Int`).  Every
  `time.Now()` / `time.Since` in the source becomes an explicit argument, one
  argument per clock read, in source order.
  Clock readings are monotonic readings of one process, so the difference of two
  of them is taken without the saturation of `Time.Sub`.
* Go `int` and `time.Duration` are 64-bit; they are modelled by `Int`, with the
  two operations of the source that can leave the 64-bit range wrapping as in
  Go: the sum `tb.tokens + newTokens` of the token bucket (`wrap64`) and the
  negation `-rl.window` of the sliding log (`negDuration`).  A counter that is
  only incremented below a configured `int` limit cannot wrap.
* Go `float64` is IEEE 754 binary64.  A float64 value is modelled by the rational
  number it denotes, and every float64 operation of the source is the exact
  operation followed by rounding to nearest, ties to even (`f64`), each operation
  rounded on its own (no fused multiply-add, as in the amd64 code); the
  conversion `float64(n)` is that rounding too, `Duration.Seconds()` is the
  library formula `float64(d / Second) + float64(d % Second) / 1e9`, and `int(x)`
  truncates toward zero (`f64ToInt`).  Infinities and NaN are outside the model.
  `seconds` is the exact number of seconds of a duration, used to state bounds.
* A Go `map[string]V` is a lookup function `String → Option V`; a pointer stored
  in a map is modelled by the value it points to (every pointer of the source is
  created by the limiter and stored under exactly one key).
* Mutexes are not modelled: each operation is one atomic step.
-/

/-- Clock reading, in nanoseconds. -/
abbrev Time := Int

/-- Go time.Duration, in nanoseconds. -/
abbrev Duration := Int

/-- Go time.Second. -/
def Second : Duration := 1000000000

/-- The exact number of seconds of a duration. -/
def seconds (d : Duration) : ℚ := (d : ℚ) / 1000000000

/-- Truncation toward zero. -/
def truncate (x : ℚ) : Int := if 0 ≤ x then ⌊x⌋ else ⌈x⌉

/-- Rounding to the nearest integer, a tie going to the even one. -/
def roundHalfEven (x : ℚ) : Int :=
  if x - ⌊x⌋ < 1 / 2 then ⌊x⌋
  else if 1 / 2 < x - ⌊x⌋ then ⌊x⌋ + 1
  else if ⌊x⌋ % 2 = 0 then ⌊x⌋ else ⌊x⌋ + 1

/-- The binary64 exponent of `x`: the `e` with `2^e <= |x| < 2^(e+1)`, and -1022
throughout the subnormal range below `2^(-1022)`. -/
def f64Exp (x : ℚ) : Int := max (Int.log 2 |x|) (-1022)

/-- Rounding of an exact result to float64 (IEEE 754 binary64, round to nearest,
ties to even): the nearest multiple of `2^(e - 52)`, for `e` the exponent of `x`.
A result of magnitude `2^1024` or more, which float64 turns into an infinity, is
outside the model. -/
def f64 (x : ℚ) : ℚ := (roundHalfEven (x / 2 ^ (f64Exp x - 52)) : ℚ) * 2 ^ (f64Exp x - 52)

/-- Go Duration.Seconds: `float64(d / Second) + float64(d % Second) / 1e9`, with
the truncating division and remainder of Go and three roundings. -/
def Duration.Seconds (d : Duration) : ℚ :=
  f64 (f64 ((d.tdiv Second : Int) : ℚ) + f64 (f64 ((d.tmod Second : Int) : ℚ) / 1000000000))

/-- Go conversion int(x) of a float64 to the 64-bit int: truncation toward zero.
For a value outside the int64 range the language leaves the result to the
implementation; the result taken here is the one of amd64, math.MinInt64. -/
def f64ToInt (x : ℚ) : Int :=
  if -9223372036854775808 ≤ truncate x ∧ truncate x ≤ 9223372036854775807 then truncate x
  else -9223372036854775808

/-- The value of an int64 operation whose exact result is `x`: `x` reduced modulo
`2^64` into the range from math.MinInt64 to math.MaxInt64. -/
def wrap64 (x : Int) : Int :=
  (x + 9223372036854775808) % 18446744073709551616 - 9223372036854775808

/-- Go unary minus on a Duration (an int64): two's-complement negation, under
which math.MinInt64 is its own negation and every other value has its sign
changed. -/
def negDuration (d : Duration) : Duration :=
  if d = -9223372036854775808 then -9223372036854775808 else -d

/-- Go map with string keys. -/
def GoMap (V : Type) : Type := String → Option V

/-- Go make(map[string]V): the map without entries. -/
def GoMap.make {V : Type} : GoMap V := fun _ => none

/-- Go assignment m[k] = v. -/
def GoMap.store {V : Type} (m : GoMap V) (k : String) (v : V) : GoMap V :=
  fun k' => if k' = k then some v else m k'

/-- Calls of a keyed limiter, each a key with its clock reads, run in order from
the state `s`: the decisions of the calls made for the key `key`. -/
def keyedDecisions {S A : Type} (step : S → String → A → Bool × S) (s : S) (key : String) :
    List (String × A) → List Bool
  | [] => []
  | c :: rest =>
    if c.1 = key then (step s c.1 c.2).1 :: keyedDecisions step (step s c.1 c.2).2 key rest
    else keyedDecisions step (step s c.1 c.2).2 key rest

/-- What a call of a constructor hands back to its caller: a limiter value, or a
signalled configuration error (an error result, a nil limiter or a panic). -/
inductive Constructed (α : Type) where
  | limiter (value : α)
  | configError

/-- The constructors of the five packages have one result, the limiter, and their
bodies are a single `return &T{...}`: every call hands back the limiter value. -/
def returned {α : Type} (value : α) : Constructed α := Constructed.limiter value

/-- The in-place compaction loop shared by slidinglog (lines 35-41) and
slidingwindow (lines 34-40): `for _, ts := range a { if keep ts { a[j] = ts; j++ } }`.
The arguments are the backing array, the read index `i`, the write index `j` and
the number of iterations left; the result is the array and the final `j`. -/
def compactLoop (keep : Time → Bool) : List Time → Nat → Nat → Nat → List Time × Nat
  | a, _, j, 0 => (a, j)
  | a, i, j, n + 1 =>
    match a[i]? with
    | none => (a, j)
    | some ts =>
      if keep ts then compactLoop keep (a.set j ts) (i + 1) (j + 1) n
      else compactLoop keep a (i + 1) j n

/-- The loop followed by the reslice `a = a[:j]`. -/
def compact (keep : Time → Bool) (a : List Time) : List Time :=
  let r := compactLoop keep a 0 0 a.length
  r.1.take r.2

namespace slidinglog

/-- The slidinglog.RateLimiter struct (mutex omitted). -/
structure RateLimiter where
  rate : Int
  window : Duration
  logs : GoMap (List Time)

/-- Constructor slidinglog.NewRateLimiter. -/
def NewRateLimiter (rate : Int) (window : Duration) : RateLimiter :=
  { rate := rate, window := window, logs := GoMap.make }

/-- Method slidinglog.RateLimiter.Allow; `now` is the value of time.Now(). -/
def RateLimiter.Allow (rl : RateLimiter) (ip : String) (now : Time) : Bool × RateLimiter :=
  let log0 : List Time := match rl.logs ip with
    | some l => l
    | none => []
  let validTime : Time := now + negDuration rl.window
  let log1 := compact (fun timestamp => decide (timestamp > validTime)) log0
  if (log1.length : Int) ≥ rl.rate then
    (false, { rl with logs := rl.logs.store ip log1 })
  else
    (true, { rl with logs := rl.logs.store ip (log1 ++ [now]) })

/-- Calls of Allow for one key at the given times, in order: the decisions. -/
def decisions (rl : RateLimiter) (ip : String) : List Time → List Bool
  | [] => []
  | now :: rest => (rl.Allow ip now).1 :: decisions (rl.Allow ip now).2 ip rest

/-- Calls of Allow for one key at the given times: the times of the admitted calls. -/
def admitted (rl : RateLimiter) (ip : String) : List Time → List Time
  | [] => []
  | now :: rest =>
    if (rl.Allow ip now).1 then now :: admitted (rl.Allow ip now).2 ip rest
    else admitted (rl.Allow ip now).2 ip rest

end slidinglog

namespace slidingwindow

/-- The slidingwindow.RateLimiter struct (mutex omitted). -/
structure RateLimiter where
  requestsMap : GoMap (List Time)
  limit : Int
  window : Duration

/-- Constructor slidingwindow.NewRateLimiter. -/
def NewRateLimiter (limit : Int) (window : Duration) : RateLimiter :=
  { requestsMap := GoMap.make, limit := limit, window := window }

/-- Method slidingwindow.RateLimiter.Allow; `now` is the value of time.Now(). -/
def RateLimiter.Allow (rl : RateLimiter) (ip : String) (now : Time) : Bool × RateLimiter :=
  let log0 : List Time := match rl.requestsMap ip with
    | some l => l
    | none => []
  let log1 := compact (fun requestTime => decide (now - requestTime ≤ rl.window)) log0
  if (log1.length : Int) ≥ rl.limit then
    (false, { rl with requestsMap := rl.requestsMap.store ip log1 })
  else
    (true, { rl with requestsMap := rl.requestsMap.store ip (log1 ++ [now]) })

end slidingwindow

namespace fixedwindow

/-- The fixedwindow.Window struct. -/
structure Window where
  count : Int
  expireTime : Time
  deriving DecidableEq

/-- The fixedwindow.RateLimiter struct (mutex omitted). -/
structure RateLimiter where
  requestsPerSecond : Int
  windows : GoMap Window

/-- Constructor fixedwindow.NewRateLimiter. -/
def NewRateLimiter (rps : Int) : RateLimiter :=
  { requestsPerSecond := rps, windows := GoMap.make }

/-- Method fixedwindow.RateLimiter.Allow; `now` is the value of time.Now(). -/
def RateLimiter.Allow (rl : RateLimiter) (ip : String) (now : Time) : Bool × RateLimiter :=
  match rl.windows ip with
  | some window =>
    if now > window.expireTime then
      (true, { rl with windows := rl.windows.store ip { count := 1, expireTime := now + 1 * Second } })
    else if window.count < rl.requestsPerSecond then
      (true, { rl with windows := rl.windows.store ip { window with count := window.count + 1 } })
    else
      (false, rl)
  | none =>
    (true, { rl with windows := rl.windows.store ip { count := 1, expireTime := now + 1 * Second } })

/-- Calls of Allow for one key at the given times: the times of the admitted calls. -/
def admitted (rl : RateLimiter) (ip : String) : List Time → List Time
  | [] => []
  | now :: rest =>
    if (rl.Allow ip now).1 then now :: admitted (rl.Allow ip now).2 ip rest
    else admitted (rl.Allow ip now).2 ip rest

end fixedwindow

namespace leakybucket

/-- The leakybucket.LeakyBucket struct (mutex omitted); the three float64 fields
hold the rational numbers they denote. -/
structure LeakyBucket where
  Capacity : ℚ
  FillRate : ℚ
  Water : ℚ
  lastChecked : Time

/-- Constructor leakybucket.NewLeakyBucket; `now` is the value of time.Now(). -/
def NewLeakyBucket (capacity fillRate : ℚ) (now : Time) : LeakyBucket :=
  { Capacity := capacity, FillRate := fillRate, Water := 0, lastChecked := now }

/-- The water left by the leak step that AddWater (lines 36-42) and LeakWater
(lines 71-77) share: Water minus the leakage of the elapsed time, not below 0. -/
def LeakyBucket.leaked (b : LeakyBucket) (now : Time) : ℚ :=
  let elapsed := Duration.Seconds (now - b.lastChecked)
  let leakage := f64 (elapsed * b.FillRate)
  let water := f64 (b.Water - leakage)
  if water < 0 then 0 else water

/-- Method leakybucket.LeakyBucket.AddWater; `now` is the value of time.Now(). -/
def LeakyBucket.AddWater (b : LeakyBucket) (amount : ℚ) (now : Time) : Bool × LeakyBucket :=
  let elapsed := Duration.Seconds (now - b.lastChecked)
  let leakage := f64 (elapsed * b.FillRate)
  let water := f64 (b.Water - leakage)
  let water := if water < 0 then 0 else water
  if f64 (water + amount) > b.Capacity then
    (false, { b with Water := water })
  else
    (true, { b with Water := f64 (water + amount), lastChecked := now })

/-- Method leakybucket.LeakyBucket.LeakWater; `now` is the value of time.Now(). -/
def LeakyBucket.LeakWater (b : LeakyBucket) (now : Time) : LeakyBucket :=
  let elapsed := Duration.Seconds (now - b.lastChecked)
  let leakage := f64 (elapsed * b.FillRate)
  let water := f64 (b.Water - leakage)
  let water := if water < 0 then 0 else water
  { b with Water := water, lastChecked := now }

/-- The leakybucket.IPRateLimiter struct (mutex omitted). -/
structure IPRateLimiter where
  buckets : GoMap LeakyBucket

/-- Constructor leakybucket.NewIPRateLimiter: both parameters are unused in the source. -/
def NewIPRateLimiter (_capacity _fillRate : ℚ) : IPRateLimiter :=
  { buckets := GoMap.make }

/-- Method leakybucket.IPRateLimiter.AllowRequest; `created` is the clock read by
NewLeakyBucket when the key is new, `now` the clock read by AddWater. -/
def IPRateLimiter.AllowRequest (rl : IPRateLimiter) (ip : String) (created now : Time) :
    Bool × IPRateLimiter :=
  let bucket : LeakyBucket := match rl.buckets ip with
    | some b => b
    | none => NewLeakyBucket 5 1 created
  let r := bucket.AddWater 1 now
  (r.1, { buckets := rl.buckets.store ip r.2 })

end leakybucket

namespace tokenbucket

/-- The tokenbucket.TokenBucket struct (mutex omitted). -/
structure TokenBucket where
  rate : Int
  capacity : Int
  tokens : Int
  lastRefill : Time

/-- Constructor tokenbucket.newTokenBucket; `now` is the value of time.Now(). -/
def newTokenBucket (rate capacity : Int) (now : Time) : TokenBucket :=
  { rate := rate, capacity := capacity, tokens := capacity, lastRefill := now }

/-- The value of `newTokens` in refillInternal (line 44) as a function of the
elapsed duration and the rate: `int(elapsed.Seconds() * float64(rate))`. -/
def newTokens (elapsed : Duration) (rate : Int) : Int :=
  f64ToInt (f64 (Duration.Seconds elapsed * f64 (rate : ℚ)))

/-- Method tokenbucket.TokenBucket.refillInternal; `since` is the clock read by
time.Since on line 41, `now` the clock read by time.Now() on line 50. -/
def TokenBucket.refillInternal (tb : TokenBucket) (since now : Time) : TokenBucket :=
  let elapsed := Duration.Seconds (since - tb.lastRefill)
  let newTokens := f64ToInt (f64 (elapsed * f64 (tb.rate : ℚ)))
  { tb with tokens := min (wrap64 (tb.tokens + newTokens)) tb.capacity, lastRefill := now }

/-- Method tokenbucket.TokenBucket.Refill. -/
def TokenBucket.Refill (tb : TokenBucket) (since now : Time) : TokenBucket :=
  tb.refillInternal since now

/-- Method tokenbucket.TokenBucket.Allow. -/
def TokenBucket.Allow (tb : TokenBucket) (since now : Time) : Bool × TokenBucket :=
  let tb := tb.refillInternal since now
  if tb.tokens > 0 then
    (true, { tb with tokens := tb.tokens - 1 })
  else
    (false, tb)

/-- A sequence of Allow calls on one bucket, each given by its two clock reads
`(since, now)`: the decisions, in order. -/
def decisions (tb : TokenBucket) : List (Time × Time) → List Bool
  | [] => []
  | c :: rest => (tb.Allow c.1 c.2).1 :: decisions (tb.Allow c.1 c.2).2 rest

/-- The bucket after a sequence of Allow calls. -/
def run (tb : TokenBucket) : List (Time × Time) → TokenBucket
  | [] => tb
  | c :: rest => run (tb.Allow c.1 c.2).2 rest

/-- All clock reads of a sequence of Allow calls, in the order they are taken. -/
def reads : List (Time × Time) → List Time
  | [] => []
  | c :: rest => c.1 :: c.2 :: reads rest

/-- The first clock read of the last call of a sequence, `t` for no call. -/
def lastRead (t : Time) : List (Time × Time) → Time
  | [] => t
  | c :: rest => lastRead c.1 rest

/-- The tokenbucket.RateLimiter struct (mutex omitted). -/
structure RateLimiter where
  rate : Int
  capacity : Int
  buckets : GoMap TokenBucket

/-- Constructor tokenbucket.NewRateLimiter. -/
def NewRateLimiter (rate capacity : Int) : RateLimiter :=
  { rate := rate, capacity := capacity, buckets := GoMap.make }

/-- Method tokenbucket.RateLimiter.Allow; `created` is the clock read by
newTokenBucket when the key is new, `since` and `now` the two reads of the refill. -/
def RateLimiter.Allow (rl : RateLimiter) (ip : String) (created since now : Time) :
    Bool × RateLimiter :=
  let bucket : TokenBucket := match rl.buckets ip with
    | some b => b
    | none => newTokenBucket rl.rate rl.capacity created
  let r := bucket.Allow since now
  (r.1, { rl with buckets := rl.buckets.store ip r.2 })

end tokenbucket

namespace slidinglog

/-- The limiter after a sequence of Allow calls, each a key with its clock read. -/
def run (rl : RateLimiter) : List (String × Time) → RateLimiter
  | [] => rl
  | c :: rest => run (rl.Allow c.1 c.2).2 rest

end slidinglog

namespace slidingwindow

/-- Calls of Allow for one key at the given times, in order: the decisions. -/
def decisions (rl : RateLimiter) (ip : String) : List Time → List Bool
  | [] => []
  | now :: rest => (rl.Allow ip now).1 :: decisions (rl.Allow ip now).2 ip rest

/-- The limiter after a sequence of Allow calls, each a key with its clock read. -/
def run (rl : RateLimiter) : List (String × Time) → RateLimiter
  | [] => rl
  | c :: rest => run (rl.Allow c.1 c.2).2 rest

end slidingwindow

namespace fixedwindow

/-- Calls of Allow for one key at the given times, in order: the decisions. -/
def decisions (rl : RateLimiter) (ip : String) : List Time → List Bool
  | [] => []
  | now :: rest => (rl.Allow ip now).1 :: decisions (rl.Allow ip now).2 ip rest

/-- The limiter after a sequence of Allow calls, each a key with its clock read. -/
def run (rl : RateLimiter) : List (String × Time) → RateLimiter
  | [] => rl
  | c :: rest => run (rl.Allow c.1 c.2).2 rest

end fixedwindow

namespace leakybucket

/-- A call on a bucket: AddWater with its amount, or LeakWater, each with the
clock read of the call. -/
inductive Call where
  | AddWater (amount : ℚ) (now : Time)
  | LeakWater (now : Time)

/-- The clock read of a call. -/
def Call.now : Call → Time
  | Call.AddWater _ now => now
  | Call.LeakWater now => now

/-- The amount of a call, 0 for LeakWater. -/
def Call.amount : Call → ℚ
  | Call.AddWater amount _ => amount
  | Call.LeakWater _ => 0

/-- The bucket after one call. -/
def LeakyBucket.call (b : LeakyBucket) : Call → LeakyBucket
  | Call.AddWater amount now => (b.AddWater amount now).2
  | Call.LeakWater now => b.LeakWater now

/-- Whether a call is an AddWater that returns true. -/
def LeakyBucket.admits (b : LeakyBucket) : Call → Bool
  | Call.AddWater amount now => (b.AddWater amount now).1
  | Call.LeakWater _ => false

/-- The bucket after a sequence of calls. -/
def LeakyBucket.run (b : LeakyBucket) : List Call → LeakyBucket
  | [] => b
  | c :: rest => LeakyBucket.run (b.call c) rest

end leakybucket

namespace tokenbucket

/-- A call on a bucket: Allow or Refill, each with the two clock reads of the
refill, `since` and `now`. -/
inductive Call where
  | Allow (since now : Time)
  | Refill (since now : Time)

/-- The two clock reads of a call. -/
def Call.reads : Call → List Time
  | Call.Allow since now => [since, now]
  | Call.Refill since now => [since, now]

/-- The bucket after one call. -/
def TokenBucket.call (tb : TokenBucket) : Call → TokenBucket
  | Call.Allow since now => (tb.Allow since now).2
  | Call.Refill since now => tb.Refill since now

/-- The bucket after a sequence of calls. -/
def TokenBucket.runCalls (tb : TokenBucket) : List Call → TokenBucket
  | [] => tb
  | c :: rest => TokenBucket.runCalls (tb.call c) rest

/-- All clock reads of a sequence of calls, in the order they are taken. -/
def callReads : List Call → List Time
  | [] => []
  | c :: rest => c.reads ++ callReads rest

end tokenbucket

/-- State invariant of the two timestamp-log limiters: every stored log has at
most `L` entries, is in non-decreasing order, and holds no time later than `hi`. -/
def logsBounded (logs : GoMap (List Time)) (L : Int) (hi : Time) : Prop :=
  ∀ k : String, (((logs k).getD []).length : Int) ≤ L
    ∧ ((logs k).getD []).Pairwise (· ≤ ·)
    ∧ ∀ ts ∈ (logs k).getD [], ts ≤ hi

/-- A sequence of Allow calls on a token bucket of rate `r` in which every call
reads the clock (its `since`) not earlier than, and less than `1/r` seconds
after, the instant `last` stored in lastRefill by the call before it. -/
def tokenbucket.closelySpaced (r : Int) (last : Time) : List (Time × Time) → Prop
  | [] => True
  | c :: rest =>
    last ≤ c.1 ∧ seconds (c.1 - last) * (r : ℚ) < 1 ∧ tokenbucket.closelySpaced r c.2 rest

/-! ## Theorems -/

/-! ### float64 rounding, Duration.Seconds and the refill amount -/

/-- Rounding to an integer does not pass an integer above the value. -/
theorem roundHalfEven_le (x : ℚ) (n : ℤ) (h : x ≤ n) : roundHalfEven x ≤ n := by
  have hf : ⌊x⌋ ≤ n := by
    have := Int.floor_le x
    exact_mod_cast (le_trans this h)
  unfold roundHalfEven
  by_cases hx : x = n
  · have : x - ⌊x⌋ < 1 / 2 := by rw [hx]; simp
    rw [if_pos this]; exact hf
  · have hlt : x < n := lt_of_le_of_ne h hx
    have hf1 : ⌊x⌋ + 1 ≤ n := by
      have : ⌊x⌋ < n := Int.floor_lt.mpr hlt
      omega
    split_ifs <;> omega

/-- Rounding to an integer does not pass an integer below the value. -/
theorem le_roundHalfEven (x : ℚ) (n : ℤ) (h : (n : ℚ) ≤ x) : n ≤ roundHalfEven x := by
  have hf : n ≤ ⌊x⌋ := Int.le_floor.mpr h
  unfold roundHalfEven
  split_ifs <;> omega

/-- An integer rounds to itself. -/
theorem roundHalfEven_intCast (n : ℤ) : roundHalfEven (n : ℚ) = n :=
  le_antisymm (roundHalfEven_le _ _ le_rfl) (le_roundHalfEven _ _ le_rfl)

/-- Rounding to an integer moves the value by at most 1/2. -/
theorem abs_roundHalfEven_sub_le (x : ℚ) : |(roundHalfEven x : ℚ) - x| ≤ 1 / 2 := by
  have h1 := Int.floor_le x
  have h2 := Int.lt_floor_add_one x
  unfold roundHalfEven
  rw [abs_le]
  split_ifs with a b c
  · constructor <;> linarith
  · push_cast; constructor <;> linarith
  · constructor <;> linarith
  · push_cast; constructor <;> linarith

/-- A value less than 1/2 away from an integer rounds to that integer. -/
theorem roundHalfEven_eq_of_abs_lt (x : ℚ) (M : ℤ) (h : |x - M| < 1 / 2) :
    roundHalfEven x = M := by
  have h1 := abs_roundHalfEven_sub_le x
  rw [abs_le] at h1
  rw [abs_lt] at h
  have a : ((roundHalfEven x : ℤ) : ℚ) < (M : ℚ) + 1 := by linarith [h1.1, h1.2, h.1, h.2]
  have b : (M : ℚ) < (roundHalfEven x : ℚ) + 1 := by linarith [h1.1, h1.2, h.1, h.2]
  have a' : roundHalfEven x < M + 1 := by exact_mod_cast a
  have b' : M < roundHalfEven x + 1 := by exact_mod_cast b
  omega

/-- The binary64 exponent is at least -1022. -/
theorem f64Exp_ge (x : ℚ) : -1022 ≤ f64Exp x := le_max_right _ _

/-- A value lies below the upper end of its binade. -/
theorem lt_two_zpow_f64Exp (x : ℚ) : |x| < 2 ^ (f64Exp x + 1) := by
  have h1 : |x| < ((2 : ℕ) : ℚ) ^ (Int.log 2 |x| + 1) := Int.lt_zpow_succ_log_self (by norm_num) _
  have h2 : ((2 : ℕ) : ℚ) ^ (Int.log 2 |x| + 1) ≤ (2 : ℚ) ^ (f64Exp x + 1) := by
    rw [Nat.cast_ofNat]
    apply zpow_le_zpow_right₀ (by norm_num)
    have : Int.log 2 |x| ≤ f64Exp x := le_max_left _ _
    omega
  exact lt_of_lt_of_le h1 h2

/-- Above -1022 the binary64 exponent is the binary logarithm. -/
theorem f64Exp_eq_log (x : ℚ) (h : -1022 < f64Exp x) : f64Exp x = Int.log 2 |x| := by
  unfold f64Exp at *
  rcases le_total (Int.log 2 |x|) (-1022) with h1 | h1
  · rw [max_eq_right h1] at h
    omega
  · exact max_eq_left h1

/-- A value with exponent above -1022 lies at or above the lower end of its binade. -/
theorem two_zpow_f64Exp_le (x : ℚ) (hx : 0 < |x|) (h : -1022 < f64Exp x) :
    2 ^ f64Exp x ≤ |x| := by
  rw [f64Exp_eq_log x h]
  have := Int.zpow_log_le_self (b := 2) (r := |x|) (by norm_num) hx
  rwa [Nat.cast_ofNat] at this

/-- The binary64 exponent is monotone in the magnitude. -/
theorem f64Exp_mono (x y : ℚ) (hx : 0 < |x|) (h : |x| ≤ |y|) : f64Exp x ≤ f64Exp y := by
  unfold f64Exp
  exact max_le_max (Int.log_mono_right hx h) le_rfl

/-- A value below `2^(k+1)` has exponent at most `k`, for `k >= -1022`. -/
theorem f64Exp_le_of_lt (x : ℚ) (k : ℤ) (hx : 0 < |x|) (hk : -1022 ≤ k) (h : |x| < 2 ^ (k + 1)) :
    f64Exp x ≤ k := by
  unfold f64Exp
  apply max_le _ hk
  have h' : |x| < ((2 : ℕ) : ℚ) ^ (k + 1) := by rwa [Nat.cast_ofNat]
  have := (Int.lt_zpow_iff_log_lt (b := 2) (by norm_num) hx).mp h'
  omega

/-- Zero is a float64 value. -/
theorem f64_zero : f64 0 = 0 := by
  simp [f64, roundHalfEven]

/-- Powers of two are positive. -/
theorem two_zpow_pos (k : ℤ) : (0 : ℚ) < 2 ^ k := zpow_pos (by norm_num) k

/-- Rounding keeps a value that is not negative not negative. -/
theorem f64_nonneg (x : ℚ) (hx : 0 ≤ x) : 0 ≤ f64 x := by
  unfold f64
  apply mul_nonneg _ (le_of_lt (two_zpow_pos _))
  have : (0 : ℤ) ≤ roundHalfEven (x / 2 ^ (f64Exp x - 52)) :=
    le_roundHalfEven _ 0 (by
      push_cast
      exact div_nonneg hx (le_of_lt (two_zpow_pos _)))
  exact_mod_cast this

/-- Rounding keeps a value that is not positive not positive. -/
theorem f64_nonpos (x : ℚ) (hx : x ≤ 0) : f64 x ≤ 0 := by
  unfold f64
  apply mul_nonpos_of_nonpos_of_nonneg _ (le_of_lt (two_zpow_pos _))
  have : roundHalfEven (x / 2 ^ (f64Exp x - 52)) ≤ (0 : ℤ) :=
    roundHalfEven_le _ 0 (by
      push_cast
      exact div_nonpos_of_nonpos_of_nonneg hx (le_of_lt (two_zpow_pos _)))
  exact_mod_cast this

/-- If the scaled value is an integer, the value is representable. -/
theorem f64_eq_self_of_int (x : ℚ) (N : ℤ) (h : x / 2 ^ (f64Exp x - 52) = N) : f64 x = x := by
  unfold f64
  rw [h, roundHalfEven_intCast, ← h]
  exact div_mul_cancel₀ _ (ne_of_gt (two_zpow_pos _))

/-- A representable value scaled by its own binade is an integer. -/
theorem f64_scaled_int (y : ℚ) (hy : f64 y = y) :
    y / 2 ^ (f64Exp y - 52) = (roundHalfEven (y / 2 ^ (f64Exp y - 52)) : ℚ) := by
  have h : (roundHalfEven (y / 2 ^ (f64Exp y - 52)) : ℚ) * 2 ^ (f64Exp y - 52) = y := hy
  exact (eq_div_iff (ne_of_gt (two_zpow_pos _))).mpr h |>.symm

/-- `2^53` times the unit of the binade `k` is `2^(k+1)`. -/
theorem two_pow53_mul (k : ℤ) : (9007199254740992 : ℚ) * 2 ^ (k - 52) = 2 ^ (k + 1) := by
  have h : (9007199254740992 : ℚ) = 2 ^ (53 : ℤ) := by norm_num
  rw [h, ← zpow_add₀ (by norm_num : (2 : ℚ) ≠ 0)]
  congr 1
  ring

/-- `2^52` times the unit of the binade `k` is `2^k`. -/
theorem two_pow52_mul (k : ℤ) : (4503599627370496 : ℚ) * 2 ^ (k - 52) = 2 ^ k := by
  have h : (4503599627370496 : ℚ) = 2 ^ (52 : ℤ) := by norm_num
  rw [h, ← zpow_add₀ (by norm_num : (2 : ℚ) ≠ 0)]
  congr 1
  ring

/-- The significand of a rounded value is at most 2^53. -/
theorem roundHalfEven_scaled_le (x : ℚ) (hx : 0 ≤ x) :
    roundHalfEven (x / 2 ^ (f64Exp x - 52)) ≤ 9007199254740992 := by
  apply roundHalfEven_le
  rw [div_le_iff₀ (two_zpow_pos _)]
  push_cast
  rw [two_pow53_mul]
  have := lt_two_zpow_f64Exp x
  rw [abs_of_nonneg hx] at this
  exact le_of_lt this

/-- Above the subnormal range the significand of a rounded value is at least 2^52. -/
theorem le_roundHalfEven_scaled (x : ℚ) (hx : 0 < x) (h : -1022 < f64Exp x) :
    4503599627370496 ≤ roundHalfEven (x / 2 ^ (f64Exp x - 52)) := by
  apply le_roundHalfEven
  rw [le_div_iff₀ (two_zpow_pos _)]
  push_cast
  rw [two_pow52_mul]
  have := two_zpow_f64Exp_le x (by rw [abs_of_pos hx]; exact hx) h
  rwa [abs_of_pos hx] at this

/-- Rounding never crosses a representable value from below. -/
theorem f64_le_of_le (x y : ℚ) (hxy : x ≤ y) (hy0 : 0 ≤ y) (hy : f64 y = y) : f64 x ≤ y := by
  rcases le_or_lt x 0 with hx | hx
  · exact le_trans (f64_nonpos x hx) hy0
  have hypos : 0 < y := lt_of_lt_of_le hx hxy
  have hax : |x| = x := abs_of_pos hx
  have hay : |y| = y := abs_of_pos hypos
  have hmono : f64Exp x ≤ f64Exp y :=
    f64Exp_mono x y (by rw [hax]; exact hx) (by rw [hax, hay]; exact hxy)
  rcases eq_or_lt_of_le hmono with he | he
  · have hN := f64_scaled_int y hy
    have hle : x / 2 ^ (f64Exp x - 52) ≤ (roundHalfEven (y / 2 ^ (f64Exp y - 52)) : ℚ) := by
      rw [← hN, he]
      exact div_le_div_of_nonneg_right hxy (le_of_lt (two_zpow_pos _))
    have hR := roundHalfEven_le _ _ hle
    have hR' : (roundHalfEven (x / 2 ^ (f64Exp x - 52)) : ℚ)
        ≤ (roundHalfEven (y / 2 ^ (f64Exp y - 52)) : ℚ) := by exact_mod_cast hR
    calc f64 x = (roundHalfEven (x / 2 ^ (f64Exp x - 52)) : ℚ) * 2 ^ (f64Exp x - 52) := rfl
      _ ≤ (roundHalfEven (y / 2 ^ (f64Exp y - 52)) : ℚ) * 2 ^ (f64Exp x - 52) :=
          mul_le_mul_of_nonneg_right hR' (le_of_lt (two_zpow_pos _))
      _ = y := by rw [he]; exact hy
  · have hylog : 2 ^ f64Exp y ≤ y := by
      have := two_zpow_f64Exp_le y (by rw [hay]; exact hypos) (by have := f64Exp_ge x; omega)
      rwa [hay] at this
    have hR := roundHalfEven_scaled_le x (le_of_lt hx)
    have hR' : (roundHalfEven (x / 2 ^ (f64Exp x - 52)) : ℚ) ≤ 9007199254740992 := by
      exact_mod_cast hR
    calc f64 x = (roundHalfEven (x / 2 ^ (f64Exp x - 52)) : ℚ) * 2 ^ (f64Exp x - 52) := rfl
      _ ≤ 9007199254740992 * 2 ^ (f64Exp x - 52) :=
          mul_le_mul_of_nonneg_right hR' (le_of_lt (two_zpow_pos _))
      _ = 2 ^ (f64Exp x + 1) := two_pow53_mul _
      _ ≤ 2 ^ f64Exp y := zpow_le_zpow_right₀ (by norm_num) (by omega)
      _ ≤ y := hylog

/-- Rounding never crosses a representable value from above. -/
theorem le_f64_of_le (x y : ℚ) (hyx : y ≤ x) (hy0 : 0 ≤ y) (hy : f64 y = y) : y ≤ f64 x := by
  rcases eq_or_lt_of_le hy0 with h0 | hypos
  · rw [← h0]
    exact f64_nonneg x (le_trans hy0 hyx)
  have hx : 0 < x := lt_of_lt_of_le hypos hyx
  have hax : |x| = x := abs_of_pos hx
  have hay : |y| = y := abs_of_pos hypos
  have hmono : f64Exp y ≤ f64Exp x :=
    f64Exp_mono y x (by rw [hay]; exact hypos) (by rw [hax, hay]; exact hyx)
  rcases eq_or_lt_of_le hmono with he | he
  · have hN := f64_scaled_int y hy
    have hle : (roundHalfEven (y / 2 ^ (f64Exp y - 52)) : ℚ) ≤ x / 2 ^ (f64Exp x - 52) := by
      rw [← hN, he]
      exact div_le_div_of_nonneg_right hyx (le_of_lt (two_zpow_pos _))
    have hR := le_roundHalfEven _ _ hle
    have hR' : (roundHalfEven (y / 2 ^ (f64Exp y - 52)) : ℚ)
        ≤ (roundHalfEven (x / 2 ^ (f64Exp x - 52)) : ℚ) := by exact_mod_cast hR
    calc y = (roundHalfEven (y / 2 ^ (f64Exp y - 52)) : ℚ) * 2 ^ (f64Exp y - 52) := hy.symm
      _ = (roundHalfEven (y / 2 ^ (f64Exp y - 52)) : ℚ) * 2 ^ (f64Exp x - 52) := by rw [he]
      _ ≤ (roundHalfEven (x / 2 ^ (f64Exp x - 52)) : ℚ) * 2 ^ (f64Exp x - 52) :=
          mul_le_mul_of_nonneg_right hR' (le_of_lt (two_zpow_pos _))
      _ = f64 x := rfl
  · have hR := le_roundHalfEven_scaled x hx (by have := f64Exp_ge y; omega)
    have hR' : (4503599627370496 : ℚ) ≤ (roundHalfEven (x / 2 ^ (f64Exp x - 52)) : ℚ) := by
      exact_mod_cast hR
    have hylt : y < 2 ^ (f64Exp y + 1) := by
      have := lt_two_zpow_f64Exp y
      rwa [hay] at this
    calc y ≤ 2 ^ (f64Exp y + 1) := le_of_lt hylt
      _ ≤ 2 ^ f64Exp x := zpow_le_zpow_right₀ (by norm_num) (by omega)
      _ = 4503599627370496 * 2 ^ (f64Exp x - 52) := (two_pow52_mul _).symm
      _ ≤ (roundHalfEven (x / 2 ^ (f64Exp x - 52)) : ℚ) * 2 ^ (f64Exp x - 52) :=
          mul_le_mul_of_nonneg_right hR' (le_of_lt (two_zpow_pos _))
      _ = f64 x := rfl

/-- Every `M * 2^k` with `0 < M < 2^53` and `k >= -1074` is a float64 value. -/
theorem f64_mul_two_zpow_pos (M k : ℤ) (hM0 : 0 < M) (hM : M < 9007199254740992)
    (hk : -1074 ≤ k) : f64 ((M : ℚ) * 2 ^ k) = (M : ℚ) * 2 ^ k := by
  have hMq : (0 : ℚ) < (M : ℚ) := by exact_mod_cast hM0
  have hx : (0 : ℚ) < (M : ℚ) * 2 ^ k := mul_pos hMq (two_zpow_pos k)
  have hlt : |(M : ℚ) * 2 ^ k| < 2 ^ (k + 52 + 1) := by
    rw [abs_of_pos hx]
    have h1 : (M : ℚ) < 9007199254740992 := by exact_mod_cast hM
    calc (M : ℚ) * 2 ^ k < 9007199254740992 * 2 ^ k :=
          mul_lt_mul_of_pos_right h1 (two_zpow_pos k)
      _ = 9007199254740992 * 2 ^ (k + 52 - 52) := by rw [add_sub_cancel_right]
      _ = 2 ^ (k + 52 + 1) := two_pow53_mul _
  have he : f64Exp ((M : ℚ) * 2 ^ k) ≤ k + 52 :=
    f64Exp_le_of_lt _ (k + 52) (by rw [abs_of_pos hx]; exact hx) (by omega) hlt
  obtain ⟨j, hj⟩ : ∃ j : ℕ, k = (f64Exp ((M : ℚ) * 2 ^ k) - 52) + (j : ℤ) :=
    ⟨(k - (f64Exp ((M : ℚ) * 2 ^ k) - 52)).toNat, by omega⟩
  apply f64_eq_self_of_int _ (M * 2 ^ j)
  rw [div_eq_iff (ne_of_gt (two_zpow_pos _))]
  push_cast
  rw [mul_assoc, ← zpow_natCast, ← zpow_add₀ (by norm_num : (2 : ℚ) ≠ 0), add_comm, ← hj]

/-- Every power of two from `2^(-1074)` on is a float64 value. -/
theorem f64_two_zpow (k : ℤ) (hk : -1074 ≤ k) : f64 (2 ^ k) = 2 ^ k := by
  have := f64_mul_two_zpow_pos 1 k (by norm_num) (by norm_num) hk
  simpa using this

/-- Every `M * 2^k` with `0 <= M <= 2^53` and `k >= -1074` is a float64 value. -/
theorem f64_mul_two_zpow (M k : ℤ) (hM0 : 0 ≤ M) (hM : M ≤ 9007199254740992)
    (hk : -1074 ≤ k) : f64 ((M : ℚ) * 2 ^ k) = (M : ℚ) * 2 ^ k := by
  rcases eq_or_lt_of_le hM0 with h0 | h0
  · rw [← h0]
    simp [f64_zero]
  rcases eq_or_lt_of_le hM with h1 | h1
  · rw [h1]
    have e : ((9007199254740992 : ℤ) : ℚ) * 2 ^ k = 2 ^ (k + 53) := by
      have := two_pow53_mul (k + 52)
      rw [add_sub_cancel_right] at this
      push_cast
      rw [this]
      congr 1
      ring
    rw [e]
    exact f64_two_zpow _ (by omega)
  · exact f64_mul_two_zpow_pos M k h0 h1 hk

/-- The conversion float64(n) is exact for `0 <= n <= 2^53`. -/
theorem f64_intCast (n : ℤ) (h0 : 0 ≤ n) (h : n ≤ 9007199254740992) : f64 (n : ℚ) = n := by
  have := f64_mul_two_zpow n 0 h0 h (by norm_num)
  simpa using this

/-- Rounding is idempotent. -/
theorem f64_f64 (x : ℚ) (hx : 0 ≤ x) : f64 (f64 x) = f64 x := by
  have h1 : (0 : ℤ) ≤ roundHalfEven (x / 2 ^ (f64Exp x - 52)) :=
    le_roundHalfEven _ 0 (by
      push_cast
      exact div_nonneg hx (le_of_lt (two_zpow_pos _)))
  have h2 := roundHalfEven_scaled_le x hx
  exact f64_mul_two_zpow _ _ h1 h2 (by have := f64Exp_ge x; omega)

/-- The exponent of a value at or above `2^(-1022)` is its binary logarithm. -/
theorem two_zpow_f64Exp_le_of_normal (x : ℚ) (hx : (2 : ℚ) ^ (-1022 : ℤ) ≤ x) :
    2 ^ f64Exp x ≤ x := by
  have hpos : 0 < x := lt_of_lt_of_le (two_zpow_pos _) hx
  have hlog : (-1022 : ℤ) ≤ Int.log 2 |x| := by
    rw [← Int.zpow_le_iff_le_log (by norm_num) (by rw [abs_of_pos hpos]; exact hpos)]
    rw [abs_of_pos hpos, Nat.cast_ofNat]
    exact hx
  have he : f64Exp x = Int.log 2 |x| := max_eq_left hlog
  rw [he, abs_of_pos hpos]
  have := Int.zpow_log_le_self (b := 2) (r := x) (by norm_num) hpos
  rwa [Nat.cast_ofNat] at this

/-- Relative rounding error, for a value at or above `2^(-1022)` (the normal
range): at most `2^(-53)` of the value. -/
theorem abs_f64_sub_le_of_normal (x : ℚ) (hx : (2 : ℚ) ^ (-1022 : ℤ) ≤ x) :
    |f64 x - x| ≤ x / 9007199254740992 := by
  have h2e := two_zpow_f64Exp_le_of_normal x hx
  have hs : (0 : ℚ) < 2 ^ (f64Exp x - 52) := two_zpow_pos _
  have hR := abs_roundHalfEven_sub_le (x / 2 ^ (f64Exp x - 52))
  have hfx : f64 x - x
      = ((roundHalfEven (x / 2 ^ (f64Exp x - 52)) : ℚ) - x / 2 ^ (f64Exp x - 52))
        * 2 ^ (f64Exp x - 52) := by
    unfold f64
    rw [sub_mul, div_mul_cancel₀ _ (ne_of_gt hs)]
  rw [hfx, abs_mul, abs_of_pos hs]
  have hthis : (2 : ℚ) ^ (f64Exp x - 52) = 2 ^ f64Exp x / 4503599627370496 := by
    rw [eq_div_iff (by norm_num), mul_comm, two_pow52_mul]
  calc |(roundHalfEven (x / 2 ^ (f64Exp x - 52)) : ℚ) - x / 2 ^ (f64Exp x - 52)|
        * 2 ^ (f64Exp x - 52)
      ≤ 1 / 2 * 2 ^ (f64Exp x - 52) := mul_le_mul_of_nonneg_right hR (le_of_lt hs)
    _ = 2 ^ f64Exp x / 9007199254740992 := by rw [hthis]; ring
    _ ≤ x / 9007199254740992 := div_le_div_of_nonneg_right h2e (by norm_num)

/-- A value of at least `2^(-30)` lies in the normal range. -/
theorem normal_of_ge (x : ℚ) (hx : 1 / 1073741824 ≤ x) : (2 : ℚ) ^ (-1022 : ℤ) ≤ x := by
  have h1 : (2 : ℚ) ^ (-1022 : ℤ) ≤ 2 ^ (-30 : ℤ) :=
    zpow_le_zpow_right₀ (by norm_num) (by norm_num)
  have h2 : (2 : ℚ) ^ (-30 : ℤ) = 1 / 1073741824 := by norm_num
  rw [h2] at h1
  exact le_trans h1 hx

/-- Relative rounding error, for a value of at least `2^(-30)`: at most `2^(-53)`
of the value. -/
theorem abs_f64_sub_le (x : ℚ) (hx : 1 / 1073741824 ≤ x) :
    |f64 x - x| ≤ x / 9007199254740992 :=
  abs_f64_sub_le_of_normal x (normal_of_ge x hx)

/-- Evaluation of a rounding: `x` in the binade of `2^e` whose scaled value is
within 1/2 of the integer `M` rounds to `M * 2^(e - 52)`. -/
theorem f64_eval (x : ℚ) (e M : ℤ) (hx : 0 < x) (he : -1022 ≤ e) (h1 : 2 ^ e ≤ x)
    (h2 : x < 2 ^ (e + 1)) (hM : |x / 2 ^ (e - 52) - M| < 1 / 2) :
    f64 x = (M : ℚ) * 2 ^ (e - 52) := by
  have hlog : Int.log 2 |x| = e := by
    rw [abs_of_pos hx]
    have a : e ≤ Int.log 2 x := by
      rw [← Int.zpow_le_iff_le_log (by norm_num) hx, Nat.cast_ofNat]
      exact h1
    have b : Int.log 2 x < e + 1 := by
      rw [← Int.lt_zpow_iff_log_lt (by norm_num) hx, Nat.cast_ofNat]
      exact h2
    omega
  have hexp : f64Exp x = e := by
    unfold f64Exp
    rw [hlog]
    exact max_eq_left he
  unfold f64
  rw [hexp, roundHalfEven_eq_of_abs_lt _ M hM]

/-- Rounding a value equal to 0 or at least `2^(-30)` raises it by at most the
factor `1 + 2^(-53)`. -/
theorem f64_le_mul_of_ge (x : ℚ) (hx : x = 0 ∨ 1 / 1073741824 ≤ x) :
    f64 x ≤ x * (1 + 1 / 9007199254740992) := by
  rcases hx with h | h
  · rw [h, f64_zero]; norm_num
  · have := abs_f64_sub_le x h
    rw [abs_le] at this
    linarith [this.2]

/-- Rounding a value equal to 0 or at least `2^(-30)` lowers it by at most the
factor `1 - 2^(-53)`. -/
theorem mul_le_f64_of_ge (x : ℚ) (hx : x = 0 ∨ 1 / 1073741824 ≤ x) :
    x * (1 - 1 / 9007199254740992) ≤ f64 x := by
  rcases hx with h | h
  · rw [h, f64_zero]; norm_num
  · have := abs_f64_sub_le x h
    rw [abs_le] at this
    linarith [this.1]

/-- An int64 operation whose exact result is in the int64 range does not wrap. -/
theorem wrap64_of_range (x : Int) (h1 : -9223372036854775808 ≤ x)
    (h2 : x ≤ 9223372036854775807) : wrap64 x = x := by
  unfold wrap64
  omega

/-- The conversion int(x) of a float64 in the int64 range is the truncation. -/
theorem f64ToInt_of_range (x : ℚ) (h0 : 0 ≤ x) (h1 : x ≤ 9223372036854775807) :
    f64ToInt x = ⌊x⌋ := by
  have hf0 : 0 ≤ ⌊x⌋ := Int.floor_nonneg.mpr h0
  have hf1 : ⌊x⌋ ≤ 9223372036854775807 := by
    have : (⌊x⌋ : ℚ) ≤ ((9223372036854775807 : Int) : ℚ) := by
      push_cast
      exact le_trans (Int.floor_le x) h1
    exact_mod_cast this
  unfold f64ToInt truncate
  rw [if_pos h0, if_pos ⟨by omega, hf1⟩]

/-- The conversion int(x) yields an int64. -/
theorem f64ToInt_range (x : ℚ) :
    -9223372036854775808 ≤ f64ToInt x ∧ f64ToInt x ≤ 9223372036854775807 := by
  unfold f64ToInt
  split_ifs with h
  · exact h
  · exact ⟨by decide, by decide⟩

/-- The conversion float64(n) is exact for a natural number up to `2^53`. -/
theorem f64_natCast (n : Nat) (h : n ≤ 9007199254740992) : f64 (n : ℚ) = n := by
  have := f64_intCast (n : Int) (by omega) (by omega)
  simpa using this

/-- The small whole numbers are float64 values. -/
theorem f64_small :
    f64 1 = 1 ∧ f64 2 = 2 ∧ f64 3 = 3 ∧ f64 4 = 4 ∧ f64 5 = 5 ∧ f64 6 = 6 ∧ f64 7 = 7 := by
  refine ⟨?_, ?_, ?_, ?_, ?_, ?_, ?_⟩
  · simpa using f64_natCast 1 (by norm_num)
  · simpa using f64_natCast 2 (by norm_num)
  · simpa using f64_natCast 3 (by norm_num)
  · simpa using f64_natCast 4 (by norm_num)
  · simpa using f64_natCast 5 (by norm_num)
  · simpa using f64_natCast 6 (by norm_num)
  · simpa using f64_natCast 7 (by norm_num)

/-- Seconds of the zero duration. -/
theorem durationSeconds_zero : Duration.Seconds 0 = 0 := by
  simp [Duration.Seconds, f64_zero]

/-- Split of a non-negative duration into whole seconds and nanoseconds. -/
theorem duration_split (d : Duration) (hd : 0 ≤ d) :
    0 ≤ d.tdiv Second ∧ 0 ≤ d.tmod Second ∧ d.tmod Second < 1000000000
      ∧ seconds d = ((d.tdiv Second : Int) : ℚ) + ((d.tmod Second : Int) : ℚ) / 1000000000 := by
  have h1 : 0 ≤ d.tdiv Second := Int.tdiv_nonneg hd (by decide)
  have h2 : 0 ≤ d.tmod Second := Int.tmod_nonneg _ hd
  have h3 : d.tmod Second < 1000000000 := Int.tmod_lt_of_pos d (by decide)
  refine ⟨h1, h2, h3, ?_⟩
  have h4 : Second * d.tdiv Second + d.tmod Second = d := Int.tdiv_add_tmod d Second
  unfold seconds
  have h5 : (d : ℚ) = (1000000000 : ℚ) * ((d.tdiv Second : Int) : ℚ) + ((d.tmod Second : Int) : ℚ) := by
    have : ((Second * d.tdiv Second + d.tmod Second : Int) : ℚ) = (d : ℚ) := by rw [h4]
    rw [← this]
    push_cast
    simp [Second]
  rw [h5]
  field_simp
  ring

/-- Duration.Seconds of a non-negative duration is not negative. -/
theorem durationSeconds_nonneg (d : Duration) (hd : 0 ≤ d) : 0 ≤ Duration.Seconds d := by
  have h1 : 0 ≤ d.tdiv Second := Int.tdiv_nonneg hd (by decide)
  have h2 : 0 ≤ d.tmod Second := Int.tmod_nonneg _ hd
  unfold Duration.Seconds
  apply f64_nonneg
  apply add_nonneg
  · exact f64_nonneg _ (by exact_mod_cast h1)
  · apply f64_nonneg
    apply div_nonneg _ (by norm_num)
    exact f64_nonneg _ (by exact_mod_cast h2)

/-- Duration.Seconds of a non-negative int64 duration: it is not negative, it is 0
or at least `2^(-30)`, and it differs from the exact number of seconds by at most
the factor `(1 + 2^(-53))^2` upward and `(1 - 2^(-53))^2` downward. -/
theorem durationSeconds_bounds (d : Duration) (hd : 0 ≤ d) (hd2 : d ≤ 9223372036854775807) :
    0 ≤ Duration.Seconds d
      ∧ (Duration.Seconds d = 0 ∨ 1 / 1073741824 ≤ Duration.Seconds d)
      ∧ Duration.Seconds d ≤ seconds d * (1 + 1 / 9007199254740992) ^ 2
      ∧ seconds d * (1 - 1 / 9007199254740992) ^ 2 ≤ Duration.Seconds d := by
  obtain ⟨h1, h2, h3, h4⟩ := duration_split d hd
  have hsec : d.tdiv Second ≤ 9007199254740992 := by
    have h5 : Second * d.tdiv Second + d.tmod Second = d := Int.tdiv_add_tmod d Second
    have h6 : (1000000000 : Int) * Int.tdiv d Second + Int.tmod d Second = d := h5
    linarith
  have e1 : f64 ((d.tdiv Second : Int) : ℚ) = ((d.tdiv Second : Int) : ℚ) :=
    f64_intCast _ h1 hsec
  have e2 : f64 ((d.tmod Second : Int) : ℚ) = ((d.tmod Second : Int) : ℚ) :=
    f64_intCast _ h2 (by omega)
  have hS : Duration.Seconds d
      = f64 (((d.tdiv Second : Int) : ℚ)
          + f64 (((d.tmod Second : Int) : ℚ) / 1000000000)) := by
    unfold Duration.Seconds
    rw [e1, e2]
  have hsq : (0 : ℚ) ≤ ((d.tdiv Second : Int) : ℚ) := by exact_mod_cast h1
  have hnq : (0 : ℚ) ≤ ((d.tmod Second : Int) : ℚ) := by exact_mod_cast h2
  have h30 : f64 ((1 : ℚ) / 1073741824) = 1 / 1073741824 := by
    have := f64_two_zpow (-30) (by norm_num)
    have e : (2 : ℚ) ^ (-30 : ℤ) = 1 / 1073741824 := by norm_num
    rwa [e] at this
  -- the nanosecond part
  have hx : ((d.tmod Second : Int) : ℚ) / 1000000000 = 0
      ∨ 1 / 1073741824 ≤ ((d.tmod Second : Int) : ℚ) / 1000000000 := by
    rcases eq_or_lt_of_le h2 with h | h
    · left
      rw [← h]
      simp
    · right
      have : (1 : ℚ) ≤ ((d.tmod Second : Int) : ℚ) := by exact_mod_cast h
      rw [le_div_iff₀ (by norm_num)]
      linarith
  have hx0 : (0 : ℚ) ≤ ((d.tmod Second : Int) : ℚ) / 1000000000 := div_nonneg hnq (by norm_num)
  have hq0 := f64_nonneg _ hx0
  have hq1 := f64_le_mul_of_ge _ hx
  have hq2 := mul_le_f64_of_ge _ hx
  have hq3 : f64 (((d.tmod Second : Int) : ℚ) / 1000000000) = 0
      ∨ 1 / 1073741824 ≤ f64 (((d.tmod Second : Int) : ℚ) / 1000000000) := by
    rcases hx with h | h
    · left
      rw [h, f64_zero]
    · right
      exact le_f64_of_le _ _ h (by norm_num) h30
  -- the sum
  have hs0 : (0 : ℚ) ≤ ((d.tdiv Second : Int) : ℚ)
      + f64 (((d.tmod Second : Int) : ℚ) / 1000000000) := add_nonneg hsq hq0
  have hs3 : ((d.tdiv Second : Int) : ℚ) + f64 (((d.tmod Second : Int) : ℚ) / 1000000000) = 0
      ∨ 1 / 1073741824 ≤ ((d.tdiv Second : Int) : ℚ)
          + f64 (((d.tmod Second : Int) : ℚ) / 1000000000) := by
    rcases eq_or_lt_of_le h1 with h | h
    · rw [← h]
      simpa using hq3
    · right
      have : (1 : ℚ) ≤ ((d.tdiv Second : Int) : ℚ) := by exact_mod_cast h
      linarith
  have hS1 := f64_le_mul_of_ge _ hs3
  have hS2 := mul_le_f64_of_ge _ hs3
  rw [hS, h4]
  refine ⟨f64_nonneg _ hs0, ?_, ?_, ?_⟩
  · rcases hs3 with h | h
    · left
      rw [h, f64_zero]
    · right
      exact le_f64_of_le _ _ h (by norm_num) h30
  · generalize f64 (((d.tmod Second : Int) : ℚ) / 1000000000) = q at *
    generalize ((d.tmod Second : Int) : ℚ) / 1000000000 = x at *
    generalize ((d.tdiv Second : Int) : ℚ) = sec at *
    nlinarith
  · generalize f64 (((d.tmod Second : Int) : ℚ) / 1000000000) = q at *
    generalize ((d.tmod Second : Int) : ℚ) / 1000000000 = x at *
    generalize ((d.tdiv Second : Int) : ℚ) = sec at *
    nlinarith

/-- Duration.Seconds of a whole number of seconds is exact. -/
theorem durationSeconds_whole (m : Int) (hm : 0 ≤ m) (hm2 : m ≤ 9007199254740992) :
    Duration.Seconds (m * 1000000000) = (m : ℚ) := by
  have e1 : Int.tdiv (m * 1000000000) Second = m := Int.mul_tdiv_cancel m (by decide)
  have e2 : Int.tmod (m * 1000000000) Second = 0 := Int.mul_tmod_left m 1000000000
  unfold Duration.Seconds
  rw [e1, e2]
  simp [f64_zero, f64_intCast m hm hm2]

/-- Duration.Seconds of one second. -/
theorem durationSeconds_one : Duration.Seconds 1000000000 = 1 := by
  have := durationSeconds_whole 1 (by decide) (by decide)
  simpa using this

/-- Duration.Seconds of two seconds. -/
theorem durationSeconds_two : Duration.Seconds 2000000000 = 2 := by
  have := durationSeconds_whole 2 (by decide) (by decide)
  simpa using this

/-- Duration.Seconds of five seconds. -/
theorem durationSeconds_five : Duration.Seconds 5000000000 = 5 := by
  have := durationSeconds_whole 5 (by decide) (by decide)
  simpa using this

/-- The exact number of seconds of an int64 duration is below `2^34`. -/
theorem seconds_le (d : Duration) (hd2 : d ≤ 9223372036854775807) :
    seconds d ≤ 9223372036854775807 / 1000000000 := by
  unfold seconds
  apply div_le_div_of_nonneg_right _ (by norm_num)
  exact_mod_cast hd2

/-- The float64 product `elapsed.Seconds() * float64(rate)` of refillInternal, for
a non-negative int64 duration and a rate from 0 to `2^53`: it is not negative and
differs from the exact product by at most the factor `(1 + 2^(-53))^3` upward and
`(1 - 2^(-53))^3` downward. -/
theorem refillProduct_bounds (d : Duration) (r : Int) (hd : 0 ≤ d)
    (hd2 : d ≤ 9223372036854775807) (hr : 0 ≤ r) (hr2 : r ≤ 9007199254740992) :
    0 ≤ f64 (Duration.Seconds d * f64 (r : ℚ))
      ∧ f64 (Duration.Seconds d * f64 (r : ℚ))
          ≤ seconds d * (r : ℚ) * (1 + 1 / 9007199254740992) ^ 3
      ∧ seconds d * (r : ℚ) * (1 - 1 / 9007199254740992) ^ 3
          ≤ f64 (Duration.Seconds d * f64 (r : ℚ)) := by
  obtain ⟨s0, s1, s2, s3⟩ := durationSeconds_bounds d hd hd2
  rw [f64_intCast r hr hr2]
  have hrq : (0 : ℚ) ≤ (r : ℚ) := by exact_mod_cast hr
  have hp0 : 0 ≤ Duration.Seconds d * (r : ℚ) := mul_nonneg s0 hrq
  have hp : Duration.Seconds d * (r : ℚ) = 0 ∨ 1 / 1073741824 ≤ Duration.Seconds d * (r : ℚ) := by
    rcases s1 with h | h
    · left
      rw [h, zero_mul]
    · rcases eq_or_lt_of_le hr with h' | h'
      · left
        rw [← h']
        simp
      · right
        have : (1 : ℚ) ≤ (r : ℚ) := by exact_mod_cast h'
        nlinarith
  have hP1 := f64_le_mul_of_ge _ hp
  have hP2 := mul_le_f64_of_ge _ hp
  have hu := mul_le_mul_of_nonneg_right s2 hrq
  have hl := mul_le_mul_of_nonneg_right s3 hrq
  refine ⟨f64_nonneg _ hp0, ?_, ?_⟩
  · generalize f64 (Duration.Seconds d * (r : ℚ)) = fp at *
    generalize Duration.Seconds d * (r : ℚ) = p at *
    have e : seconds d * (r : ℚ) * (1 + 1 / 9007199254740992) ^ 3
        = seconds d * (1 + 1 / 9007199254740992) ^ 2 * (r : ℚ) * (1 + 1 / 9007199254740992) := by
      ring
    rw [e]
    have := mul_le_mul_of_nonneg_right hu (by norm_num : (0 : ℚ) ≤ 1 + 1 / 9007199254740992)
    linarith
  · generalize f64 (Duration.Seconds d * (r : ℚ)) = fp at *
    generalize Duration.Seconds d * (r : ℚ) = p at *
    have e : seconds d * (r : ℚ) * (1 - 1 / 9007199254740992) ^ 3
        = seconds d * (1 - 1 / 9007199254740992) ^ 2 * (r : ℚ) * (1 - 1 / 9007199254740992) := by
      ring
    rw [e]
    have := mul_le_mul_of_nonneg_right hl (by norm_num : (0 : ℚ) ≤ 1 - 1 / 9007199254740992)
    linarith

/-- No time elapsed: no token is added. -/
theorem newTokens_zero (r : Int) : tokenbucket.newTokens 0 r = 0 := by
  unfold tokenbucket.newTokens
  rw [durationSeconds_zero, zero_mul, f64_zero]
  decide

/-- The tokens added by a refill are an int64. -/
theorem newTokens_range (d : Duration) (r : Int) :
    -9223372036854775808 ≤ tokenbucket.newTokens d r
      ∧ tokenbucket.newTokens d r ≤ 9223372036854775807 :=
  f64ToInt_range _

/-- The tokens added by a refill, for a non-negative int64 duration and a rate
from 0 to `2^28`: from 0 to `2^62`, and at most the exact product raised by the
factor `(1 + 2^(-53))^3`. -/
theorem newTokens_bounds (d : Duration) (r : Int) (hd : 0 ≤ d)
    (hd2 : d ≤ 9223372036854775807) (hr : 0 ≤ r) (hr2 : r ≤ 268435456) :
    0 ≤ tokenbucket.newTokens d r ∧ tokenbucket.newTokens d r ≤ 4611686018427387904
      ∧ (tokenbucket.newTokens d r : ℚ)
          ≤ seconds d * (r : ℚ) * (1 + 1 / 9007199254740992) ^ 3 := by
  obtain ⟨p0, p1, _⟩ := refillProduct_bounds d r hd hd2 hr (by omega)
  have hsec := seconds_le d hd2
  have hs0 : 0 ≤ seconds d := by
    unfold seconds
    apply div_nonneg _ (by norm_num)
    exact_mod_cast hd
  have hrq : (r : ℚ) ≤ 268435456 := by exact_mod_cast hr2
  have hrq0 : (0 : ℚ) ≤ (r : ℚ) := by exact_mod_cast hr
  have hprod : seconds d * (r : ℚ) ≤ 9223372036854775807 / 1000000000 * 268435456 :=
    mul_le_mul hsec hrq hrq0 (by norm_num)
  have hbig : seconds d * (r : ℚ) * (1 + 1 / 9007199254740992) ^ 3 ≤ 4611686018427387904 := by
    have := mul_le_mul_of_nonneg_right hprod
      (by norm_num : (0 : ℚ) ≤ (1 + 1 / 9007199254740992) ^ 3)
    refine le_trans this ?_
    norm_num
  have hfl : tokenbucket.newTokens d r = ⌊f64 (Duration.Seconds d * f64 (r : ℚ))⌋ :=
    f64ToInt_of_range _ p0 (by linarith)
  rw [hfl]
  refine ⟨Int.floor_nonneg.mpr p0, ?_, ?_⟩
  · have : (⌊f64 (Duration.Seconds d * f64 (r : ℚ))⌋ : ℚ) ≤ ((4611686018427387904 : Int) : ℚ) := by
      push_cast
      exact le_trans (Int.floor_le _) (le_trans p1 hbig)
    exact_mod_cast this
  · exact le_trans (Int.floor_le _) p1

/-- A refill after less than `1/rate` seconds adds no token. -/
theorem newTokens_eq_zero (d : Duration) (r : Int) (hd : 0 ≤ d) (hr : 1 ≤ r)
    (h : seconds d * (r : ℚ) < 1) : tokenbucket.newTokens d r = 0 := by
  rcases eq_or_lt_of_le hd with h0 | h0
  · rw [← h0]
    exact newTokens_zero r
  have hdr : d * r < 1000000000 := by
    have : ((d * r : Int) : ℚ) < ((1000000000 : Int) : ℚ) := by
      push_cast
      unfold seconds at h
      rw [div_mul_eq_mul_div, div_lt_iff₀ (by norm_num)] at h
      linarith
    exact_mod_cast this
  have hd1' : (1 : Int) ≤ d := h0
  have hrd : r ≤ d * r := by
    have := Int.mul_le_mul_of_nonneg_right hd1' (by omega : (0 : Int) ≤ r)
    rwa [one_mul] at this
  have hdd : d ≤ d * r := by
    have := Int.mul_le_mul_of_nonneg_left hr hd
    rwa [mul_one] at this
  have hd1 : d < 1000000000 := lt_of_le_of_lt hdd hdr
  have hr1 : r < 1000000000 := lt_of_le_of_lt hrd hdr
  have hdr' : d * r ≤ 999999999 := Int.lt_add_one_iff.mp hdr
  obtain ⟨p0, p1, _⟩ := refillProduct_bounds d r hd (by linarith) (by linarith) (by linarith)
  have hex : seconds d * (r : ℚ) ≤ 999999999 / 1000000000 := by
    unfold seconds
    rw [div_mul_eq_mul_div]
    apply div_le_div_of_nonneg_right _ (by norm_num)
    have : ((d * r : Int) : ℚ) ≤ ((999999999 : Int) : ℚ) := by
      exact_mod_cast hdr'
    push_cast at this
    exact this
  have hlt : f64 (Duration.Seconds d * f64 (r : ℚ)) < 1 := by
    have := mul_le_mul_of_nonneg_right hex
      (by norm_num : (0 : ℚ) ≤ (1 + 1 / 9007199254740992) ^ 3)
    have h2 : (999999999 : ℚ) / 1000000000 * (1 + 1 / 9007199254740992) ^ 3 < 1 := by norm_num
    linarith
  have hfl : tokenbucket.newTokens d r = ⌊f64 (Duration.Seconds d * f64 (r : ℚ))⌋ :=
    f64ToInt_of_range _ p0 (by linarith)
  rw [hfl]
  exact Int.floor_eq_zero_iff.mpr ⟨p0, hlt⟩

/-- After a whole number `m` of seconds the refill adds exactly `m * rate` tokens,
as long as that number is at most `2^53`. -/
theorem newTokens_whole (m r : Int) (hm : 0 ≤ m) (hm2 : m ≤ 9007199254740992) (hr : 0 ≤ r)
    (hr2 : r ≤ 9007199254740992) (hmr : m * r ≤ 9007199254740992) :
    tokenbucket.newTokens (m * 1000000000) r = m * r := by
  unfold tokenbucket.newTokens
  rw [durationSeconds_whole m hm hm2, f64_intCast r hr hr2]
  have e : (m : ℚ) * (r : ℚ) = ((m * r : Int) : ℚ) := by push_cast; ring
  rw [e, f64_intCast (m * r) (mul_nonneg hm hr) hmr]
  have h0 : (0 : ℚ) ≤ ((m * r : Int) : ℚ) := by exact_mod_cast mul_nonneg hm hr
  rw [f64ToInt_of_range _ h0 (by
    have : ((m * r : Int) : ℚ) ≤ ((9007199254740992 : Int) : ℚ) := by exact_mod_cast hmr
    push_cast at this ⊢
    linarith)]
  exact Int.floor_intCast _

/-- A wait with exact product `d * r` above 1 adds at least one token. -/
theorem newTokens_pos (d : Duration) (r : Int) (hd : 0 ≤ d) (hd2 : d ≤ 9223372036854775807)
    (hr : 0 ≤ r) (hr2 : r ≤ 268435456) (h : 1 < seconds d * (r : ℚ)) :
    1 ≤ tokenbucket.newTokens d r := by
  obtain ⟨p0, p1, p2⟩ := refillProduct_bounds d r hd hd2 hr (by omega)
  have hdr : (1000000000 : Int) < d * r := by
    have : ((1000000000 : Int) : ℚ) < ((d * r : Int) : ℚ) := by
      push_cast
      unfold seconds at h
      rw [div_mul_eq_mul_div, lt_div_iff₀ (by norm_num)] at h
      linarith
    exact_mod_cast this
  have hdr' : (1000000001 : Int) ≤ d * r := hdr
  have hex : (1000000001 : ℚ) / 1000000000 ≤ seconds d * (r : ℚ) := by
    unfold seconds
    rw [div_mul_eq_mul_div]
    apply div_le_div_of_nonneg_right _ (by norm_num)
    have : ((1000000001 : Int) : ℚ) ≤ ((d * r : Int) : ℚ) := by exact_mod_cast hdr'
    push_cast at this
    exact this
  have hone : (1 : ℚ) ≤ f64 (Duration.Seconds d * f64 (r : ℚ)) := by
    have := mul_le_mul_of_nonneg_right hex
      (by norm_num : (0 : ℚ) ≤ (1 - 1 / 9007199254740992) ^ 3)
    have h2 : (1 : ℚ) ≤ 1000000001 / 1000000000 * (1 - 1 / 9007199254740992) ^ 3 := by
      norm_num
    linarith
  obtain ⟨_, n1, _⟩ := newTokens_bounds d r hd hd2 hr hr2
  have hsec := seconds_le d hd2
  have hrq : (r : ℚ) ≤ 268435456 := by exact_mod_cast hr2
  have hrq0 : (0 : ℚ) ≤ (r : ℚ) := by exact_mod_cast hr
  have hprod : seconds d * (r : ℚ) ≤ 9223372036854775807 / 1000000000 * 268435456 :=
    mul_le_mul hsec hrq hrq0 (by norm_num)
  have hbig : seconds d * (r : ℚ) * (1 + 1 / 9007199254740992) ^ 3 ≤ 4611686018427387904 := by
    have := mul_le_mul_of_nonneg_right hprod
      (by norm_num : (0 : ℚ) ≤ (1 + 1 / 9007199254740992) ^ 3)
    refine le_trans this ?_
    norm_num
  have hfl : tokenbucket.newTokens d r = ⌊f64 (Duration.Seconds d * f64 (r : ℚ))⌋ :=
    f64ToInt_of_range _ p0 (by linarith)
  rw [hfl]
  exact Int.le_floor.mpr (by exact_mod_cast hone)

/-- Rate 100 after 0.29 s: the float64 product is 28.999999999999996 and the
refill adds 28 tokens, one less than the exact product 29. -/
theorem newTokens_029_100 : tokenbucket.newTokens 290000000 100 = 28 := by
  have e1 : Int.tdiv 290000000 Second = 0 := by decide
  have e2 : Int.tmod 290000000 Second = 290000000 := by decide
  have a1 : f64 ((290000000 : Int) : ℚ) = 290000000 := by
    simpa using f64_intCast 290000000 (by norm_num) (by norm_num)
  have a2 : f64 ((290000000 : ℚ) / 1000000000)
      = ((5224175567749775 : Int) : ℚ) * 2 ^ ((-2 : Int) - 52) :=
    f64_eval _ (-2) 5224175567749775 (by norm_num) (by norm_num) (by norm_num) (by norm_num)
      (by rw [abs_lt]; constructor <;> norm_num)
  have a3 : f64 (((5224175567749775 : Int) : ℚ) * 2 ^ ((-2 : Int) - 52))
      = ((5224175567749775 : Int) : ℚ) * 2 ^ ((-2 : Int) - 52) :=
    f64_mul_two_zpow _ _ (by norm_num) (by norm_num) (by norm_num)
  have a4 : f64 ((100 : Int) : ℚ) = 100 := by
    simpa using f64_intCast 100 (by norm_num) (by norm_num)
  have a5 : f64 (((5224175567749775 : Int) : ℚ) * 2 ^ ((-2 : Int) - 52) * 100)
      = ((8162774324609023 : Int) : ℚ) * 2 ^ ((4 : Int) - 52) :=
    f64_eval _ 4 8162774324609023 (by norm_num) (by norm_num) (by norm_num) (by norm_num)
      (by rw [abs_lt]; constructor <;> norm_num)
  unfold tokenbucket.newTokens Duration.Seconds
  rw [e1, e2, a1]
  simp only [Int.cast_zero, f64_zero, zero_add]
  rw [a2, a3, a4, a5]
  rw [f64ToInt_of_range _ (by norm_num) (by norm_num)]
  rw [Int.floor_eq_iff]
  constructor <;> norm_num

/-- Rate 20000051 after 0.451372549 s: the exact product is 9027473.999999999,
the float64 product rounds up to 9027474.0, and the refill adds 9027474 tokens. -/
theorem newTokens_rounds_up : tokenbucket.newTokens 451372549 20000051 = 9027474 := by
  have e1 : Int.tdiv 451372549 Second = 0 := by decide
  have e2 : Int.tmod 451372549 Second = 451372549 := by decide
  have a1 : f64 ((451372549 : Int) : ℚ) = 451372549 := by
    simpa using f64_intCast 451372549 (by norm_num) (by norm_num)
  have a2 : f64 ((451372549 : ℚ) / 1000000000)
      = ((8131204973926684 : Int) : ℚ) * 2 ^ ((-2 : Int) - 52) :=
    f64_eval _ (-2) 8131204973926684 (by norm_num) (by norm_num) (by norm_num) (by norm_num)
      (by rw [abs_lt]; constructor <;> norm_num)
  have a3 : f64 (((8131204973926684 : Int) : ℚ) * 2 ^ ((-2 : Int) - 52))
      = ((8131204973926684 : Int) : ℚ) * 2 ^ ((-2 : Int) - 52) :=
    f64_mul_two_zpow _ _ (by norm_num) (by norm_num) (by norm_num)
  have a4 : f64 ((20000051 : Int) : ℚ) = 20000051 := by
    simpa using f64_intCast 20000051 (by norm_num) (by norm_num)
  have a5 : f64 (((8131204973926684 : Int) : ℚ) * 2 ^ ((-2 : Int) - 52) * 20000051)
      = ((4846588199436288 : Int) : ℚ) * 2 ^ ((23 : Int) - 52) :=
    f64_eval _ 23 4846588199436288 (by norm_num) (by norm_num) (by norm_num) (by norm_num)
      (by rw [abs_lt]; constructor <;> norm_num)
  unfold tokenbucket.newTokens Duration.Seconds
  rw [e1, e2, a1]
  simp only [Int.cast_zero, f64_zero, zero_add]
  rw [a2, a3, a4, a5]
  rw [f64ToInt_of_range _ (by norm_num) (by norm_num)]
  rw [Int.floor_eq_iff]
  constructor <;> norm_num

/-- The leak step: what is left of the water after the elapsed time, not below 0. -/
theorem leak_step (w l : ℚ) (hw0 : 0 ≤ w) (hw : f64 w = w) (hl : 0 ≤ l) :
    0 ≤ (if f64 (w - l) < 0 then 0 else f64 (w - l))
      ∧ (if f64 (w - l) < 0 then 0 else f64 (w - l)) ≤ w
      ∧ f64 (if f64 (w - l) < 0 then 0 else f64 (w - l))
          = (if f64 (w - l) < 0 then 0 else f64 (w - l)) := by
  by_cases h : f64 (w - l) < 0
  · rw [if_pos h]
    exact ⟨le_refl _, hw0, f64_zero⟩
  · rw [if_neg h]
    refine ⟨not_lt.mp h, f64_le_of_le _ _ (by linarith) hw0 hw, ?_⟩
    rcases le_or_lt 0 (w - l) with h1 | h1
    · exact f64_f64 _ h1
    · have h2 : f64 (w - l) = 0 := le_antisymm (f64_nonpos _ (le_of_lt h1)) (not_lt.mp h)
      rw [h2, f64_zero]

/-- AddWater, through the water left by the leak step. -/
theorem leakybucket_addWater_eq (b : leakybucket.LeakyBucket) (amount : ℚ) (now : Time) :
    b.AddWater amount now
      = if f64 (b.leaked now + amount) > b.Capacity
        then (false, { b with Water := b.leaked now })
        else (true, { b with Water := f64 (b.leaked now + amount), lastChecked := now }) :=
  rfl

/-- LeakWater, through the water left by the leak step. -/
theorem leakybucket_leakWater_eq (b : leakybucket.LeakyBucket) (now : Time) :
    b.LeakWater now = { b with Water := b.leaked now, lastChecked := now } := rfl

/-- The water left by the leak step, for a float64 level `Water >= 0`, a fill
rate that is not negative and a clock read not earlier than lastChecked: a
float64 value from 0 to Water. -/
theorem leakybucket_leaked_bounds (b : leakybucket.LeakyBucket) (now : Time)
    (hF : 0 ≤ b.FillRate) (h0 : 0 ≤ b.Water) (hrep : f64 b.Water = b.Water)
    (hnow : b.lastChecked ≤ now) :
    0 ≤ b.leaked now ∧ b.leaked now ≤ b.Water ∧ f64 (b.leaked now) = b.leaked now := by
  have hl : 0 ≤ f64 (Duration.Seconds (now - b.lastChecked) * b.FillRate) :=
    f64_nonneg _ (mul_nonneg (durationSeconds_nonneg _ (sub_nonneg.mpr hnow)) hF)
  exact leak_step b.Water _ h0 hrep hl

/-- The leak step empties the bucket when the leakage is at least the water. -/
theorem leakybucket_leaked_eq_zero (b : leakybucket.LeakyBucket) (now : Time)
    (h : b.Water ≤ f64 (Duration.Seconds (now - b.lastChecked) * b.FillRate)) :
    b.leaked now = 0 := by
  have hx : f64 (b.Water - f64 (Duration.Seconds (now - b.lastChecked) * b.FillRate)) ≤ 0 :=
    f64_nonpos _ (by linarith)
  unfold leakybucket.LeakyBucket.leaked
  simp only []
  split_ifs with h1
  · rfl
  · exact le_antisymm hx (not_lt.mp h1)

/-! ### The five limiters -/

/-- Invariant of the compaction loop: the first `j` cells hold what is kept, and
the cells from `i` on are still unread. -/
theorem compactLoop_spec (keep : Time → Bool) (n : Nat) :
    ∀ (a : List Time) (i j : Nat), j ≤ i → i + n = a.length →
      ((compactLoop keep a i j n).1.take (compactLoop keep a i j n).2
        = a.take j ++ (a.drop i).filter keep) := by
  induction n with
  | zero =>
    intro a i j _ hlen
    have : a.drop i = [] := by
      apply List.drop_eq_nil_of_le
      omega
    simp [compactLoop, this]
  | succ n ih =>
    intro a i j hji hlen
    have hi : i < a.length := by omega
    have hget : a[i]? = some a[i] := List.getElem?_eq_getElem hi
    have hdrop : a.drop i = a[i] :: a.drop (i + 1) := List.drop_eq_getElem_cons hi
    rw [compactLoop, hget]
    by_cases hk : keep a[i] = true
    · simp only [hk, if_true]
      have hj : j < a.length := by omega
      rw [ih (a.set j a[i]) (i + 1) (j + 1) (by omega) (by simp; omega)]
      rw [hdrop, List.filter_cons_of_pos hk]
      have h1 : (a.set j a[i]).take (j + 1) = a.take j ++ [a[i]] := by
        rw [List.take_succ, List.set_take, List.set_eq_of_length_le (by simp)]
        simp [hj]
      have h2 : (a.set j a[i]).drop (i + 1) = a.drop (i + 1) := by
        rw [List.drop_set_of_lt]
        omega
      rw [h1, h2]
      simp
    · simp only [hk, Bool.false_eq_true, if_false]
      rw [ih a (i + 1) j (by omega) (by omega)]
      rw [hdrop, List.filter_cons_of_neg hk]

/-- The compaction keeps exactly the elements satisfying `keep`, in order. -/
theorem compact_eq_filter (keep : Time → Bool) (a : List Time) :
    compact keep a = a.filter keep := by
  unfold compact
  have := compactLoop_spec keep a.length a 0 0 (le_refl 0) (by simp)
  simpa using this

/-- The negation of a window other than math.MinInt64 does not wrap. -/
theorem negDuration_of_ne (w : Duration) (hw : w ≠ -9223372036854775808) :
    negDuration w = -w := by
  unfold negDuration
  rw [if_neg hw]

/-- The keep test of slidinglog, `timestamp.After(now.Add(-window))`, is the
negation of `timestamp <= now - window` when `-window` does not wrap. -/
theorem slidinglog_keep_eq (now : Time) (w : Duration) (hw : w ≠ -9223372036854775808) :
    (fun timestamp : Time => decide (timestamp > now + negDuration w))
      = (fun ts : Time => !decide (ts ≤ now - w)) := by
  rw [negDuration_of_ne w hw]
  funext ts
  by_cases h : ts ≤ now - w
  · have h2 : ¬ (ts > now + (-w)) := not_lt.mpr (by linarith)
    simp [h, h2]
  · have h2 : ts > now + (-w) := by linarith [not_le.mp h]
    simp [h, h2]

/-- Allow of slidinglog, with the loop replaced by the filter it computes, for a
window other than math.MinInt64. -/
theorem slidinglog_allow_eq (rl : slidinglog.RateLimiter) (ip : String) (now : Time)
    (hw : rl.window ≠ -9223372036854775808) :
    rl.Allow ip now
      = if ((((rl.logs ip).getD []).filter
            (fun ts => !decide (ts ≤ now - rl.window))).length : Int) ≥ rl.rate
        then (false, { rl with logs := (rl.logs.store ip
          (((rl.logs ip).getD []).filter (fun ts => !decide (ts ≤ now - rl.window)))) })
        else (true, { rl with logs := (rl.logs.store ip
          (((rl.logs ip).getD []).filter (fun ts => !decide (ts ≤ now - rl.window))
            ++ [now])) }) := by
  have hlog : (match rl.logs ip with
      | some l => l
      | none => ([] : List Time)) = (rl.logs ip).getD [] := by
    cases rl.logs ip <;> rfl
  unfold slidinglog.RateLimiter.Allow
  simp only [compact_eq_filter, slidinglog_keep_eq now rl.window hw, hlog]

/-- C1, counterexample: with window math.MinInt64 the negation `-rl.window`
wraps to math.MinInt64, so nothing recent is pruned.  Rate 1, one admitted call at
0, then a call at 1: the claim's pruned log (without the timestamps
`<= now - window`) is empty, so the call would be admitted and `[1]` stored; the
code keeps the timestamp 0, denies the call and stores `[0]`. -/
theorem slidinglog_min_window_counterexample :
    (((slidinglog.NewRateLimiter 1 (-9223372036854775808)).Allow "a" 0).2.logs "a") = some [0]
    ∧ ((([0] : List Time).filter
        (fun ts => !decide (ts ≤ 1 - (-9223372036854775808 : Duration)))) = [])
    ∧ ((((slidinglog.NewRateLimiter 1 (-9223372036854775808)).Allow "a" 0).2.Allow "a" 1).1
        = false)
    ∧ ((((slidinglog.NewRateLimiter 1 (-9223372036854775808)).Allow "a" 0).2.Allow "a" 1).2.logs
        "a" = some [0]) := by
  decide

/-- C1, amended: slidinglog Allow in three steps, for every window other than
math.MinInt64.  With `pruned` the old log of the key (empty when the key is new)
without the timestamps `<= now - window`, in the old order: when `pruned` has at
least `rate` entries the call returns false and stores `pruned`; otherwise it
returns true and stores `pruned` followed by `now`. -/
theorem slidinglog_allow_three_steps (rl : slidinglog.RateLimiter) (ip : String) (now : Time)
    (hw : rl.window ≠ -9223372036854775808) :
    (rl.Allow ip now).1
        = decide (((((rl.logs ip).getD []).filter
            (fun ts => !decide (ts ≤ now - rl.window))).length : Int) < rl.rate)
    ∧ (rl.Allow ip now).2.logs ip
        = some (if ((((rl.logs ip).getD []).filter
              (fun ts => !decide (ts ≤ now - rl.window))).length : Int) ≥ rl.rate
            then ((rl.logs ip).getD []).filter (fun ts => !decide (ts ≤ now - rl.window))
            else ((rl.logs ip).getD []).filter (fun ts => !decide (ts ≤ now - rl.window))
              ++ [now]) := by
  rw [slidinglog_allow_eq rl ip now hw]
  by_cases hfull : ((((rl.logs ip).getD []).filter
      (fun ts => !decide (ts ≤ now - rl.window))).length : Int) ≥ rl.rate
  · have hnot : ¬ (((((rl.logs ip).getD []).filter
        (fun ts => !decide (ts ≤ now - rl.window))).length : Int) < rl.rate) := by omega
    simp [hfull, hnot, GoMap.store]
  · have hlt : ((((rl.logs ip).getD []).filter
        (fun ts => !decide (ts ≤ now - rl.window))).length : Int) < rl.rate := by omega
    simp [hfull, hlt, GoMap.store]

/-- Witness for C1: rate 2, window 10, stored log `[1, 5, 12]`, call at 13: the
timestamp 1 is pruned, the pruned log `[5, 12]` is full, the call is denied. -/
theorem slidinglog_allow_three_steps_witness :
    (10 : Duration) ≠ -9223372036854775808
    ∧ ((({ rate := 2, window := 10, logs := GoMap.make.store "a" [1, 5, 12] }
          : slidinglog.RateLimiter).Allow "a" 13).1 = false)
    ∧ ((({ rate := 2, window := 10, logs := GoMap.make.store "a" [1, 5, 12] }
          : slidinglog.RateLimiter).Allow "a" 13).2.logs "a" = some [5, 12]) := by
  have h := slidinglog_allow_three_steps
    { rate := 2, window := 10, logs := GoMap.make.store "a" [1, 5, 12] } "a" 13 (by decide)
  refine ⟨by decide, ?_, ?_⟩
  · rw [h.1]
    decide
  · rw [h.2]
    decide

/-- Pruning at a later time absorbs pruning at an earlier time. -/
theorem filter_prune_prune (W : Duration) (now now' : Time) (h : now ≤ now') (l : List Time) :
    (l.filter (fun ts => !decide (ts ≤ now - W))).filter (fun ts => !decide (ts ≤ now' - W))
      = l.filter (fun ts => !decide (ts ≤ now' - W)) := by
  rw [List.filter_filter]
  apply List.filter_congr
  intro x _
  by_cases h1 : x ≤ now' - W
  · simp [h1]
  · have h2 : ¬ (x ≤ now - W) := by
      intro h3
      exact h1 (by linarith)
    simp [h1, h2]

/-- Counting the admissions in the window `(t - W, t]` is bounded by counting the
admissions later than `now - W`, for every `now <= t`. -/
theorem countP_window_le (W : Duration) (now t : Time) (h : now ≤ t) (A : List Time) :
    A.countP (fun s => decide (t - W < s ∧ s ≤ t))
      ≤ (A.filter (fun ts => !decide (ts ≤ now - W))).length := by
  rw [← List.countP_eq_length_filter]
  apply List.countP_mono_left
  intro x _ hx
  have hx1 : t - W < x ∧ x ≤ t := by simpa using hx
  have : ¬ (x ≤ now - W) := by
    intro h3
    linarith [hx1.1]
  simp [this]

/-- Invariant step of the sliding-log bound, generalised over the limiter state:
`A` lists the admissions so far, and the stored log agrees with `A` under every
later pruning. -/
theorem slidinglog_bound_aux (L : Int) (W : Duration) (ip : String) (times : List Time) :
    ∀ (rl : slidinglog.RateLimiter) (A : List Time) (lo : Time),
      rl.rate = L → rl.window = W → W ≠ -9223372036854775808 →
      (∀ now, lo ≤ now →
        ((rl.logs ip).getD []).filter (fun ts => !decide (ts ≤ now - W))
          = A.filter (fun ts => !decide (ts ≤ now - W))) →
      (∀ t, ((A.countP (fun s => decide (t - W < s ∧ s ≤ t)) : Nat) : Int) ≤ L) →
      times.Pairwise (· ≤ ·) → (∀ x ∈ times, lo ≤ x) →
      ∀ t, (((A ++ slidinglog.admitted rl ip times).countP
        (fun s => decide (t - W < s ∧ s ≤ t)) : Nat) : Int) ≤ L := by
  induction times with
  | nil =>
    intro rl A lo _ _ _ _ hA _ _ t
    simpa [slidinglog.admitted] using hA t
  | cons now rest ih =>
    intro rl A lo hrate hwin hmin hlog hA hsorted hlo t
    have hnow : lo ≤ now := hlo now (List.mem_cons_self _ _)
    have hrest : rest.Pairwise (· ≤ ·) := (List.pairwise_cons.mp hsorted).2
    have hge : ∀ x ∈ rest, now ≤ x := (List.pairwise_cons.mp hsorted).1
    have hpr := hlog now hnow
    unfold slidinglog.admitted
    rw [slidinglog_allow_eq rl ip now (by rw [hwin]; exact hmin), hwin, hrate, hpr]
    by_cases hfull : (((A.filter (fun ts => !decide (ts ≤ now - W))).length : Nat) : Int) ≥ L
    · simp only [hfull, if_true, Bool.false_eq_true, if_false]
      refine ih ⟨L, W, _⟩ A now rfl rfl hmin ?_ hA hrest hge t
      intro now' hn'
      simp only [GoMap.store, if_true, Option.getD_some]
      rw [filter_prune_prune W now now' hn']
    · simp only [hfull, if_false, if_true]
      rw [List.append_cons]
      refine ih ⟨L, W, _⟩ (A ++ [now]) now rfl rfl hmin ?_ ?_ hrest hge t
      · intro now' hn'
        simp only [GoMap.store, if_true, Option.getD_some, List.filter_append]
        rw [filter_prune_prune W now now' hn']
      · intro t'
        rw [List.countP_append]
        by_cases hin : t' - W < now ∧ now ≤ t'
        · have h1 := countP_window_le W now t' hin.2 A
          have h2 : List.countP (fun s => decide (t' - W < s ∧ s ≤ t')) [now] = 1 := by
            simp [List.countP_cons, hin]
          rw [h2]
          push_cast
          have h3 : ((A.countP (fun s => decide (t' - W < s ∧ s ≤ t')) : Nat) : Int)
              ≤ (((A.filter (fun ts => !decide (ts ≤ now - W))).length : Nat) : Int) := by
            exact_mod_cast h1
          omega
        · have h2 : List.countP (fun s => decide (t' - W < s ∧ s ≤ t')) [now] = 0 := by
            simp [List.countP_cons, hin]
          rw [h2]
          simpa using hA t'

/-- C2: sliding-log capacity bound.  On a fresh limiter with rate `L >= 0` (in
particular `L >= 1`) and any window `W` (in particular `W > 0`), for calls of one
key at non-decreasing times, the admitted calls with time in `(t - W, t]` number
at most `L`, for every `t`. -/
theorem slidinglog_capacity_bound (L : Int) (W : Duration) (ip : String) (times : List Time)
    (t : Time) (hL : 0 ≤ L) (hmono : times.Pairwise (· ≤ ·)) :
    (((slidinglog.admitted (slidinglog.NewRateLimiter L W) ip times).countP
      (fun s => decide (t - W < s ∧ s ≤ t)) : Nat) : Int) ≤ L := by
  have hlo : ∀ x ∈ times, (times.foldr min 0) ≤ x := by
    intro x hx
    induction times with
    | nil => simp at hx
    | cons y ys ih =>
      simp only [List.foldr_cons]
      rcases List.mem_cons.mp hx with h | h
      · subst h
        exact min_le_left _ _
      · exact le_trans (min_le_right _ _) (ih (List.pairwise_cons.mp hmono).2 h)
  by_cases hW : W ≤ 0
  · have hempty : (slidinglog.admitted (slidinglog.NewRateLimiter L W) ip times).countP
        (fun s => decide (t - W < s ∧ s ≤ t)) = 0 := by
      rw [List.countP_eq_zero]
      intro s _ hs
      have hs1 : t - W < s ∧ s ≤ t := by simpa using hs
      linarith [hs1.1, hs1.2]
    rw [hempty]
    exact_mod_cast hL
  · have hmin : W ≠ -9223372036854775808 := by
      intro h
      rw [h] at hW
      exact hW (by decide)
    have := slidinglog_bound_aux L W ip times (slidinglog.NewRateLimiter L W) []
      (times.foldr min 0) rfl rfl hmin
      (by intro now _; simp [slidinglog.NewRateLimiter, GoMap.make])
      (by intro t'; simpa using hL) hmono hlo t
    simpa using this

/-- Witness for C2: rate 2, window 10, calls at 1, 2, 3, 11, 12, 13 and `t = 12`. -/
theorem slidinglog_capacity_bound_witness :
    (0 : Int) ≤ 2 ∧ ([1, 2, 3, 11, 12, 13] : List Time).Pairwise (· ≤ ·)
      ∧ (((slidinglog.admitted (slidinglog.NewRateLimiter 2 10) "a"
          [1, 2, 3, 11, 12, 13]).countP
        (fun s => decide ((12 : Time) - 10 < s ∧ s ≤ 12)) : Nat) : Int) ≤ 2 :=
  ⟨by decide, by decide,
    slidinglog_capacity_bound 2 10 "a" [1, 2, 3, 11, 12, 13] 12 (by decide) (by decide)⟩

/-- Allow is the refill followed by the consumption of a token when there is one. -/
theorem tokenbucket_allow_eq (tb : tokenbucket.TokenBucket) (s e : Time) :
    tb.Allow s e
      = if (tb.refillInternal s e).tokens > 0
        then (true, { tb.refillInternal s e with tokens := (tb.refillInternal s e).tokens - 1 })
        else (false, tb.refillInternal s e) := rfl

/-- The refill, with the added tokens as a function of the elapsed duration. -/
theorem tokenbucket_refill_eq (tb : tokenbucket.TokenBucket) (s e : Time) :
    tb.refillInternal s e
      = { tb with
          tokens := min (wrap64 (tb.tokens + tokenbucket.newTokens (s - tb.lastRefill) tb.rate))
            tb.capacity,
          lastRefill := e } := rfl

/-- The refill on a bucket with `0 <= rate <= 2^28`, `0 <= tokens <= capacity <
2^62`, read not earlier than the last refill and less than `2^63` ns after it:
the sum `tokens + newTokens` does not wrap, the tokens stay within
`0 .. capacity`, and they grow by at most the exact product `rate * elapsed`
raised by the factor `(1 + 2^(-53))^3`. -/
theorem tokenbucket_refill_step (tb : tokenbucket.TokenBucket) (s e : Time)
    (hr : 0 ≤ tb.rate) (hr2 : tb.rate ≤ 268435456) (hc : tb.capacity ≤ 4611686018427387903)
    (ht : 0 ≤ tb.tokens) (ht2 : tb.tokens ≤ tb.capacity) (hs : tb.lastRefill ≤ s)
    (hs2 : s - tb.lastRefill ≤ 9223372036854775807) :
    (tb.refillInternal s e).rate = tb.rate ∧ (tb.refillInternal s e).capacity = tb.capacity
      ∧ (tb.refillInternal s e).lastRefill = e ∧ 0 ≤ (tb.refillInternal s e).tokens
      ∧ (tb.refillInternal s e).tokens ≤ tb.capacity
      ∧ ((tb.refillInternal s e).tokens : ℚ)
          ≤ (tb.tokens : ℚ) + (tb.rate : ℚ) * seconds (s - tb.lastRefill)
              * (1 + 1 / 9007199254740992) ^ 3
      ∧ (tb.refillInternal s e).tokens
          = min (tb.tokens + tokenbucket.newTokens (s - tb.lastRefill) tb.rate) tb.capacity := by
  obtain ⟨n0, n1, n2⟩ := newTokens_bounds (s - tb.lastRefill) tb.rate
    (sub_nonneg.mpr hs) hs2 hr hr2
  have hw : wrap64 (tb.tokens + tokenbucket.newTokens (s - tb.lastRefill) tb.rate)
      = tb.tokens + tokenbucket.newTokens (s - tb.lastRefill) tb.rate :=
    wrap64_of_range _ (by omega) (by omega)
  have htok : (tb.refillInternal s e).tokens
      = min (tb.tokens + tokenbucket.newTokens (s - tb.lastRefill) tb.rate) tb.capacity := by
    rw [tokenbucket_refill_eq, hw]
  refine ⟨rfl, rfl, rfl, ?_, ?_, ?_, htok⟩
  · rw [htok]
    exact le_min (by omega) (by omega)
  · rw [htok]
    exact min_le_right _ _
  · rw [htok]
    have h1 : ((min (tb.tokens + tokenbucket.newTokens (s - tb.lastRefill) tb.rate)
        tb.capacity : Int) : ℚ)
        ≤ ((tb.tokens + tokenbucket.newTokens (s - tb.lastRefill) tb.rate : Int) : ℚ) :=
      Int.cast_le.mpr (min_le_left _ _)
    rw [Int.cast_add] at h1
    have h2 : seconds (s - tb.lastRefill) * (tb.rate : ℚ) * (1 + 1 / 9007199254740992) ^ 3
        = (tb.rate : ℚ) * seconds (s - tb.lastRefill) * (1 + 1 / 9007199254740992) ^ 3 := by
      ring
    linarith

/-- The read of the last call moves with the default by at most the default's shift. -/
theorem lastRead_shift (s e : Time) (h : s ≤ e) (rest : List (Time × Time)) :
    tokenbucket.lastRead e rest - e ≤ tokenbucket.lastRead s rest - s := by
  cases rest with
  | nil => simp [tokenbucket.lastRead]
  | cons c rest =>
    simp only [tokenbucket.lastRead]
    linarith

/-- The exact number of seconds is monotone. -/
theorem seconds_mono (a b : Duration) (h : a ≤ b) : seconds a ≤ seconds b := by
  unfold seconds
  apply div_le_div_of_nonneg_right
  · exact_mod_cast h
  · norm_num

/-- The exact number of seconds is additive. -/
theorem seconds_add (a b : Duration) : seconds (a + b) = seconds a + seconds b := by
  unfold seconds
  push_cast
  ring

/-- An int64 sum whose exact value is not below math.MinInt64 does not grow by
wrapping, and it is an int64. -/
theorem wrap64_le (x : Int) (h : -9223372036854775808 ≤ x) :
    wrap64 x ≤ x ∧ -9223372036854775808 ≤ wrap64 x := by
  unfold wrap64
  omega

/-- One Allow call on a bucket with `0 <= rate <= 2^28` and int64 fields
`tokens <= capacity`, made not earlier than the last refill and less than `2^63`
ns after it: the fields after the call, and the balance of the usable tokens
`max tokens 0`, whether or not the sum `tokens + newTokens` wraps. -/
theorem tokenbucket_allow_balance (tb : tokenbucket.TokenBucket) (s e : Time)
    (hr : 0 ≤ tb.rate) (hr2 : tb.rate ≤ 268435456)
    (ht : -9223372036854775808 ≤ tb.tokens) (ht2 : tb.tokens ≤ tb.capacity)
    (hs : tb.lastRefill ≤ s) (hs2 : s - tb.lastRefill ≤ 9223372036854775807) :
    (tb.Allow s e).2.rate = tb.rate ∧ (tb.Allow s e).2.capacity = tb.capacity
      ∧ (tb.Allow s e).2.lastRefill = e
      ∧ -9223372036854775808 ≤ (tb.Allow s e).2.tokens
      ∧ (tb.Allow s e).2.tokens ≤ tb.capacity
      ∧ (((if (tb.Allow s e).1 then 1 else 0 : Int) + max (tb.Allow s e).2.tokens 0 : Int) : ℚ)
          ≤ ((max tb.tokens 0 : Int) : ℚ) + (tb.rate : ℚ) * seconds (s - tb.lastRefill)
              * (1 + 1 / 9007199254740992) ^ 3
      ∧ (if (tb.Allow s e).1 then 1 else 0 : Int) + max (tb.Allow s e).2.tokens 0
          ≤ max tb.capacity 0 := by
  obtain ⟨n0, n1, n2⟩ := newTokens_bounds (s - tb.lastRefill) tb.rate
    (sub_nonneg.mpr hs) hs2 hr hr2
  obtain ⟨w1, w2⟩ := wrap64_le (tb.tokens + tokenbucket.newTokens (s - tb.lastRefill) tb.rate)
    (by omega)
  have htok : (tb.refillInternal s e).tokens
      = min (wrap64 (tb.tokens + tokenbucket.newTokens (s - tb.lastRefill) tb.rate))
          tb.capacity := by
    rw [tokenbucket_refill_eq]
  have hm1 : (tb.refillInternal s e).tokens
      ≤ tb.tokens + tokenbucket.newTokens (s - tb.lastRefill) tb.rate := by
    rw [htok]
    exact le_trans (min_le_left _ _) w1
  have hm2 : (tb.refillInternal s e).tokens ≤ tb.capacity := by
    rw [htok]
    exact min_le_right _ _
  have hm3 : -9223372036854775808 ≤ (tb.refillInternal s e).tokens := by
    rw [htok]
    exact le_min w2 (by omega)
  have hq : ((max (tb.refillInternal s e).tokens 0 : Int) : ℚ)
      ≤ ((max tb.tokens 0 : Int) : ℚ) + (tb.rate : ℚ) * seconds (s - tb.lastRefill)
          * (1 + 1 / 9007199254740992) ^ 3 := by
    have h1 : max (tb.refillInternal s e).tokens 0
        ≤ max tb.tokens 0 + tokenbucket.newTokens (s - tb.lastRefill) tb.rate := by
      omega
    have h2 : ((max (tb.refillInternal s e).tokens 0 : Int) : ℚ)
        ≤ ((max tb.tokens 0 + tokenbucket.newTokens (s - tb.lastRefill) tb.rate : Int) : ℚ) :=
      Int.cast_le.mpr h1
    rw [Int.cast_add] at h2
    have h3 : seconds (s - tb.lastRefill) * (tb.rate : ℚ) * (1 + 1 / 9007199254740992) ^ 3
        = (tb.rate : ℚ) * seconds (s - tb.lastRefill) * (1 + 1 / 9007199254740992) ^ 3 := by
      ring
    linarith
  rw [tokenbucket_allow_eq]
  by_cases hpos : (tb.refillInternal s e).tokens > 0
  · rw [if_pos hpos]
    have e1 : (1 : Int) + max ((tb.refillInternal s e).tokens - 1) 0
        = max (tb.refillInternal s e).tokens 0 := by omega
    refine ⟨rfl, rfl, rfl, ?_, ?_, ?_, ?_⟩
    · show -9223372036854775808 ≤ (tb.refillInternal s e).tokens - 1
      omega
    · show (tb.refillInternal s e).tokens - 1 ≤ tb.capacity
      omega
    · show (((1 : Int) + max ((tb.refillInternal s e).tokens - 1) 0 : Int) : ℚ) ≤ _
      rw [e1]
      exact hq
    · show (1 : Int) + max ((tb.refillInternal s e).tokens - 1) 0 ≤ max tb.capacity 0
      omega
  · rw [if_neg hpos]
    refine ⟨rfl, rfl, rfl, hm3, hm2, ?_, ?_⟩
    · show (((0 : Int) + max (tb.refillInternal s e).tokens 0 : Int) : ℚ) ≤ _
      rw [zero_add]
      exact hq
    · show (0 : Int) + max (tb.refillInternal s e).tokens 0 ≤ max tb.capacity 0
      omega

/-- From a bucket with int64 fields `tokens <= capacity`, the admissions of a call
sequence are bounded by the usable tokens held plus the rate times the time up to
the last call, raised by the rounding factor. -/
theorem tokenbucket_count_from (r : Int) (hr : 0 ≤ r) (hr2 : r ≤ 268435456)
    (calls : List (Time × Time)) :
    ∀ tb : tokenbucket.TokenBucket, tb.rate = r → -9223372036854775808 ≤ tb.tokens →
      tb.tokens ≤ tb.capacity →
      List.Chain (· ≤ ·) tb.lastRefill (tokenbucket.reads calls) →
      (∀ t ∈ tokenbucket.reads calls, t - tb.lastRefill ≤ 9223372036854775807) →
      (((tokenbucket.decisions tb calls).count true : Nat) : ℚ)
        ≤ ((max tb.tokens 0 : Int) : ℚ)
          + (r : ℚ) * seconds (tokenbucket.lastRead tb.lastRefill calls - tb.lastRefill)
            * (1 + 1 / 9007199254740992) ^ 3 := by
  induction calls with
  | nil =>
    intro tb _ _ _ _ _
    have : (0 : ℚ) ≤ ((max tb.tokens 0 : Int) : ℚ) := by exact_mod_cast le_max_right _ _
    simp only [tokenbucket.decisions, tokenbucket.lastRead, List.count_nil, Nat.cast_zero,
      sub_self]
    have hz : seconds 0 = 0 := by simp [seconds]
    rw [hz, mul_zero, zero_mul, add_zero]
    exact this
  | cons c rest ih =>
    intro tb hrate ht ht2 hchain hspan
    simp only [tokenbucket.reads, List.chain_cons] at hchain
    obtain ⟨h1, h2, h3⟩ := hchain
    have hsp1 : c.1 - tb.lastRefill ≤ 9223372036854775807 :=
      hspan c.1 (by simp [tokenbucket.reads])
    obtain ⟨s1, s2, s3, s4, s4', s5, _⟩ :=
      tokenbucket_allow_balance tb c.1 c.2 (hrate ▸ hr) (hrate ▸ hr2) ht ht2 h1 hsp1
    have hih := ih (tb.Allow c.1 c.2).2 (s1.trans hrate) s4
      (by rw [s2]; exact s4') (by rw [s3]; exact h3)
      (by
        intro t ht'
        rw [s3]
        have := hspan t (by simp [tokenbucket.reads, ht'])
        linarith)
    rw [s3] at hih
    have hshift := seconds_mono _ _ (lastRead_shift c.1 c.2 h2 rest)
    have hr' : (0 : ℚ) ≤ (r : ℚ) := by exact_mod_cast hr
    have hmul := mul_le_mul_of_nonneg_right (mul_le_mul_of_nonneg_left hshift hr')
      (by norm_num : (0 : ℚ) ≤ (1 + 1 / 9007199254740992) ^ 3)
    have hsplit : seconds (tokenbucket.lastRead c.1 rest - tb.lastRefill)
        = seconds (c.1 - tb.lastRefill) + seconds (tokenbucket.lastRead c.1 rest - c.1) := by
      rw [← seconds_add]
      congr 1
      ring
    have hcount : (((tokenbucket.decisions tb (c :: rest)).count true : Nat) : ℚ)
        = (((if (tb.Allow c.1 c.2).1 then 1 else 0 : Int)) : ℚ)
          + (((tokenbucket.decisions (tb.Allow c.1 c.2).2 rest).count true : Nat) : ℚ) := by
      simp only [tokenbucket.decisions]
      cases (tb.Allow c.1 c.2).1 <;> simp [add_comm]
    rw [hcount]
    simp only [tokenbucket.lastRead]
    rw [hsplit, mul_add, add_mul]
    rw [hrate] at s5
    rw [Int.cast_add] at s5
    linarith

/-- Running a prefix of a well-timed call sequence keeps the rate and capacity,
keeps the tokens an int64 not above the capacity, and leaves the rest of the
sequence well-timed. -/
theorem tokenbucket_run_inv (pre rest : List (Time × Time)) :
    ∀ tb : tokenbucket.TokenBucket, 0 ≤ tb.rate → tb.rate ≤ 268435456 →
      -9223372036854775808 ≤ tb.tokens → tb.tokens ≤ tb.capacity →
      List.Chain (· ≤ ·) tb.lastRefill (tokenbucket.reads (pre ++ rest)) →
      (∀ t ∈ tokenbucket.reads (pre ++ rest), t - tb.lastRefill ≤ 9223372036854775807) →
      (tokenbucket.run tb pre).rate = tb.rate ∧ (tokenbucket.run tb pre).capacity = tb.capacity
        ∧ -9223372036854775808 ≤ (tokenbucket.run tb pre).tokens
        ∧ (tokenbucket.run tb pre).tokens ≤ tb.capacity
        ∧ List.Chain (· ≤ ·) (tokenbucket.run tb pre).lastRefill (tokenbucket.reads rest)
        ∧ (∀ t ∈ tokenbucket.reads rest,
            t - (tokenbucket.run tb pre).lastRefill ≤ 9223372036854775807) := by
  induction pre with
  | nil =>
    intro tb _ _ ht ht2 hchain hspan
    exact ⟨rfl, rfl, ht, ht2, hchain, hspan⟩
  | cons c pre ih =>
    intro tb hr hr2 ht ht2 hchain hspan
    rw [List.cons_append] at hchain hspan
    simp only [tokenbucket.reads, List.chain_cons] at hchain
    obtain ⟨h1, h2, h3⟩ := hchain
    have hsp1 : c.1 - tb.lastRefill ≤ 9223372036854775807 :=
      hspan c.1 (by simp [tokenbucket.reads])
    obtain ⟨s1, s2, s3, s4, s4', _, _⟩ := tokenbucket_allow_balance tb c.1 c.2 hr hr2 ht ht2 h1 hsp1
    obtain ⟨i1, i2, i3, i4, i5, i6⟩ := ih (tb.Allow c.1 c.2).2 (by rw [s1]; exact hr)
      (by rw [s1]; exact hr2) s4 (by rw [s2]; exact s4')
      (by rw [s3]; exact h3)
      (by
        intro t ht'
        rw [s3]
        have := hspan t (by simp [tokenbucket.reads, ht'])
        linarith)
    exact ⟨i1.trans s1, i2.trans s2, i3, by rw [← s2]; exact i4, i5, i6⟩

/-- The decisions of a concatenated call sequence. -/
theorem tokenbucket_decisions_append (a b : List (Time × Time)) :
    ∀ tb : tokenbucket.TokenBucket,
      tokenbucket.decisions tb (a ++ b)
        = tokenbucket.decisions tb a ++ tokenbucket.decisions (tokenbucket.run tb a) b := by
  induction a with
  | nil => intro tb; rfl
  | cons c a ih =>
    intro tb
    rw [List.cons_append]
    simp only [tokenbucket.decisions, tokenbucket.run, ih, List.cons_append]

/-- One decision per call. -/
theorem tokenbucket_decisions_length (a : List (Time × Time)) :
    ∀ tb : tokenbucket.TokenBucket, (tokenbucket.decisions tb a).length = a.length := by
  induction a with
  | nil => intro tb; rfl
  | cons c a ih =>
    intro tb
    simp [tokenbucket.decisions, ih]

/-- A well-timed call sequence stays well-timed when its tail is cut off. -/
theorem tokenbucket_chain_left (seg post : List (Time × Time)) :
    ∀ a : Time, List.Chain (· ≤ ·) a (tokenbucket.reads (seg ++ post)) →
      List.Chain (· ≤ ·) a (tokenbucket.reads seg) := by
  induction seg with
  | nil =>
    intro a _
    exact List.Chain.nil
  | cons c seg ih =>
    intro a h
    rw [List.cons_append] at h
    simp only [tokenbucket.reads, List.chain_cons] at h ⊢
    exact ⟨h.1, h.2.1, ih c.2 h.2.2⟩

/-- The clock reads of a concatenated call sequence. -/
theorem tokenbucket_reads_append (a b : List (Time × Time)) :
    tokenbucket.reads (a ++ b) = tokenbucket.reads a ++ tokenbucket.reads b := by
  induction a with
  | nil => rfl
  | cons c a ih =>
    rw [List.cons_append]
    simp only [tokenbucket.reads, ih, List.cons_append]

/-- The read of the last call, through getLast. -/
theorem lastRead_eq_getLast (mid : List (Time × Time)) :
    ∀ c : Time × Time,
      tokenbucket.lastRead c.1 mid = ((c :: mid).getLast (List.cons_ne_nil c mid)).1 := by
  induction mid with
  | nil => intro c; rfl
  | cons c' mid ih =>
    intro c
    rw [List.getLast_cons (List.cons_ne_nil c' mid)]
    exact ih c'

/-- The read of the last call is monotone in the default. -/
theorem lastRead_mono (s e : Time) (h : s ≤ e) (rest : List (Time × Time)) :
    tokenbucket.lastRead s rest ≤ tokenbucket.lastRead e rest := by
  cases rest with
  | nil => exact h
  | cons c rest => exact le_refl _

/-- In a well-timed sequence the first read of the last call is not later than
its second read. -/
theorem lastRead_le_getLast_snd (mid : List (Time × Time)) :
    ∀ c : Time × Time, List.Chain (· ≤ ·) c.2 (tokenbucket.reads mid) →
      tokenbucket.lastRead c.2 mid ≤ ((c :: mid).getLast (List.cons_ne_nil c mid)).2 := by
  induction mid with
  | nil =>
    intro c _
    exact le_refl _
  | cons c' mid ih =>
    intro c h
    simp only [tokenbucket.reads, List.chain_cons] at h
    rw [List.getLast_cons (List.cons_ne_nil c' mid)]
    exact le_trans (lastRead_mono c'.1 c'.2 h.2.1 mid) (ih c' h.2.2)

/-- Token-bucket bound for a segment of calls that starts in any reachable state. -/
theorem tokenbucket_segment_bound (r C : Int) (hr : 0 ≤ r) (hr2 : r ≤ 268435456)
    (hC : 0 ≤ C)
    (tb : tokenbucket.TokenBucket) (hrate : tb.rate = r) (hcap : tb.capacity = C)
    (ht : -9223372036854775808 ≤ tb.tokens) (ht2 : tb.tokens ≤ C) (c : Time × Time)
    (mid : List (Time × Time))
    (hchain : List.Chain (· ≤ ·) tb.lastRefill (tokenbucket.reads (c :: mid)))
    (hspan : ∀ t ∈ tokenbucket.reads (c :: mid), t - tb.lastRefill ≤ 9223372036854775807) :
    (((tokenbucket.decisions tb (c :: mid)).count true : Nat) : ℚ)
      ≤ (C : ℚ) + (r : ℚ) * seconds (tokenbucket.lastRead c.2 mid - c.2)
          * (1 + 1 / 9007199254740992) ^ 3 := by
  simp only [tokenbucket.reads, List.chain_cons] at hchain
  obtain ⟨h1, h2, h3⟩ := hchain
  have hsp1 : c.1 - tb.lastRefill ≤ 9223372036854775807 :=
    hspan c.1 (by simp [tokenbucket.reads])
  obtain ⟨s1, s2, s3, s4, s4', _, s6⟩ :=
    tokenbucket_allow_balance tb c.1 c.2 (hrate ▸ hr) (hrate ▸ hr2) ht
      (hcap ▸ ht2) h1 hsp1
  have hfrom := tokenbucket_count_from r hr hr2 mid (tb.Allow c.1 c.2).2 (s1.trans hrate)
    s4 (by rw [s2]; exact s4') (by rw [s3]; exact h3)
    (by
      intro t ht'
      rw [s3]
      have := hspan t (by simp [tokenbucket.reads, ht'])
      linarith)
  rw [s3] at hfrom
  have hcount : (((tokenbucket.decisions tb (c :: mid)).count true : Nat) : ℚ)
      = (((if (tb.Allow c.1 c.2).1 then 1 else 0 : Int)) : ℚ)
        + (((tokenbucket.decisions (tb.Allow c.1 c.2).2 mid).count true : Nat) : ℚ) := by
    simp only [tokenbucket.decisions]
    cases (tb.Allow c.1 c.2).1 <;> simp [add_comm]
  rw [hcount]
  rw [hcap, max_eq_left hC] at s6
  have s6q : (((if (tb.Allow c.1 c.2).1 then 1 else 0 : Int)
      + max (tb.Allow c.1 c.2).2.tokens 0 : Int) : ℚ) ≤ (C : ℚ) := Int.cast_le.mpr s6
  rw [Int.cast_add] at s6q
  linarith

/-- Allow on a bucket with `tokens <= capacity` (both int64), both clock reads
equal to lastRefill: nothing is refilled, and a token is consumed when there is
one. -/
theorem tokenbucket_allow_same_instant (tb : tokenbucket.TokenBucket)
    (h0 : -9223372036854775808 ≤ tb.tokens)
    (hc : tb.tokens ≤ tb.capacity) (hmax : tb.capacity ≤ 9223372036854775807) :
    tb.Allow tb.lastRefill tb.lastRefill
      = if tb.tokens > 0 then (true, { tb with tokens := tb.tokens - 1 })
        else (false, tb) := by
  have hre : tb.refillInternal tb.lastRefill tb.lastRefill = tb := by
    rw [tokenbucket_refill_eq, sub_self, newTokens_zero, add_zero,
      wrap64_of_range _ (by omega) (by omega), min_eq_left hc]
  rw [tokenbucket_allow_eq, hre]

/-- Calls made at the instant of the last refill: the first `tokens` of them are
admitted, the rest denied. -/
theorem tokenbucket_burst (k : Nat) :
    ∀ tb : tokenbucket.TokenBucket, -9223372036854775808 ≤ tb.tokens →
      tb.tokens ≤ tb.capacity → tb.capacity ≤ 9223372036854775807 →
      tokenbucket.decisions tb (List.replicate k (tb.lastRefill, tb.lastRefill))
        = List.replicate (min k tb.tokens.toNat) true
          ++ List.replicate (k - min k tb.tokens.toNat) false := by
  induction k with
  | zero => intro tb _ _ _; simp [tokenbucket.decisions]
  | succ k ih =>
    intro tb h0 hc hmax
    rw [List.replicate_succ, tokenbucket.decisions]
    simp only []
    rw [tokenbucket_allow_same_instant tb h0 hc hmax]
    by_cases hp : tb.tokens > 0
    · rw [if_pos hp]
      have hih := ih { tb with tokens := tb.tokens - 1 }
        (by show -9223372036854775808 ≤ tb.tokens - 1; omega)
        (by show tb.tokens - 1 ≤ tb.capacity; omega) hmax
      simp only [] at hih
      rw [hih]
      have e1 : min (k + 1) tb.tokens.toNat = min k (tb.tokens - 1).toNat + 1 := by omega
      have e2 : k + 1 - min (k + 1) tb.tokens.toNat = k - min k (tb.tokens - 1).toNat := by
        omega
      rw [e2, e1, List.replicate_succ]
      rfl
    · rw [if_neg hp]
      have hz : tb.tokens.toNat = 0 := by omega
      have hih := ih tb h0 hc hmax
      rw [hih, hz]
      simp [List.replicate_succ]

/-- The bucket after calls made at the instant of the last refill: one token is
gone for each admitted call. -/
theorem tokenbucket_burst_run (k : Nat) :
    ∀ tb : tokenbucket.TokenBucket, -9223372036854775808 ≤ tb.tokens →
      tb.tokens ≤ tb.capacity → tb.capacity ≤ 9223372036854775807 →
      tokenbucket.run tb (List.replicate k (tb.lastRefill, tb.lastRefill))
        = { tb with tokens := tb.tokens - ((min k tb.tokens.toNat : Nat) : Int) } := by
  induction k with
  | zero =>
    intro tb _ _ _
    simp [tokenbucket.run]
  | succ k ih =>
    intro tb h0 hc hmax
    rw [List.replicate_succ, tokenbucket.run]
    simp only []
    rw [tokenbucket_allow_same_instant tb h0 hc hmax]
    by_cases hp : tb.tokens > 0
    · rw [if_pos hp]
      have hih := ih { tb with tokens := tb.tokens - 1 }
        (by show -9223372036854775808 ≤ tb.tokens - 1; omega)
        (by show tb.tokens - 1 ≤ tb.capacity; omega) hmax
      simp only [] at hih
      rw [hih]
      have e : tb.tokens - 1 - ((min k (tb.tokens - 1).toNat : Nat) : Int)
          = tb.tokens - ((min (k + 1) tb.tokens.toNat : Nat) : Int) := by omega
      rw [e]
    · rw [if_neg hp]
      have hih := ih tb h0 hc hmax
      rw [hih]
      have e : ((min k tb.tokens.toNat : Nat) : Int) = ((min (k + 1) tb.tokens.toNat : Nat) : Int) := by
        omega
      rw [e]

/-- From an empty bucket refilled last at `t`, `k` calls made at `t + d`: with `n`
the tokens the refill adds, the first `min k (min capacity n)` are admitted, the
rest denied. -/
theorem tokenbucket_recovery (tb : tokenbucket.TokenBucket) (d : Duration) (k : Nat)
    (hC : 0 ≤ tb.capacity) (hmax : tb.capacity ≤ 9223372036854775807) (ht : tb.tokens = 0) :
    tokenbucket.decisions tb (List.replicate k (tb.lastRefill + d, tb.lastRefill + d))
      = List.replicate (min k (min tb.capacity (tokenbucket.newTokens d tb.rate)).toNat) true
        ++ List.replicate
          (k - min k (min tb.capacity (tokenbucket.newTokens d tb.rate)).toNat) false := by
  cases k with
  | zero => simp [tokenbucket.decisions]
  | succ k =>
    obtain ⟨n1, n2⟩ := newTokens_range d tb.rate
    have hre : tb.refillInternal (tb.lastRefill + d) (tb.lastRefill + d)
        = { tb with tokens := min (tokenbucket.newTokens d tb.rate) tb.capacity,
                    lastRefill := tb.lastRefill + d } := by
      rw [tokenbucket_refill_eq, ht, zero_add, add_sub_cancel_left,
        wrap64_of_range _ n1 n2]
    rw [List.replicate_succ, tokenbucket.decisions]
    simp only []
    rw [tokenbucket_allow_eq, hre, min_comm tb.capacity]
    simp only []
    have hm2 : min (tokenbucket.newTokens d tb.rate) tb.capacity ≤ tb.capacity :=
      min_le_right _ _
    have hm1 : -9223372036854775808 ≤ min (tokenbucket.newTokens d tb.rate) tb.capacity :=
      le_min n1 (by omega)
    generalize min (tokenbucket.newTokens d tb.rate) tb.capacity = m at hm1 hm2 ⊢
    by_cases hp : m > 0
    · rw [if_pos hp]
      have hih := tokenbucket_burst k
        { tb with tokens := m - 1, lastRefill := tb.lastRefill + d }
        (by show -9223372036854775808 ≤ m - 1; omega)
        (by show m - 1 ≤ tb.capacity; omega) hmax
      simp only [] at hih
      rw [hih]
      have e1 : min (k + 1) m.toNat = min k (m - 1).toNat + 1 := by omega
      have e2 : k + 1 - min (k + 1) m.toNat = k - min k (m - 1).toNat := by omega
      rw [e2, e1, List.replicate_succ]
      rfl
    · rw [if_neg hp]
      have hm0 : m.toNat = 0 := by omega
      have hih := tokenbucket_burst k
        { tb with tokens := m, lastRefill := tb.lastRefill + d } hm1 hm2 hmax
      simp only [] at hih
      rw [hih, hm0]
      simp [List.replicate_succ]

/-- Calls made at one instant `a`, not earlier than `t`, followed by well-timed
clock reads: the clock reads are well-timed from `t` on. -/
theorem chain_reads_replicate (a : Time) (L : List Time) (hL : List.Chain (· ≤ ·) a L)
    (k : Nat) : ∀ t : Time, t ≤ a →
      List.Chain (· ≤ ·) t (tokenbucket.reads (List.replicate k (a, a)) ++ L) := by
  induction k with
  | zero =>
    intro t h
    cases hL with
    | nil => exact List.Chain.nil
    | cons hab hrest => exact List.Chain.cons (le_trans h hab) hrest
  | succ k ih =>
    intro t h
    rw [List.replicate_succ]
    simp only [tokenbucket.reads, List.cons_append, List.chain_cons]
    exact ⟨h, le_refl _, ih a (le_refl _)⟩

/-- A full bucket emptied by `C` calls at `t0` and refilled by at least `C` tokens
at `t0 + d`: `C` further calls at `t0 + d` are admitted as well. -/
theorem tokenbucket_two_bursts (r C : Int) (hC0 : 0 ≤ C) (hC : C ≤ 9223372036854775807)
    (t0 : Time) (d : Duration) (hn : C ≤ tokenbucket.newTokens d r) :
    tokenbucket.decisions (tokenbucket.newTokenBucket r C t0)
        (List.replicate C.toNat (t0, t0) ++ List.replicate C.toNat (t0 + d, t0 + d))
      = List.replicate C.toNat true ++ List.replicate C.toNat true := by
  have hb := tokenbucket_burst C.toNat (tokenbucket.newTokenBucket r C t0)
    (by show -9223372036854775808 ≤ C; omega) (le_refl _) hC
  have hrun := tokenbucket_burst_run C.toNat (tokenbucket.newTokenBucket r C t0)
    (by show -9223372036854775808 ≤ C; omega) (le_refl _) hC
  have hmin : min C.toNat (tokenbucket.newTokenBucket r C t0).tokens.toNat = C.toNat :=
    min_self _
  rw [hmin] at hb hrun
  have hzero : (tokenbucket.newTokenBucket r C t0).tokens - ((C.toNat : Nat) : Int) = 0 := by
    show C - ((C.toNat : Nat) : Int) = 0
    omega
  rw [hzero] at hrun
  have hrec := tokenbucket_recovery
    { tokenbucket.newTokenBucket r C t0 with tokens := 0 } d C.toNat hC0 hC rfl
  have hmin2 : min C.toNat (min C (tokenbucket.newTokens d r)).toNat = C.toNat := by
    rw [min_eq_left hn]
    exact min_self _
  rw [tokenbucket_decisions_append]
  have e1 : tokenbucket.decisions (tokenbucket.newTokenBucket r C t0)
      (List.replicate C.toNat (t0, t0)) = List.replicate C.toNat true := by
    have := hb
    rw [Nat.sub_self] at this
    simpa using this
  have e2 : tokenbucket.decisions
      (tokenbucket.run (tokenbucket.newTokenBucket r C t0) (List.replicate C.toNat (t0, t0)))
      (List.replicate C.toNat (t0 + d, t0 + d)) = List.replicate C.toNat true := by
    have h1 : tokenbucket.run (tokenbucket.newTokenBucket r C t0)
        (List.replicate C.toNat (t0, t0))
        = { tokenbucket.newTokenBucket r C t0 with tokens := 0 } := hrun
    rw [h1]
    have h2 : tokenbucket.decisions { tokenbucket.newTokenBucket r C t0 with tokens := 0 }
        (List.replicate C.toNat (t0 + d, t0 + d))
        = List.replicate (min C.toNat (min C (tokenbucket.newTokens d r)).toNat) true
          ++ List.replicate
            (C.toNat - min C.toNat (min C (tokenbucket.newTokens d r)).toNat) false := hrec
    rw [h2, hmin2, Nat.sub_self]
    simp
  rw [e1, e2]

/-- C3, counterexample: rate 20000051 and capacity 9027474, created at 0.  The
first 9027474 calls at 0 empty the bucket; 0.451372549 s later the exact product
`rate * elapsed` is 9027473.999999999, but its float64 value is 9027474.0, so the
refill adds 9027474 tokens and 9027474 further calls are admitted: 18054948
admissions among the calls, more than `C + r * (t_j - t_i) = 18054947.999999999`. -/
theorem tokenbucket_rounding_counterexample :
    (1 : Int) ≤ 9027474 ∧ (1 : Int) ≤ 20000051
      ∧ List.Chain (· ≤ ·) (0 : Time) (tokenbucket.reads
          (List.replicate (Int.toNat 9027474) ((0 : Time), (0 : Time))
            ++ List.replicate (Int.toNat 9027474) ((0 : Time) + 451372549, (0 : Time) + 451372549)))
      ∧ ((9027474 : Int) : ℚ) + ((20000051 : Int) : ℚ) * seconds ((0 + 451372549) - 0)
          < (((tokenbucket.decisions (tokenbucket.newTokenBucket 20000051 9027474 0)
              (List.replicate (Int.toNat 9027474) ((0 : Time), (0 : Time))
                ++ List.replicate (Int.toNat 9027474)
                  ((0 : Time) + 451372549, (0 : Time) + 451372549))).count true : Nat) : ℚ) := by
  refine ⟨by decide, by decide, ?_, ?_⟩
  · rw [tokenbucket_reads_append]
    apply chain_reads_replicate 0 _ _ _ 0 (le_refl _)
    have := chain_reads_replicate ((0 : Time) + 451372549) [] List.Chain.nil (Int.toNat 9027474)
      0 (by decide)
    rwa [List.append_nil] at this
  · rw [tokenbucket_two_bursts 20000051 9027474 (by decide) (by decide) 0 451372549
      (by rw [newTokens_rounds_up])]
    rw [List.count_append, List.count_replicate_self]
    have e : Int.toNat 9027474 = 9027474 := by decide
    rw [e]
    norm_num [seconds]

/-- C3, amended: token-bucket capacity bound with the float64 rounding of the
refill.  For a bucket created at `t0` with rate `0 <= r <= 2^28` and an int64
capacity `C >= 0` (in particular both `>= 1`) and calls whose clock reads are
non-decreasing from `t0` on and less than `2^63` ns after `t0`, take any segment
`seg` of consecutive calls (calls i..j): the admitted calls of the segment number
at most `C + r * (t_j - t_i) * (1 + 2^(-53))^3` with `t` in seconds, where the
time of a call is its first clock read, and also where it is its second clock
read. -/
theorem tokenbucket_capacity_bound (r C : Int) (t0 : Time) (pre seg post : List (Time × Time))
    (hr : 0 ≤ r) (hr2 : r ≤ 268435456) (hC : 0 ≤ C) (hC2 : C ≤ 9223372036854775807)
    (hseg : seg ≠ [])
    (hmono : List.Chain (· ≤ ·) t0 (tokenbucket.reads (pre ++ seg ++ post)))
    (hspan : ∀ t ∈ tokenbucket.reads (pre ++ seg ++ post), t - t0 ≤ 9223372036854775807) :
    ((((((tokenbucket.decisions (tokenbucket.newTokenBucket r C t0) (pre ++ seg ++ post)).drop
        pre.length).take seg.length).count true : Nat) : ℚ)
      ≤ (C : ℚ) + (r : ℚ) * seconds ((seg.getLast hseg).1 - (seg.head hseg).1)
          * (1 + 1 / 9007199254740992) ^ 3)
    ∧ ((((((tokenbucket.decisions (tokenbucket.newTokenBucket r C t0) (pre ++ seg ++ post)).drop
        pre.length).take seg.length).count true : Nat) : ℚ)
      ≤ (C : ℚ) + (r : ℚ) * seconds ((seg.getLast hseg).2 - (seg.head hseg).2)
          * (1 + 1 / 9007199254740992) ^ 3) := by
  rw [List.append_assoc] at hmono hspan
  obtain ⟨i1, i2, i3, i3', i4, i5⟩ := tokenbucket_run_inv pre (seg ++ post)
    (tokenbucket.newTokenBucket r C t0) hr hr2
    (by show -9223372036854775808 ≤ C; omega) (le_refl _) hmono hspan
  have hdec : ((tokenbucket.decisions (tokenbucket.newTokenBucket r C t0)
      (pre ++ seg ++ post)).drop pre.length).take seg.length
      = tokenbucket.decisions (tokenbucket.run (tokenbucket.newTokenBucket r C t0) pre) seg := by
    rw [List.append_assoc, tokenbucket_decisions_append,
      List.drop_left' (tokenbucket_decisions_length _ _), tokenbucket_decisions_append,
      List.take_left' (tokenbucket_decisions_length _ _)]
  rw [hdec]
  cases seg with
  | nil => exact absurd rfl hseg
  | cons c mid =>
    have hch := tokenbucket_chain_left (c :: mid) post _ i4
    have hsp : ∀ t ∈ tokenbucket.reads (c :: mid),
        t - (tokenbucket.run (tokenbucket.newTokenBucket r C t0) pre).lastRefill
          ≤ 9223372036854775807 := by
      intro t ht
      apply i5 t
      rw [tokenbucket_reads_append]
      exact List.mem_append_left _ ht
    have hb := tokenbucket_segment_bound r C hr hr2 hC _ i1 i2 i3 i3' c mid hch hsp
    have hc12 : c.1 ≤ c.2 := by
      simp only [tokenbucket.reads, List.chain_cons] at hch
      exact hch.2.1
    have hmid : List.Chain (· ≤ ·) c.2 (tokenbucket.reads mid) := by
      simp only [tokenbucket.reads, List.chain_cons] at hch
      exact hch.2.2
    have hr' : (0 : ℚ) ≤ (r : ℚ) := by exact_mod_cast hr
    have hK : (0 : ℚ) ≤ (1 + 1 / 9007199254740992) ^ 3 := by norm_num
    have e1 := lastRead_eq_getLast mid c
    have e2 := lastRead_le_getLast_snd mid c hmid
    have k1 := lastRead_shift c.1 c.2 hc12 mid
    simp only [List.head_cons]
    constructor
    · have hle : seconds (tokenbucket.lastRead c.2 mid - c.2)
          ≤ seconds (((c :: mid).getLast hseg).1 - c.1) := by
        apply seconds_mono
        rw [← e1]
        exact k1
      have := mul_le_mul_of_nonneg_right (mul_le_mul_of_nonneg_left hle hr') hK
      linarith
    · have hle : seconds (tokenbucket.lastRead c.2 mid - c.2)
          ≤ seconds (((c :: mid).getLast hseg).2 - c.2) := by
        apply seconds_mono
        linarith
      have := mul_le_mul_of_nonneg_right (mul_le_mul_of_nonneg_left hle hr') hK
      linarith

/-- Witness for C3: rate 1, capacity 2, creation at 0, one call at 0, then the
segment of a call at 0 and a call one second later. -/
theorem tokenbucket_capacity_bound_witness :
    (0 : Int) ≤ 1 ∧ (1 : Int) ≤ 268435456 ∧ (0 : Int) ≤ 2 ∧ (2 : Int) ≤ 9223372036854775807
      ∧ List.Chain (· ≤ ·) (0 : Time) (tokenbucket.reads
          ([(0, 0)] ++ [(0, 0), (1000000000, 1000000000)] ++ []))
      ∧ ((((((tokenbucket.decisions (tokenbucket.newTokenBucket 1 2 0)
          ([(0, 0)] ++ [(0, 0), (1000000000, 1000000000)] ++ [])).drop
            [((0 : Time), (0 : Time))].length).take
            [((0 : Time), (0 : Time)), (1000000000, 1000000000)].length).count true : Nat) : ℚ)
        ≤ ((2 : Int) : ℚ) + ((1 : Int) : ℚ) * seconds
          (([((0 : Time), (0 : Time)), (1000000000, 1000000000)].getLast
              (List.cons_ne_nil _ _)).1
            - ([((0 : Time), (0 : Time)), (1000000000, 1000000000)].head
              (List.cons_ne_nil _ _)).1) * (1 + 1 / 9007199254740992) ^ 3) :=
  ⟨by decide, by decide, by decide, by decide, by simp [tokenbucket.reads],
    (tokenbucket_capacity_bound 1 2 0 [(0, 0)] [(0, 0), (1000000000, 1000000000)] []
      (by decide) (by decide) (by decide) (by decide) (List.cons_ne_nil _ _)
      (by simp [tokenbucket.reads]) (by simp [tokenbucket.reads])).1⟩

/-- C4 (defect of the source): a rejected AddWater applies the leak but returns
before `lastChecked = now`, so the same interval leaks again on the next call.
Bucket with Capacity 5, FillRate 1, Water 5, lastChecked 0; amount 3.  The call
at 1s is rejected (Water 4).  The following call at 2s is admitted (Water 5),
whereas the call at 2s on the original bucket is rejected (Water 3). -/
theorem leakybucket_rejected_call_grants_capacity :
    (({ Capacity := 5, FillRate := 1, Water := 5, lastChecked := 0 } :
        leakybucket.LeakyBucket).AddWater 3 1000000000).1 = false
    ∧ ((({ Capacity := 5, FillRate := 1, Water := 5, lastChecked := 0 } :
        leakybucket.LeakyBucket).AddWater 3 1000000000).2.AddWater 3 2000000000).1 = true
    ∧ ((({ Capacity := 5, FillRate := 1, Water := 5, lastChecked := 0 } :
        leakybucket.LeakyBucket).AddWater 3 1000000000).2.AddWater 3 2000000000).2.Water = 5
    ∧ (({ Capacity := 5, FillRate := 1, Water := 5, lastChecked := 0 } :
        leakybucket.LeakyBucket).AddWater 3 2000000000).1 = false
    ∧ (({ Capacity := 5, FillRate := 1, Water := 5, lastChecked := 0 } :
        leakybucket.LeakyBucket).AddWater 3 2000000000).2.Water = 3 := by
  obtain ⟨f1, f2, f3, f4, f5, f6, f7⟩ := f64_small
  norm_num [leakybucket.LeakyBucket.AddWater, durationSeconds_one, durationSeconds_two,
    f1, f2, f3, f4, f5, f6, f7]

/-- C5 (defect of the source): on the rejected path AddWater does not store
`now` in lastChecked.  Bucket with Capacity 5, FillRate 1, Water 5,
lastChecked 0; AddWater 3 at 1s: leaked = 4, 4 + 3 > 5, the call returns false
with Water = 4, and lastChecked is still 0 instead of 1s. -/
theorem leakybucket_rejected_keeps_lastChecked :
    (({ Capacity := 5, FillRate := 1, Water := 5, lastChecked := 0 } :
        leakybucket.LeakyBucket).AddWater 3 1000000000).1 = false
    ∧ (({ Capacity := 5, FillRate := 1, Water := 5, lastChecked := 0 } :
        leakybucket.LeakyBucket).AddWater 3 1000000000).2.Water = 4
    ∧ (({ Capacity := 5, FillRate := 1, Water := 5, lastChecked := 0 } :
        leakybucket.LeakyBucket).AddWater 3 1000000000).2.lastChecked = 0
    ∧ (({ Capacity := 5, FillRate := 1, Water := 5, lastChecked := 0 } :
        leakybucket.LeakyBucket).AddWater 3 1000000000).2.lastChecked ≠ 1000000000 := by
  obtain ⟨f1, f2, f3, f4, f5, f6, f7⟩ := f64_small
  norm_num [leakybucket.LeakyBucket.AddWater, durationSeconds_one, durationSeconds_two,
    f1, f2, f3, f4, f5, f6, f7]

/-- Allow of fixedwindow on a key that has a window. -/
theorem fixedwindow_allow_some (rl : fixedwindow.RateLimiter) (ip : String) (now : Time)
    (w : fixedwindow.Window) (h : rl.windows ip = some w) :
    rl.Allow ip now
      = if now > w.expireTime then
          (true, { rl with windows := (rl.windows.store ip
            { count := 1, expireTime := now + Second }) })
        else if w.count < rl.requestsPerSecond then
          (true, { rl with windows := (rl.windows.store ip
            { count := w.count + 1, expireTime := w.expireTime }) })
        else (false, rl) := by
  unfold fixedwindow.RateLimiter.Allow
  rw [h]
  simp only [one_mul]

/-- Allow of fixedwindow on a key without a window. -/
theorem fixedwindow_allow_none (rl : fixedwindow.RateLimiter) (ip : String) (now : Time)
    (h : rl.windows ip = none) :
    rl.Allow ip now
      = (true, { rl with windows := (rl.windows.store ip
          { count := 1, expireTime := now + Second }) }) := by
  unfold fixedwindow.RateLimiter.Allow
  rw [h]
  simp only [one_mul]

/-- C6 as stated fails at the boundary `now = expireTime`: with limit 1, a first
call at 0 opens the window expiring at 1s; the call at exactly 1s satisfies
`now >= expireTime`, yet it is denied and the window is kept. -/
theorem fixedwindow_boundary_counterexample :
    (((fixedwindow.NewRateLimiter 1).Allow "a" 0).2.windows "a"
        = some { count := 1, expireTime := 1000000000 })
    ∧ (1000000000 : Time) ≥ 1000000000
    ∧ ¬ ((((fixedwindow.NewRateLimiter 1).Allow "a" 0).2.Allow "a" 1000000000).1 = true)
    ∧ ((((fixedwindow.NewRateLimiter 1).Allow "a" 0).2.Allow "a" 1000000000).2.windows "a"
        = some { count := 1, expireTime := 1000000000 }) := by
  decide

/-- C6, amended: the window is reset when the key has no window or the call is
strictly later than expireTime (`now > expireTime`): the call returns true and
stores count 1 and expireTime `now + 1s`.  Otherwise (`now <= expireTime`), when
count is below requestsPerSecond the call returns true and only count is
incremented, and else it returns false and the limiter is unchanged. -/
theorem fixedwindow_allow_transition (rl : fixedwindow.RateLimiter) (ip : String) (now : Time) :
    ((rl.windows ip = none ∨ ∃ w, rl.windows ip = some w ∧ now > w.expireTime) →
      rl.Allow ip now = (true, { rl with windows := (rl.windows.store ip
        { count := 1, expireTime := now + Second }) }))
    ∧ (∀ w, rl.windows ip = some w → now ≤ w.expireTime → w.count < rl.requestsPerSecond →
      rl.Allow ip now = (true, { rl with windows := (rl.windows.store ip
        { count := w.count + 1, expireTime := w.expireTime }) }))
    ∧ (∀ w, rl.windows ip = some w → now ≤ w.expireTime → ¬ w.count < rl.requestsPerSecond →
      rl.Allow ip now = (false, rl)) := by
  refine ⟨?_, ?_, ?_⟩
  · rintro (h | ⟨w, h, hgt⟩)
    · exact fixedwindow_allow_none rl ip now h
    · rw [fixedwindow_allow_some rl ip now w h, if_pos hgt]
  · intro w h hle hlt
    rw [fixedwindow_allow_some rl ip now w h, if_neg (not_lt.mpr hle), if_pos hlt]
  · intro w h hle hlt
    rw [fixedwindow_allow_some rl ip now w h, if_neg (not_lt.mpr hle), if_neg hlt]

/-- Witness for the amended C6: the second call of a window, limit 2. -/
theorem fixedwindow_allow_transition_witness :
    (((fixedwindow.NewRateLimiter 2).Allow "a" 0).2.Allow "a" 5).1 = true
    ∧ (((fixedwindow.NewRateLimiter 2).Allow "a" 0).2.Allow "a" 5).2.windows "a"
        = some { count := 2, expireTime := 1000000000 } := by
  have h := (fixedwindow_allow_transition ((fixedwindow.NewRateLimiter 2).Allow "a" 0).2
    "a" 5).2.1 { count := 1, expireTime := 1000000000 } (by decide) (by decide) (by decide)
  rw [h]
  exact ⟨rfl, by decide⟩

/-- Counting under a predicate that implies one of two others. -/
theorem countP_le_add_of_imp (p q r : Time → Bool) (l : List Time)
    (h : ∀ x ∈ l, p x = true → q x = true ∨ r x = true) :
    l.countP p ≤ l.countP q + l.countP r := by
  induction l with
  | nil => simp
  | cons x l ih =>
    have ih' := ih (fun y hy => h y (List.mem_cons_of_mem x hy))
    have hx := h x (List.mem_cons_self x l)
    simp only [List.countP_cons]
    cases hp : p x <;> cases hq : q x <;> cases hr : r x <;> simp_all <;> omega

/-- Counting a single admission. -/
theorem countP_singleton_le_one (p : Time → Bool) (x : Time) : List.countP p [x] ≤ 1 := by
  have := List.countP_le_length p (l := [x])
  simpa using this

/-- One second is not negative. -/
theorem second_nonneg : (0 : Int) ≤ Second := by decide

/-- Invariant step of the fixed-window bound, generalised over the limiter state.
`A` lists the admissions so far, the key has the window `(c, e)` opened at
`e - 1s`; at most `c` admissions lie in the current window, at most `L` in the
second before it, and none is later than `e`. -/
theorem fixedwindow_bound_aux (L : Int) (hL : 1 ≤ L) (ip : String) (times : List Time) :
    ∀ (rl : fixedwindow.RateLimiter) (A : List Time) (lo : Time) (c : Int) (e : Time),
      rl.requestsPerSecond = L → rl.windows ip = some { count := c, expireTime := e } →
      c ≤ L →
      ((A.countP (fun s => decide (e - Second ≤ s)) : Nat) : Int) ≤ c →
      ((A.countP (fun s => decide (e - Second - Second ≤ s ∧ s < e - Second)) : Nat) : Int)
        ≤ L →
      (∀ s ∈ A, s ≤ e) → e - Second ≤ lo →
      (∀ t, ((A.countP (fun s => decide (t ≤ s ∧ s ≤ t + Second)) : Nat) : Int) ≤ 2 * L) →
      times.Pairwise (· ≤ ·) → (∀ x ∈ times, lo ≤ x) →
      ∀ t, (((A ++ fixedwindow.admitted rl ip times).countP
        (fun s => decide (t ≤ s ∧ s ≤ t + Second)) : Nat) : Int) ≤ 2 * L := by
  have hS := second_nonneg
  induction times with
  | nil =>
    intro rl A lo c e _ _ _ _ _ _ _ hb _ _ t
    simpa [fixedwindow.admitted] using hb t
  | cons now rest ih =>
    intro rl A lo c e hrps hwin hcL ha hd he hf hb hsorted hlo t
    have hnow : lo ≤ now := hlo now (List.mem_cons_self _ _)
    have hrest : rest.Pairwise (· ≤ ·) := (List.pairwise_cons.mp hsorted).2
    have hge : ∀ x ∈ rest, now ≤ x := (List.pairwise_cons.mp hsorted).1
    unfold fixedwindow.admitted
    rw [fixedwindow_allow_some rl ip now _ hwin]
    by_cases hexp : now > e
    · -- a new window opens at `now`
      simp only [hexp, if_true]
      rw [List.append_cons]
      refine ih { requestsPerSecond := rl.requestsPerSecond,
                  windows := (rl.windows.store ip { count := 1, expireTime := now + Second }) }
        (A ++ [now]) now 1 (now + Second) hrps ?_ hL ?_ ?_ ?_ (by linarith) ?_ hrest hge t
      · simp [GoMap.store]
      · rw [List.countP_append]
        have h0 : A.countP (fun s => decide (now + Second - Second ≤ s)) = 0 := by
          rw [List.countP_eq_zero]
          intro s hs
          have := he s hs
          simp only [decide_eq_true_eq, not_le]
          linarith
        have h1 : List.countP (fun s => decide (now + Second - Second ≤ s)) [now] ≤ 1 :=
          countP_singleton_le_one _ now
        rw [h0]
        omega
      · rw [List.countP_append]
        have h0 : List.countP
            (fun s => decide (now + Second - Second - Second ≤ s ∧ s < now + Second - Second))
            [now] = 0 := by
          rw [List.countP_eq_zero]
          intro s hs
          have : s = now := by simpa using hs
          subst this
          simp
        have h1 : A.countP
            (fun s => decide (now + Second - Second - Second ≤ s ∧ s < now + Second - Second))
            ≤ A.countP (fun s => decide (e - Second ≤ s)) := by
          apply List.countP_mono_left
          intro s _ hs
          have hs' : now + Second - Second - Second ≤ s ∧ s < now + Second - Second := by
            simpa using hs
          have : e - Second ≤ s := by linarith [hs'.1]
          simpa using this
        rw [h0]
        omega
      · intro s hs
        rcases List.mem_append.mp hs with h | h
        · have := he s h
          linarith
        · have : s = now := by simpa using h
          subst this
          linarith
      · intro t'
        rw [List.countP_append]
        by_cases hin : t' ≤ now ∧ now ≤ t' + Second
        · have h1 : A.countP (fun s => decide (t' ≤ s ∧ s ≤ t' + Second))
              ≤ A.countP (fun s => decide (e - Second ≤ s)) := by
            apply List.countP_mono_left
            intro s _ hs
            have hs' : t' ≤ s ∧ s ≤ t' + Second := by simpa using hs
            have : e - Second ≤ s := by linarith [hs'.1, hin.2]
            simpa using this
          have h2 : List.countP (fun s => decide (t' ≤ s ∧ s ≤ t' + Second)) [now] ≤ 1 :=
            countP_singleton_le_one _ now
          omega
        · have h2 : List.countP (fun s => decide (t' ≤ s ∧ s ≤ t' + Second)) [now] = 0 := by
            simp [List.countP_cons, hin]
          rw [h2]
          simpa using hb t'
    · simp only [hexp, if_false]
      have hle : now ≤ e := not_lt.mp hexp
      by_cases hcap : c < rl.requestsPerSecond
      · -- the call is counted in the current window
        simp only [hcap, if_true]
        rw [hrps] at hcap
        rw [List.append_cons]
        refine ih { requestsPerSecond := rl.requestsPerSecond,
                    windows := (rl.windows.store ip { count := c + 1, expireTime := e }) }
          (A ++ [now]) now (c + 1) e hrps ?_ (by omega) ?_ ?_ ?_ (by linarith) ?_ hrest hge t
        · simp [GoMap.store]
        · rw [List.countP_append]
          have h1 : List.countP (fun s => decide (e - Second ≤ s)) [now] ≤ 1 :=
            countP_singleton_le_one _ now
          omega
        · rw [List.countP_append]
          have h0 : List.countP
              (fun s => decide (e - Second - Second ≤ s ∧ s < e - Second)) [now] = 0 := by
            rw [List.countP_eq_zero]
            intro s hs
            have : s = now := by simpa using hs
            subst this
            simp only [decide_eq_true_eq, not_and, not_lt]
            intro _
            linarith
          rw [h0]
          simpa using hd
        · intro s hs
          rcases List.mem_append.mp hs with h | h
          · exact he s h
          · have : s = now := by simpa using h
            subst this
            exact hle
        · intro t'
          rw [List.countP_append]
          by_cases hin : t' ≤ now ∧ now ≤ t' + Second
          · have h1 : A.countP (fun s => decide (t' ≤ s ∧ s ≤ t' + Second))
                ≤ A.countP (fun s => decide (e - Second ≤ s))
                  + A.countP (fun s => decide (e - Second - Second ≤ s ∧ s < e - Second)) :=
              countP_le_add_of_imp _ _ _ A (by
                intro s _ hs
                have hs' : t' ≤ s ∧ s ≤ t' + Second := by simpa using hs
                by_cases hcur : e - Second ≤ s
                · left
                  simpa using hcur
                · right
                  have h3 : e - Second - Second ≤ s := by linarith [hs'.1, hin.2]
                  have h4 : s < e - Second := not_le.mp hcur
                  simpa using And.intro h3 h4)
            have h2 : List.countP (fun s => decide (t' ≤ s ∧ s ≤ t' + Second)) [now] ≤ 1 :=
            countP_singleton_le_one _ now
            omega
          · have h2 : List.countP (fun s => decide (t' ≤ s ∧ s ≤ t' + Second)) [now] = 0 := by
              simp [List.countP_cons, hin]
            rw [h2]
            simpa using hb t'
      · -- the call is denied and nothing changes
        simp only [hcap, if_false, Bool.false_eq_true]
        exact ih rl A now c e hrps hwin hcL ha hd he (by linarith) hb hrest hge t

/-- C7: fixed-window burst bound.  On a fresh limiter with limit `L >= 1`, for
calls of one key at non-decreasing times, the admitted calls with time in
`[t, t + 1s]` number at most `2 * L`, for every `t`. -/
theorem fixedwindow_burst_bound (L : Int) (ip : String) (times : List Time) (t : Time)
    (hL : 1 ≤ L) (hmono : times.Pairwise (· ≤ ·)) :
    (((fixedwindow.admitted (fixedwindow.NewRateLimiter L) ip times).countP
      (fun s => decide (t ≤ s ∧ s ≤ t + Second)) : Nat) : Int) ≤ 2 * L := by
  have hS := second_nonneg
  cases times with
  | nil =>
    simp only [fixedwindow.admitted, List.countP_nil, Nat.cast_zero]
    omega
  | cons now rest =>
    have hrest : rest.Pairwise (· ≤ ·) := (List.pairwise_cons.mp hmono).2
    have hge : ∀ x ∈ rest, now ≤ x := (List.pairwise_cons.mp hmono).1
    unfold fixedwindow.admitted
    rw [fixedwindow_allow_none (fixedwindow.NewRateLimiter L) ip now rfl]
    simp only [if_true]
    have hcons : ∀ l : List Time, now :: l = [now] ++ l := fun _ => rfl
    rw [hcons]
    have hone : ∀ p : Time → Bool, ((List.countP p [now] : Nat) : Int) ≤ 1 := by
      intro p
      exact_mod_cast countP_singleton_le_one p now
    refine fixedwindow_bound_aux L hL ip rest
      { requestsPerSecond := L,
        windows := ((fixedwindow.NewRateLimiter L).windows.store ip
          { count := 1, expireTime := now + Second }) }
      [now] now 1 (now + Second) rfl ?_ hL (hone _) ?_ ?_ (by linarith) ?_ hrest hge t
    · simp [GoMap.store]
    · exact le_trans (hone _) hL
    · intro s hs
      have : s = now := by simpa using hs
      subst this
      linarith
    · intro t'
      exact le_trans (hone _) (by omega)

/-- Witness for C7: limit 2, calls at 0s, 0.9s (twice), 1.1s (three times) and
the window starting at 0.5s: the three admitted calls at 0.9s and 1.1s lie in it. -/
theorem fixedwindow_burst_bound_witness :
    (1 : Int) ≤ 2
      ∧ ([0, 900000000, 900000000, 1100000000, 1100000000, 1100000000] : List Time).Pairwise
          (· ≤ ·)
      ∧ (((fixedwindow.admitted (fixedwindow.NewRateLimiter 2) "a"
          [0, 900000000, 900000000, 1100000000, 1100000000, 1100000000]).countP
        (fun s => decide ((500000000 : Time) ≤ s ∧ s ≤ 500000000 + Second)) : Nat) : Int)
          ≤ 2 * 2 :=
  ⟨by decide, by decide,
    fixedwindow_burst_bound 2 "a" [0, 900000000, 900000000, 1100000000, 1100000000, 1100000000]
      500000000 (by decide) (by decide)⟩

/-- Two runs of a keyed limiter whose states are related by `R` give the same
decisions for `key`, when calls for `key` respect `R` with equal decisions and
calls for other keys respect `R`. -/
theorem keyedDecisions_congr {S A : Type} (step : S → String → A → Bool × S)
    (R : S → S → Prop) (key : String)
    (hkey : ∀ s1 s2 a, R s1 s2 →
      (step s1 key a).1 = (step s2 key a).1 ∧ R (step s1 key a).2 (step s2 key a).2)
    (hother : ∀ s1 s2 k a, k ≠ key → R s1 s2 → R (step s1 k a).2 (step s2 k a).2)
    (calls : List (String × A)) :
    ∀ s1 s2, R s1 s2 → keyedDecisions step s1 key calls = keyedDecisions step s2 key calls := by
  induction calls with
  | nil => intro s1 s2 _; rfl
  | cons c rest ih =>
    intro s1 s2 hR
    unfold keyedDecisions
    by_cases hk : c.1 = key
    · simp only [hk, if_true]
      obtain ⟨h1, h2⟩ := hkey s1 s2 c.2 hR
      rw [h1, ih _ _ h2]
    · simp only [hk, if_false]
      exact ih _ _ (hother s1 s2 c.1 c.2 hk hR)

/-- Frame of fixedwindow Allow: the limit is kept and other keys are untouched. -/
theorem fixedwindow_frame (rl : fixedwindow.RateLimiter) (k key : String) (now : Time) :
    (rl.Allow k now).2.requestsPerSecond = rl.requestsPerSecond
      ∧ (k ≠ key → (rl.Allow k now).2.windows key = rl.windows key) := by
  unfold fixedwindow.RateLimiter.Allow
  constructor
  · split <;> (try split_ifs) <;> rfl
  · intro h
    split <;> (try split_ifs) <;> simp [GoMap.store, Ne.symm h]

/-- Allow of fixedwindow for a key reads only the limit and the window of the key. -/
theorem fixedwindow_local (s1 s2 : fixedwindow.RateLimiter) (key : String) (now : Time)
    (hc : s1.requestsPerSecond = s2.requestsPerSecond) (hw : s1.windows key = s2.windows key) :
    (s1.Allow key now).1 = (s2.Allow key now).1
      ∧ (s1.Allow key now).2.windows key = (s2.Allow key now).2.windows key := by
  unfold fixedwindow.RateLimiter.Allow
  rw [← hw, ← hc]
  split
  · split_ifs <;> simp [GoMap.store, hw]
  · simp [GoMap.store]

/-- Frame of slidinglog Allow: rate and window are kept, other keys are untouched. -/
theorem slidinglog_frame (rl : slidinglog.RateLimiter) (k key : String) (now : Time) :
    (rl.Allow k now).2.rate = rl.rate ∧ (rl.Allow k now).2.window = rl.window
      ∧ (k ≠ key → (rl.Allow k now).2.logs key = rl.logs key) := by
  unfold slidinglog.RateLimiter.Allow
  refine ⟨?_, ?_, ?_⟩
  · simp only []
    split_ifs <;> rfl
  · simp only []
    split_ifs <;> rfl
  · intro h
    simp only []
    split_ifs <;> simp [GoMap.store, Ne.symm h]

/-- Allow of slidinglog for a key reads only rate, window and the log of the key. -/
theorem slidinglog_local (s1 s2 : slidinglog.RateLimiter) (key : String) (now : Time)
    (hr : s1.rate = s2.rate) (hw : s1.window = s2.window) (hl : s1.logs key = s2.logs key) :
    (s1.Allow key now).1 = (s2.Allow key now).1
      ∧ (s1.Allow key now).2.logs key = (s2.Allow key now).2.logs key := by
  unfold slidinglog.RateLimiter.Allow
  rw [← hl, ← hr, ← hw]
  simp only []
  split_ifs <;> simp [GoMap.store]

/-- Frame of slidingwindow Allow: limit and window are kept, other keys are untouched. -/
theorem slidingwindow_frame (rl : slidingwindow.RateLimiter) (k key : String) (now : Time) :
    (rl.Allow k now).2.limit = rl.limit ∧ (rl.Allow k now).2.window = rl.window
      ∧ (k ≠ key → (rl.Allow k now).2.requestsMap key = rl.requestsMap key) := by
  unfold slidingwindow.RateLimiter.Allow
  refine ⟨?_, ?_, ?_⟩
  · simp only []
    split_ifs <;> rfl
  · simp only []
    split_ifs <;> rfl
  · intro h
    simp only []
    split_ifs <;> simp [GoMap.store, Ne.symm h]

/-- Allow of slidingwindow for a key reads only limit, window and the log of the key. -/
theorem slidingwindow_local (s1 s2 : slidingwindow.RateLimiter) (key : String) (now : Time)
    (hr : s1.limit = s2.limit) (hw : s1.window = s2.window)
    (hl : s1.requestsMap key = s2.requestsMap key) :
    (s1.Allow key now).1 = (s2.Allow key now).1
      ∧ (s1.Allow key now).2.requestsMap key = (s2.Allow key now).2.requestsMap key := by
  unfold slidingwindow.RateLimiter.Allow
  rw [← hl, ← hr, ← hw]
  simp only []
  split_ifs <;> simp [GoMap.store]

/-- Frame of leakybucket AllowRequest: other keys are untouched. -/
theorem leakybucket_frame (rl : leakybucket.IPRateLimiter) (k key : String)
    (created now : Time) (h : k ≠ key) :
    (rl.AllowRequest k created now).2.buckets key = rl.buckets key := by
  unfold leakybucket.IPRateLimiter.AllowRequest
  simp [GoMap.store, Ne.symm h]

/-- AllowRequest of leakybucket for a key reads only the bucket of the key. -/
theorem leakybucket_local (s1 s2 : leakybucket.IPRateLimiter) (key : String)
    (created now : Time) (hb : s1.buckets key = s2.buckets key) :
    (s1.AllowRequest key created now).1 = (s2.AllowRequest key created now).1
      ∧ (s1.AllowRequest key created now).2.buckets key
        = (s2.AllowRequest key created now).2.buckets key := by
  unfold leakybucket.IPRateLimiter.AllowRequest
  rw [← hb]
  simp [GoMap.store]

/-- Frame of tokenbucket Allow: rate and capacity are kept, other keys are untouched. -/
theorem tokenbucket_frame (rl : tokenbucket.RateLimiter) (k key : String)
    (created since now : Time) :
    (rl.Allow k created since now).2.rate = rl.rate
      ∧ (rl.Allow k created since now).2.capacity = rl.capacity
      ∧ (k ≠ key → (rl.Allow k created since now).2.buckets key = rl.buckets key) := by
  unfold tokenbucket.RateLimiter.Allow
  refine ⟨rfl, rfl, ?_⟩
  intro h
  simp [GoMap.store, Ne.symm h]

/-- Allow of tokenbucket for a key reads only rate, capacity and the bucket of the key. -/
theorem tokenbucket_local (s1 s2 : tokenbucket.RateLimiter) (key : String)
    (created since now : Time) (hr : s1.rate = s2.rate) (hc : s1.capacity = s2.capacity)
    (hb : s1.buckets key = s2.buckets key) :
    (s1.Allow key created since now).1 = (s2.Allow key created since now).1
      ∧ (s1.Allow key created since now).2.buckets key
        = (s2.Allow key created since now).2.buckets key := by
  unfold tokenbucket.RateLimiter.Allow
  rw [← hb, ← hr, ← hc]
  simp [GoMap.store]

/-- Key independence of fixedwindow. -/
theorem fixedwindow_independent (a b : String) (hab : a ≠ b) (rl : fixedwindow.RateLimiter)
    (t : Time) :
    (rl.Allow a t).2.windows b = rl.windows b
      ∧ ∀ calls : List (String × Time),
        keyedDecisions (fun s k (x : Time) => fixedwindow.RateLimiter.Allow s k x)
            (rl.Allow a t).2 b calls
          = keyedDecisions (fun s k (x : Time) => fixedwindow.RateLimiter.Allow s k x)
            rl b calls := by
  refine ⟨(fixedwindow_frame rl a b t).2 hab, fun calls => ?_⟩
  apply keyedDecisions_congr _
    (fun s1 s2 => s1.requestsPerSecond = s2.requestsPerSecond ∧ s1.windows b = s2.windows b)
  · intro s1 s2 x hR
    have h := fixedwindow_local s1 s2 b x hR.1 hR.2
    exact ⟨h.1, by rw [(fixedwindow_frame s1 b b x).1, (fixedwindow_frame s2 b b x).1, hR.1],
      h.2⟩
  · intro s1 s2 k x hk hR
    have h1 := fixedwindow_frame s1 k b x
    have h2 := fixedwindow_frame s2 k b x
    exact ⟨by rw [h1.1, h2.1, hR.1], by rw [h1.2 hk, h2.2 hk, hR.2]⟩
  · exact ⟨(fixedwindow_frame rl a b t).1, (fixedwindow_frame rl a b t).2 hab⟩

/-- Key independence of slidinglog. -/
theorem slidinglog_independent (a b : String) (hab : a ≠ b) (rl : slidinglog.RateLimiter)
    (t : Time) :
    (rl.Allow a t).2.logs b = rl.logs b
      ∧ ∀ calls : List (String × Time),
        keyedDecisions (fun s k (x : Time) => slidinglog.RateLimiter.Allow s k x)
            (rl.Allow a t).2 b calls
          = keyedDecisions (fun s k (x : Time) => slidinglog.RateLimiter.Allow s k x)
            rl b calls := by
  refine ⟨(slidinglog_frame rl a b t).2.2 hab, fun calls => ?_⟩
  apply keyedDecisions_congr _
    (fun s1 s2 => s1.rate = s2.rate ∧ s1.window = s2.window ∧ s1.logs b = s2.logs b)
  · intro s1 s2 x hR
    have h := slidinglog_local s1 s2 b x hR.1 hR.2.1 hR.2.2
    have h1 := slidinglog_frame s1 b b x
    have h2 := slidinglog_frame s2 b b x
    exact ⟨h.1, by rw [h1.1, h2.1, hR.1], by rw [h1.2.1, h2.2.1, hR.2.1], h.2⟩
  · intro s1 s2 k x hk hR
    have h1 := slidinglog_frame s1 k b x
    have h2 := slidinglog_frame s2 k b x
    exact ⟨by rw [h1.1, h2.1, hR.1], by rw [h1.2.1, h2.2.1, hR.2.1],
      by rw [h1.2.2 hk, h2.2.2 hk, hR.2.2]⟩
  · have h := slidinglog_frame rl a b t
    exact ⟨h.1, h.2.1, h.2.2 hab⟩

/-- Key independence of slidingwindow. -/
theorem slidingwindow_independent (a b : String) (hab : a ≠ b)
    (rl : slidingwindow.RateLimiter) (t : Time) :
    (rl.Allow a t).2.requestsMap b = rl.requestsMap b
      ∧ ∀ calls : List (String × Time),
        keyedDecisions (fun s k (x : Time) => slidingwindow.RateLimiter.Allow s k x)
            (rl.Allow a t).2 b calls
          = keyedDecisions (fun s k (x : Time) => slidingwindow.RateLimiter.Allow s k x)
            rl b calls := by
  refine ⟨(slidingwindow_frame rl a b t).2.2 hab, fun calls => ?_⟩
  apply keyedDecisions_congr _
    (fun s1 s2 => s1.limit = s2.limit ∧ s1.window = s2.window
      ∧ s1.requestsMap b = s2.requestsMap b)
  · intro s1 s2 x hR
    have h := slidingwindow_local s1 s2 b x hR.1 hR.2.1 hR.2.2
    have h1 := slidingwindow_frame s1 b b x
    have h2 := slidingwindow_frame s2 b b x
    exact ⟨h.1, by rw [h1.1, h2.1, hR.1], by rw [h1.2.1, h2.2.1, hR.2.1], h.2⟩
  · intro s1 s2 k x hk hR
    have h1 := slidingwindow_frame s1 k b x
    have h2 := slidingwindow_frame s2 k b x
    exact ⟨by rw [h1.1, h2.1, hR.1], by rw [h1.2.1, h2.2.1, hR.2.1],
      by rw [h1.2.2 hk, h2.2.2 hk, hR.2.2]⟩
  · have h := slidingwindow_frame rl a b t
    exact ⟨h.1, h.2.1, h.2.2 hab⟩

/-- Key independence of leakybucket. -/
theorem leakybucket_independent (a b : String) (hab : a ≠ b) (rl : leakybucket.IPRateLimiter)
    (created now : Time) :
    (rl.AllowRequest a created now).2.buckets b = rl.buckets b
      ∧ ∀ calls : List (String × (Time × Time)),
        keyedDecisions
            (fun s k (x : Time × Time) => leakybucket.IPRateLimiter.AllowRequest s k x.1 x.2)
            (rl.AllowRequest a created now).2 b calls
          = keyedDecisions
            (fun s k (x : Time × Time) => leakybucket.IPRateLimiter.AllowRequest s k x.1 x.2)
            rl b calls := by
  refine ⟨leakybucket_frame rl a b created now hab, fun calls => ?_⟩
  apply keyedDecisions_congr _ (fun s1 s2 => s1.buckets b = s2.buckets b)
  · intro s1 s2 x hR
    exact leakybucket_local s1 s2 b x.1 x.2 hR
  · intro s1 s2 k x hk hR
    show (s1.AllowRequest k x.1 x.2).2.buckets b = (s2.AllowRequest k x.1 x.2).2.buckets b
    rw [leakybucket_frame s1 k b x.1 x.2 hk, leakybucket_frame s2 k b x.1 x.2 hk, hR]
  · exact leakybucket_frame rl a b created now hab

/-- Key independence of tokenbucket. -/
theorem tokenbucket_independent (a b : String) (hab : a ≠ b) (rl : tokenbucket.RateLimiter)
    (created since now : Time) :
    (rl.Allow a created since now).2.buckets b = rl.buckets b
      ∧ ∀ calls : List (String × (Time × Time × Time)),
        keyedDecisions
            (fun s k (x : Time × Time × Time) =>
              tokenbucket.RateLimiter.Allow s k x.1 x.2.1 x.2.2)
            (rl.Allow a created since now).2 b calls
          = keyedDecisions
            (fun s k (x : Time × Time × Time) =>
              tokenbucket.RateLimiter.Allow s k x.1 x.2.1 x.2.2)
            rl b calls := by
  refine ⟨(tokenbucket_frame rl a b created since now).2.2 hab, fun calls => ?_⟩
  apply keyedDecisions_congr _
    (fun s1 s2 => s1.rate = s2.rate ∧ s1.capacity = s2.capacity ∧ s1.buckets b = s2.buckets b)
  · intro s1 s2 x hR
    have h := tokenbucket_local s1 s2 b x.1 x.2.1 x.2.2 hR.1 hR.2.1 hR.2.2
    have h1 := tokenbucket_frame s1 b b x.1 x.2.1 x.2.2
    have h2 := tokenbucket_frame s2 b b x.1 x.2.1 x.2.2
    exact ⟨h.1, by rw [h1.1, h2.1, hR.1], by rw [h1.2.1, h2.2.1, hR.2.1], h.2⟩
  · intro s1 s2 k x hk hR
    have h1 := tokenbucket_frame s1 k b x.1 x.2.1 x.2.2
    have h2 := tokenbucket_frame s2 k b x.1 x.2.1 x.2.2
    exact ⟨by rw [h1.1, h2.1, hR.1], by rw [h1.2.1, h2.2.1, hR.2.1],
      by rw [h1.2.2 hk, h2.2.2 hk, hR.2.2]⟩
  · have h := tokenbucket_frame rl a b created since now
    exact ⟨h.1, h.2.1, h.2.2 hab⟩

/-- C8: key independence.  In each of the five keyed limiters a call for key `a`
leaves the stored state of every other key `b` as it was (absent stays absent),
and every later sequence of calls, for any keys and clock reads, gets the same
decisions for `b` whether or not the call for `a` was made. -/
theorem key_independence (a b : String) (hab : a ≠ b) :
    (∀ (rl : fixedwindow.RateLimiter) (t : Time),
      (rl.Allow a t).2.windows b = rl.windows b
        ∧ ∀ calls : List (String × Time),
          keyedDecisions (fun s k (x : Time) => fixedwindow.RateLimiter.Allow s k x)
              (rl.Allow a t).2 b calls
            = keyedDecisions (fun s k (x : Time) => fixedwindow.RateLimiter.Allow s k x)
              rl b calls)
    ∧ (∀ (rl : slidinglog.RateLimiter) (t : Time),
      (rl.Allow a t).2.logs b = rl.logs b
        ∧ ∀ calls : List (String × Time),
          keyedDecisions (fun s k (x : Time) => slidinglog.RateLimiter.Allow s k x)
              (rl.Allow a t).2 b calls
            = keyedDecisions (fun s k (x : Time) => slidinglog.RateLimiter.Allow s k x)
              rl b calls)
    ∧ (∀ (rl : slidingwindow.RateLimiter) (t : Time),
      (rl.Allow a t).2.requestsMap b = rl.requestsMap b
        ∧ ∀ calls : List (String × Time),
          keyedDecisions (fun s k (x : Time) => slidingwindow.RateLimiter.Allow s k x)
              (rl.Allow a t).2 b calls
            = keyedDecisions (fun s k (x : Time) => slidingwindow.RateLimiter.Allow s k x)
              rl b calls)
    ∧ (∀ (rl : leakybucket.IPRateLimiter) (created now : Time),
      (rl.AllowRequest a created now).2.buckets b = rl.buckets b
        ∧ ∀ calls : List (String × (Time × Time)),
          keyedDecisions
              (fun s k (x : Time × Time) => leakybucket.IPRateLimiter.AllowRequest s k x.1 x.2)
              (rl.AllowRequest a created now).2 b calls
            = keyedDecisions
              (fun s k (x : Time × Time) => leakybucket.IPRateLimiter.AllowRequest s k x.1 x.2)
              rl b calls)
    ∧ (∀ (rl : tokenbucket.RateLimiter) (created since now : Time),
      (rl.Allow a created since now).2.buckets b = rl.buckets b
        ∧ ∀ calls : List (String × (Time × Time × Time)),
          keyedDecisions
              (fun s k (x : Time × Time × Time) =>
                tokenbucket.RateLimiter.Allow s k x.1 x.2.1 x.2.2)
              (rl.Allow a created since now).2 b calls
            = keyedDecisions
              (fun s k (x : Time × Time × Time) =>
                tokenbucket.RateLimiter.Allow s k x.1 x.2.1 x.2.2)
              rl b calls) :=
  ⟨fixedwindow_independent a b hab, slidinglog_independent a b hab,
    slidingwindow_independent a b hab, leakybucket_independent a b hab,
    tokenbucket_independent a b hab⟩

/-- Witness for C8: keys "a" and "b" on a fresh fixedwindow limiter. -/
theorem key_independence_witness :
    "a" ≠ "b" ∧ ((fixedwindow.NewRateLimiter 1).Allow "a" 0).2.windows "b" = none :=
  ⟨by decide, ((key_independence "a" "b" (by decide)).1 (fixedwindow.NewRateLimiter 1) 0).1⟩

/-- C9 (defect of the source): NewIPRateLimiter drops its two parameters and
AllowRequest builds every bucket with the literals 5 and 1.  After
NewIPRateLimiter(10, 2) the bucket created for the unseen key "a" has Capacity 5
and FillRate 1; and after NewIPRateLimiter(1, 1) two requests at the same instant
are both admitted, although the configured capacity is 1. -/
theorem leakybucket_configured_parameters_dropped :
    (∃ b, ((leakybucket.NewIPRateLimiter 10 2).AllowRequest "a" 0 0).2.buckets "a" = some b
      ∧ b.Capacity = 5 ∧ b.FillRate = 1 ∧ b.Capacity ≠ 10 ∧ b.FillRate ≠ 2)
    ∧ ((leakybucket.NewIPRateLimiter 1 1).AllowRequest "a" 0 0).1 = true
    ∧ (((leakybucket.NewIPRateLimiter 1 1).AllowRequest "a" 0 0).2.AllowRequest "a" 0 0).1
        = true := by
  obtain ⟨f1, f2, f3, f4, f5, f6, f7⟩ := f64_small
  refine ⟨⟨{ Capacity := 5, FillRate := 1, Water := 1, lastChecked := 0 }, ?_, ?_⟩, ?_, ?_⟩
  · norm_num [leakybucket.NewIPRateLimiter, leakybucket.IPRateLimiter.AllowRequest,
      leakybucket.NewLeakyBucket, leakybucket.LeakyBucket.AddWater, durationSeconds_zero,
      f64_zero, f1, f2, GoMap.store, GoMap.make]
  · norm_num
  · norm_num [leakybucket.NewIPRateLimiter, leakybucket.IPRateLimiter.AllowRequest,
      leakybucket.NewLeakyBucket, leakybucket.LeakyBucket.AddWater, durationSeconds_zero,
      f64_zero, f1, f2, GoMap.store, GoMap.make]
  · norm_num [leakybucket.NewIPRateLimiter, leakybucket.IPRateLimiter.AllowRequest,
      leakybucket.NewLeakyBucket, leakybucket.LeakyBucket.AddWater, durationSeconds_zero,
      f64_zero, f1, f2, GoMap.store, GoMap.make]

/-- C10 as stated fails: fixedwindow.NewRateLimiter(0) signals no configuration
error; it hands back a limiter with limit 0, and that limiter admits a request. -/
theorem constructor_accepts_zero_limit :
    returned (fixedwindow.NewRateLimiter 0) ≠ Constructed.configError
    ∧ (fixedwindow.NewRateLimiter 0).requestsPerSecond = 0
    ∧ ((fixedwindow.NewRateLimiter 0).Allow "a" 0).1 = true := by
  refine ⟨?_, rfl, by decide⟩
  intro h
  cases h

/-- The first Allow on a new token bucket, both clock reads at its creation:
admitted exactly when the capacity is positive (capacity an int64). -/
theorem tokenbucket_first_allow (rate capacity : Int) (now : Time)
    (hmax : capacity ≤ 9223372036854775807) :
    ((tokenbucket.newTokenBucket rate capacity now).Allow now now).1 = decide (0 < capacity) := by
  have hre : ((tokenbucket.newTokenBucket rate capacity now).refillInternal now now).tokens
      = min (wrap64 capacity) capacity := by
    rw [tokenbucket_refill_eq]
    simp only [tokenbucket.newTokenBucket, sub_self, newTokens_zero, add_zero]
  rw [tokenbucket_allow_eq]
  by_cases hpos : 0 < capacity
  · have hw : wrap64 capacity = capacity := wrap64_of_range _ (by omega) hmax
    have : ((tokenbucket.newTokenBucket rate capacity now).refillInternal now now).tokens > 0 := by
      rw [hre, hw, min_self]
      exact hpos
    rw [if_pos this]
    simp [hpos]
  · have : ¬ ((tokenbucket.newTokenBucket rate capacity now).refillInternal now now).tokens > 0 := by
      rw [hre]
      have := min_le_right (wrap64 capacity) capacity
      omega
    rw [if_neg this]
    simp [hpos]

/-- C10, amended: no constructor validates its configuration.  For every
configuration, zero and negative values included, each constructor hands back a
limiter, never a configuration error, and the limiter is usable: it answers the
next request.  On the new limiter the first call, made at the instant of
creation, is admitted by fixedwindow and by NewIPRateLimiter whatever the
configuration; by slidinglog and slidingwindow exactly when the limit is
positive; by NewLeakyBucket (a unit AddWater) exactly when the capacity is at
least 1; and by the token bucket exactly when the capacity is positive. -/
theorem constructors_accept_every_configuration :
    (∀ (rps : Int) (ip : String) (now : Time),
      returned (fixedwindow.NewRateLimiter rps) ≠ Constructed.configError
        ∧ ((fixedwindow.NewRateLimiter rps).Allow ip now).1 = true)
    ∧ (∀ (rate : Int) (window : Duration) (ip : String) (now : Time),
      returned (slidinglog.NewRateLimiter rate window) ≠ Constructed.configError
        ∧ ((slidinglog.NewRateLimiter rate window).Allow ip now).1 = decide (0 < rate))
    ∧ (∀ (limit : Int) (window : Duration) (ip : String) (now : Time),
      returned (slidingwindow.NewRateLimiter limit window) ≠ Constructed.configError
        ∧ ((slidingwindow.NewRateLimiter limit window).Allow ip now).1 = decide (0 < limit))
    ∧ (∀ (capacity fillRate : ℚ) (now : Time),
      returned (leakybucket.NewLeakyBucket capacity fillRate now) ≠ Constructed.configError
        ∧ ((leakybucket.NewLeakyBucket capacity fillRate now).AddWater 1 now).1
            = decide (1 ≤ capacity))
    ∧ (∀ (capacity fillRate : ℚ) (ip : String) (now : Time),
      returned (leakybucket.NewIPRateLimiter capacity fillRate) ≠ Constructed.configError
        ∧ ((leakybucket.NewIPRateLimiter capacity fillRate).AllowRequest ip now now).1 = true)
    ∧ (∀ (rate capacity : Int) (ip : String) (now : Time),
      returned (tokenbucket.NewRateLimiter rate capacity) ≠ Constructed.configError
        ∧ (capacity ≤ 9223372036854775807 →
          ((tokenbucket.NewRateLimiter rate capacity).Allow ip now now now).1
            = decide (0 < capacity)))
    ∧ (∀ (rate capacity : Int) (now : Time),
      returned (tokenbucket.newTokenBucket rate capacity now) ≠ Constructed.configError
        ∧ (capacity ≤ 9223372036854775807 →
          ((tokenbucket.newTokenBucket rate capacity now).Allow now now).1
            = decide (0 < capacity))) := by
  have hne : ∀ {α : Type} (v : α), returned v ≠ Constructed.configError := by
    intro α v h
    cases h
  have hleak : ∀ (capacity fillRate : ℚ) (now : Time),
      (leakybucket.NewLeakyBucket capacity fillRate now).leaked now = 0 := by
    intro capacity fillRate now
    apply leakybucket_leaked_eq_zero
    simp [leakybucket.NewLeakyBucket, durationSeconds_zero, f64_zero]
  refine ⟨fun rps ip now => ⟨hne _, rfl⟩, fun rate window ip now => ⟨hne _, ?_⟩,
    fun limit window ip now => ⟨hne _, ?_⟩, fun capacity fillRate now => ⟨hne _, ?_⟩,
    fun capacity fillRate ip now => ⟨hne _, ?_⟩, fun rate capacity ip now => ⟨hne _, ?_⟩,
    fun rate capacity now => ⟨hne _, tokenbucket_first_allow rate capacity now⟩⟩
  · by_cases h : 0 < rate
    · have h2 : ¬ ((0 : Int) ≥ rate) := by omega
      simp [slidinglog.RateLimiter.Allow, slidinglog.NewRateLimiter, GoMap.make, compact,
        compactLoop, h, h2]
    · have h2 : (0 : Int) ≥ rate := by omega
      simp [slidinglog.RateLimiter.Allow, slidinglog.NewRateLimiter, GoMap.make, compact,
        compactLoop, h, h2]
  · by_cases h : 0 < limit
    · have h2 : ¬ ((0 : Int) ≥ limit) := by omega
      simp [slidingwindow.RateLimiter.Allow, slidingwindow.NewRateLimiter, GoMap.make, compact,
        compactLoop, h, h2]
    · have h2 : (0 : Int) ≥ limit := by omega
      simp [slidingwindow.RateLimiter.Allow, slidingwindow.NewRateLimiter, GoMap.make, compact,
        compactLoop, h, h2]
  · rw [leakybucket_addWater_eq, hleak, zero_add, f64_small.1]
    have hcap : (leakybucket.NewLeakyBucket capacity fillRate now).Capacity = capacity := rfl
    rw [hcap]
    by_cases h : 1 ≤ capacity
    · rw [if_neg (not_lt.mpr h)]
      simp [h]
    · rw [if_pos (not_le.mp h)]
      simp [h]
  · have h5 := hleak 5 1 now
    have hA : ((leakybucket.NewLeakyBucket 5 1 now).AddWater 1 now).1 = true := by
      rw [leakybucket_addWater_eq, h5, zero_add, f64_small.1,
        if_neg (by norm_num [leakybucket.NewLeakyBucket])]
    simpa [leakybucket.IPRateLimiter.AllowRequest, leakybucket.NewIPRateLimiter, GoMap.make]
      using hA
  · intro hmax
    have hA := tokenbucket_first_allow rate capacity now hmax
    simpa [tokenbucket.RateLimiter.Allow, tokenbucket.NewRateLimiter, GoMap.make] using hA

/-- Witness for the amended C10: the token-bucket limiter built with capacity 0
denies the first request, and the one built with capacity 1 admits it. -/
theorem constructors_accept_every_configuration_witness :
    (0 : Int) ≤ 9223372036854775807
      ∧ ((tokenbucket.NewRateLimiter 1 0).Allow "a" 0 0 0).1 = false
      ∧ ((tokenbucket.NewRateLimiter 1 1).Allow "a" 0 0 0).1 = true := by
  refine ⟨by decide, ?_, ?_⟩
  · rw [(constructors_accept_every_configuration.2.2.2.2.2.1 1 0 "a" 0).2 (by decide)]
    decide
  · rw [(constructors_accept_every_configuration.2.2.2.2.2.1 1 1 "a" 0).2 (by decide)]
    decide

/-- C12, counterexample: rate 100, capacity 100, tokens 0, lastRefill 0, and 29
calls at 0.29 s.  `floor (d * r)` is 29, so by the claim all 29 calls would be
admitted; the float64 product `0.29 * 100` is 28.999999999999996, the refill adds
28 tokens, and the 29th call is denied. -/
theorem tokenbucket_recovery_counterexample :
    ⌊seconds 290000000 * ((100 : Int) : ℚ)⌋ = 29
      ∧ min 29 (min (100 : Int) 29).toNat = 29
      ∧ tokenbucket.decisions { rate := 100, capacity := 100, tokens := 0, lastRefill := 0 }
          (List.replicate 29 ((0 : Time) + 290000000, (0 : Time) + 290000000))
        = List.replicate 28 true ++ [false] := by
  refine ⟨?_, by decide, ?_⟩
  · have e : seconds 290000000 * ((100 : Int) : ℚ) = ((29 : Int) : ℚ) := by
      norm_num [seconds]
    rw [e]
    exact Int.floor_intCast 29
  · have h := tokenbucket_recovery
      { rate := 100, capacity := 100, tokens := 0, lastRefill := 0 } 290000000 29
      (by decide) (by decide) rfl
    have e : tokenbucket.newTokens 290000000
        ({ rate := 100, capacity := 100, tokens := 0, lastRefill := 0 } :
          tokenbucket.TokenBucket).rate = 28 := newTokens_029_100
    rw [e] at h
    exact h

/-- C12, amended: token-bucket burst and recovery with the float64 refill, for
rate `1 <= r <= 2^28` and an int64 capacity `C >= 1`.  A bucket created at `t0`
admits the first `C` calls made at `t0` and denies the next one.  From a state
with tokens = 0, `k` calls made at lastRefill + `d` (`0 <= d < 2^63` ns) admit
exactly the first `min k (min C n)` and deny the rest, where
`n = int(d.Seconds() * float64(r))` is the float64 product truncated; `n` is at
least 0 and at most `d * r * (1 + 2^(-53))^3`, and `n = m * r` when `d` is a whole
number `m` of seconds with `m * r <= 2^53`.  So `d = 0` admits none, a wait of
a whole number `m` of seconds with `m * r = 1` admits exactly one, and a wait
with `d * r >= C` and `d * r > 1` admits the first call. -/
theorem tokenbucket_burst_and_recovery (r C : Int) (hr : 1 ≤ r) (hr2 : r ≤ 268435456)
    (hC : 1 ≤ C) (hC2 : C ≤ 9223372036854775807) :
    (∀ t0 : Time,
      tokenbucket.decisions (tokenbucket.newTokenBucket r C t0)
          (List.replicate (C.toNat + 1) (t0, t0))
        = List.replicate C.toNat true ++ [false])
    ∧ (∀ (tb : tokenbucket.TokenBucket) (d : Duration) (k : Nat),
      tb.rate = r → tb.capacity = C → tb.tokens = 0 → 0 ≤ d → d ≤ 9223372036854775807 →
      (tokenbucket.decisions tb (List.replicate k (tb.lastRefill + d, tb.lastRefill + d))
          = List.replicate (min k (min C (tokenbucket.newTokens d r)).toNat) true
            ++ List.replicate (k - min k (min C (tokenbucket.newTokens d r)).toNat) false)
        ∧ 0 ≤ tokenbucket.newTokens d r
        ∧ (tokenbucket.newTokens d r : ℚ)
            ≤ seconds d * (r : ℚ) * (1 + 1 / 9007199254740992) ^ 3
        ∧ (∀ m : Int, d = m * 1000000000 → m * r ≤ 9007199254740992 →
            tokenbucket.newTokens d r = m * r)
        ∧ (d = 0 →
          tokenbucket.decisions tb (List.replicate k (tb.lastRefill + d, tb.lastRefill + d))
            = List.replicate k false)
        ∧ (∀ m : Int, d = m * 1000000000 → m * r = 1 → 1 ≤ k →
          tokenbucket.decisions tb (List.replicate k (tb.lastRefill + d, tb.lastRefill + d))
            = true :: List.replicate (k - 1) false)
        ∧ ((C : ℚ) ≤ seconds d * (r : ℚ) → 1 < seconds d * (r : ℚ) → 1 ≤ k →
          (tokenbucket.decisions tb
            (List.replicate k (tb.lastRefill + d, tb.lastRefill + d))).head? = some true)) := by
  constructor
  · intro t0
    have h := tokenbucket_burst (C.toNat + 1) (tokenbucket.newTokenBucket r C t0)
      (by show -9223372036854775808 ≤ C; omega) (le_refl _) (by show C ≤ _; omega)
    have e1 : min (C.toNat + 1) C.toNat = C.toNat := by omega
    have e2 : C.toNat + 1 - C.toNat = 1 := by omega
    simp only [tokenbucket.newTokenBucket] at h ⊢
    rw [h, e1, e2]
    rfl
  · intro tb d k hrate hcap ht hd hd2
    have hmain := tokenbucket_recovery tb d k (by omega) (by omega) ht
    rw [hrate, hcap] at hmain
    obtain ⟨n0, _, n2⟩ := newTokens_bounds d r hd hd2 (by omega) hr2
    have hwhole : ∀ m : Int, d = m * 1000000000 → m * r ≤ 9007199254740992 →
        tokenbucket.newTokens d r = m * r := by
      intro m hm hmr
      have hm0 : 0 ≤ m := by
        rw [hm] at hd
        linarith
      have hmle : m ≤ m * r := by
        have := Int.mul_le_mul_of_nonneg_left hr hm0
        rwa [mul_one] at this
      rw [hm]
      exact newTokens_whole m r hm0 (by omega) (by omega) (by omega) hmr
    refine ⟨hmain, n0, n2, hwhole, ?_, ?_, ?_⟩
    · intro hd0
      have hf : tokenbucket.newTokens d r = 0 := by
        rw [hd0]
        exact newTokens_zero r
      rw [hmain, hf]
      have : (min C 0).toNat = 0 := by omega
      rw [this]
      simp
    · intro m hm h1 hk
      have hf : tokenbucket.newTokens d r = 1 := by
        rw [hwhole m hm (by omega), h1]
      rw [hmain, hf]
      have e1 : min k (min C 1).toNat = 1 := by omega
      rw [e1]
      rfl
    · intro hge hgt hk
      have hf : 1 ≤ tokenbucket.newTokens d r :=
        newTokens_pos d r hd hd2 (by omega) hr2 hgt
      rw [hmain]
      have e1 : min k (min C (tokenbucket.newTokens d r)).toNat
          = (min k (min C (tokenbucket.newTokens d r)).toNat - 1) + 1 := by omega
      rw [e1, List.replicate_succ]
      rfl

/-- Witness for C12: rate 1, capacity 5; five immediate calls are admitted and the
sixth is denied. -/
theorem tokenbucket_burst_and_recovery_witness :
    (1 : Int) ≤ 1 ∧ (1 : Int) ≤ 268435456 ∧ (1 : Int) ≤ 5 ∧ (5 : Int) ≤ 9223372036854775807
      ∧ tokenbucket.decisions (tokenbucket.newTokenBucket 1 5 0) (List.replicate 6 (0, 0))
        = [true, true, true, true, true, false] :=
  ⟨by decide, by decide, by decide, by decide,
    (tokenbucket_burst_and_recovery 1 5 (by decide) (by decide) (by decide) (by decide)).1 0⟩

/-- Allow of slidingwindow, with the loop replaced by the filter it computes. -/
theorem slidingwindow_allow_eq (rl : slidingwindow.RateLimiter) (ip : String) (now : Time) :
    rl.Allow ip now
      = if ((((rl.requestsMap ip).getD []).filter
            (fun ts => decide (now - ts ≤ rl.window))).length : Int) ≥ rl.limit
        then (false, { rl with requestsMap := (rl.requestsMap.store ip
          (((rl.requestsMap ip).getD []).filter (fun ts => decide (now - ts ≤ rl.window)))) })
        else (true, { rl with requestsMap := (rl.requestsMap.store ip
          (((rl.requestsMap ip).getD []).filter (fun ts => decide (now - ts ≤ rl.window))
            ++ [now])) }) := by
  have hlog : (match rl.requestsMap ip with
      | some l => l
      | none => ([] : List Time)) = (rl.requestsMap ip).getD [] := by
    cases rl.requestsMap ip <;> rfl
  unfold slidingwindow.RateLimiter.Allow
  simp only [compact_eq_filter, hlog]

/-- Calls of slidingwindow at one instant `t0`, window not negative: while the log
of the key holds fewer than `limit` copies of `t0`, every call is admitted and
appends `t0`. -/
theorem slidingwindow_fill (L : Int) (W : Duration) (hW : 0 ≤ W) (ip : String) (t0 : Time)
    (rest : List Time) (n : Nat) :
    ∀ (j : Nat) (rl : slidingwindow.RateLimiter), rl.limit = L → rl.window = W →
      (rl.requestsMap ip).getD [] = List.replicate j t0 → ((j + n : Nat) : Int) ≤ L →
      ∃ rl' : slidingwindow.RateLimiter, rl'.limit = L ∧ rl'.window = W
        ∧ (rl'.requestsMap ip).getD [] = List.replicate (j + n) t0
        ∧ slidingwindow.decisions rl ip (List.replicate n t0 ++ rest)
          = List.replicate n true ++ slidingwindow.decisions rl' ip rest := by
  induction n with
  | zero =>
    intro j rl hl hw hlog _
    exact ⟨rl, hl, hw, hlog, rfl⟩
  | succ n ih =>
    intro j rl hl hw hlog hj
    have hkeep : (List.replicate j t0).filter (fun ts => decide (t0 - ts ≤ W))
        = List.replicate j t0 := by
      rw [List.filter_eq_self]
      intro a ha
      have : a = t0 := List.eq_of_mem_replicate ha
      subst this
      simpa using hW
    have hnot : ¬ (((List.replicate j t0).length : Int) ≥ L) := by
      rw [List.length_replicate]
      omega
    have hA : rl.Allow ip t0
        = (true, { rl with requestsMap := (rl.requestsMap.store ip
            (List.replicate j t0 ++ [t0])) }) := by
      rw [slidingwindow_allow_eq, hlog, hw, hl, hkeep, if_neg hnot]
    obtain ⟨rl', h1, h2, h3, h4⟩ := ih (j + 1)
      { rl with requestsMap := (rl.requestsMap.store ip (List.replicate j t0 ++ [t0])) }
      hl hw (by simp [GoMap.store, List.replicate_succ']) (by omega)
    refine ⟨rl', h1, h2, ?_, ?_⟩
    · rw [h3]
      congr 1
      omega
    · rw [List.replicate_succ, List.cons_append, slidingwindow.decisions, hA]
      simp only []
      rw [h4]
      rfl

/-- C13 as stated fails at `t = t0 + W`: with limit 1 and window 1s, the call at
0s is admitted, a further call at 0s is denied, and the call at exactly 1s is
denied as well, because the timestamp 0s with `now - ts <= window` is kept. -/
theorem slidingwindow_boundary_counterexample :
    (1 : Int) ≥ 1 ∧ (0 : Duration) < 1000000000
      ∧ (1000000000 : Time) ≥ 0 + 1000000000
      ∧ slidingwindow.decisions (slidingwindow.NewRateLimiter 1 1000000000) "a"
          [0, 0, 1000000000] = [true, false, false] := by
  decide

/-- C13, amended: for a slidingwindow limiter with limit `L >= 1` and window
`W >= 0` on a fresh key, `L` calls at `t0` are all admitted, a further call at
`t0` is denied, and the following call at a time strictly later than `t0 + W`
is admitted. -/
theorem slidingwindow_expires_after_window (L : Int) (W : Duration) (ip : String)
    (t0 t : Time) (hL : 1 ≤ L) (hW : 0 ≤ W) (ht : t0 + W < t) :
    slidingwindow.decisions (slidingwindow.NewRateLimiter L W) ip
        (List.replicate L.toNat t0 ++ [t0, t])
      = List.replicate L.toNat true ++ [false, true] := by
  obtain ⟨rl, h1, h2, h3, h4⟩ := slidingwindow_fill L W hW ip t0 [t0, t] L.toNat 0
    (slidingwindow.NewRateLimiter L W) rfl rfl rfl (by omega)
  rw [h4]
  congr 1
  rw [zero_add] at h3
  have hkeep : (List.replicate L.toNat t0).filter (fun ts => decide (t0 - ts ≤ W))
      = List.replicate L.toNat t0 := by
    rw [List.filter_eq_self]
    intro a ha
    have : a = t0 := List.eq_of_mem_replicate ha
    subst this
    simpa using hW
  have hfull : ((List.replicate L.toNat t0).length : Int) ≥ L := by
    rw [List.length_replicate]
    omega
  have hA : rl.Allow ip t0
      = (false, { rl with requestsMap := (rl.requestsMap.store ip
          (List.replicate L.toNat t0)) }) := by
    rw [slidingwindow_allow_eq, h3, h2, h1, hkeep, if_pos hfull]
  have hdrop : (List.replicate L.toNat t0).filter (fun ts => decide (t - ts ≤ W)) = [] := by
    rw [List.filter_eq_nil_iff]
    intro a ha
    have : a = t0 := List.eq_of_mem_replicate ha
    subst this
    simp only [decide_eq_true_eq, not_le]
    linarith
  have hB : (({ rl with requestsMap := (rl.requestsMap.store ip
        (List.replicate L.toNat t0)) } : slidingwindow.RateLimiter).Allow ip t).1 = true := by
    rw [slidingwindow_allow_eq]
    simp only [GoMap.store, if_true, Option.getD_some, h2, h1, hdrop, List.length_nil,
      List.nil_append]
    have : ¬ (((0 : Nat) : Int) ≥ L) := by omega
    rw [if_neg this]
  simp only [slidingwindow.decisions, hA, hB]

/-- Witness for the amended C13: limit 2, window 1s, calls at 0s, 0s, 0s and one
nanosecond after 1s. -/
theorem slidingwindow_expires_after_window_witness :
    (1 : Int) ≤ 2 ∧ (0 : Duration) ≤ 1000000000 ∧ (0 : Time) + 1000000000 < 1000000001
      ∧ slidingwindow.decisions (slidingwindow.NewRateLimiter 2 1000000000) "a"
          [0, 0, 0, 1000000001] = [true, true, false, true] :=
  ⟨by decide, by decide, by decide,
    slidingwindow_expires_after_window 2 1000000000 "a" 0 1000000001
      (by decide) (by decide) (by decide)⟩

/-- Calls of fixedwindow inside the current window `(c, e)` of the key, `c <= L`:
the first `L - c` are admitted, the rest denied, and the window is kept. -/
theorem fixedwindow_within_window (L : Int) (ip : String) (e : Time) (tail : List Time)
    (times : List Time) :
    ∀ (c : Int) (rl : fixedwindow.RateLimiter), rl.requestsPerSecond = L →
      rl.windows ip = some { count := c, expireTime := e } → c ≤ L →
      (∀ x ∈ times, x ≤ e) →
      ∃ (rl' : fixedwindow.RateLimiter) (c' : Int), rl'.requestsPerSecond = L
        ∧ rl'.windows ip = some { count := c', expireTime := e }
        ∧ fixedwindow.decisions rl ip (times ++ tail)
          = List.replicate (min (L - c).toNat times.length) true
            ++ List.replicate (times.length - min (L - c).toNat times.length) false
            ++ fixedwindow.decisions rl' ip tail := by
  induction times with
  | nil =>
    intro c rl hl hw _ _
    exact ⟨rl, c, hl, hw, by simp⟩
  | cons x times ih =>
    intro c rl hl hw hc hx
    have hxe : ¬ (x > e) := not_lt.mpr (hx x (List.mem_cons_self _ _))
    have hrest : ∀ y ∈ times, y ≤ e := fun y hy => hx y (List.mem_cons_of_mem _ hy)
    rw [List.cons_append, fixedwindow.decisions, fixedwindow_allow_some rl ip x _ hw]
    simp only [hxe, if_false]
    by_cases hlt : c < rl.requestsPerSecond
    · simp only [hlt, if_true]
      rw [hl] at hlt
      obtain ⟨rl', c', h1, h2, h3⟩ := ih (c + 1)
        { requestsPerSecond := rl.requestsPerSecond,
          windows := (rl.windows.store ip { count := c + 1, expireTime := e }) }
        hl (by simp [GoMap.store]) (by omega) hrest
      refine ⟨rl', c', h1, h2, ?_⟩
      rw [h3]
      have e1 : min (L - c).toNat (times.length + 1)
          = min (L - (c + 1)).toNat times.length + 1 := by omega
      have e2 : times.length + 1 - min (L - c).toNat (times.length + 1)
          = times.length - min (L - (c + 1)).toNat times.length := by omega
      rw [List.length_cons, e2, e1, List.replicate_succ]
      rfl
    · simp only [hlt, if_false]
      rw [hl] at hlt
      obtain ⟨rl', c', h1, h2, h3⟩ := ih c rl hl hw hc hrest
      refine ⟨rl', c', h1, h2, ?_⟩
      rw [h3]
      have e0 : (L - c).toNat = 0 := by omega
      rw [List.length_cons, e0]
      simp [List.replicate_succ]

/-- C14: fixed window, limit `L >= 1`, fresh key with first call at `t0`.  Among
the first call and any further calls at times up to `t0 + 1s` (in particular at
non-decreasing times in `[t0, t0 + 1s]`) the first `L` are admitted and every
later one is denied; the next call, at a time strictly later than `t0 + 1s`, is
admitted. -/
theorem fixedwindow_first_L_admitted (L : Int) (ip : String) (t0 t : Time) (rest : List Time)
    (hL : 1 ≤ L) (hrest : ∀ x ∈ rest, x ≤ t0 + Second) (ht : t0 + Second < t) :
    fixedwindow.decisions (fixedwindow.NewRateLimiter L) ip (t0 :: rest ++ [t])
      = List.replicate (min L.toNat (rest.length + 1)) true
        ++ List.replicate (rest.length + 1 - min L.toNat (rest.length + 1)) false
        ++ [true] := by
  rw [List.cons_append, fixedwindow.decisions,
    fixedwindow_allow_none (fixedwindow.NewRateLimiter L) ip t0 rfl]
  simp only []
  obtain ⟨rl', c', h1, h2, h3⟩ := fixedwindow_within_window L ip (t0 + Second) [t] rest 1
    { requestsPerSecond := L,
      windows := ((fixedwindow.NewRateLimiter L).windows.store ip
        { count := 1, expireTime := t0 + Second }) }
    rfl (by simp [GoMap.store]) hL hrest
  have hlast : fixedwindow.decisions rl' ip [t] = [true] := by
    rw [fixedwindow.decisions, fixedwindow_allow_some rl' ip t _ h2]
    have : t > t0 + Second := ht
    simp only [this, if_true]
    rfl
  refine (congrArg (List.cons true) h3).trans ?_
  rw [hlast]
  have e1 : min L.toNat (rest.length + 1) = min (L - 1).toNat rest.length + 1 := by omega
  have e2 : rest.length + 1 - min L.toNat (rest.length + 1)
      = rest.length - min (L - 1).toNat rest.length := by omega
  rw [e2, e1, List.replicate_succ]
  rfl

/-- Witness for C14: limit 2, calls at 0s, 0.5s, 1s and one nanosecond after 1s. -/
theorem fixedwindow_first_L_admitted_witness :
    (1 : Int) ≤ 2 ∧ (∀ x ∈ ([500000000, 1000000000] : List Time), x ≤ 0 + Second)
      ∧ (0 : Time) + Second < 1000000001
      ∧ fixedwindow.decisions (fixedwindow.NewRateLimiter 2) "a"
          [0, 500000000, 1000000000, 1000000001] = [true, true, false, true] :=
  ⟨by decide, by decide, by decide,
    fixedwindow_first_L_admitted 2 "a" 0 1000000001 [500000000, 1000000000]
      (by decide) (by decide) (by decide)⟩

/-- One prune-then-append step on a stored log keeps the log invariant: with a
keep test that implies `now - W <= ts`, a window `W >= 0`, and an old log of at
most `L` non-decreasing times not later than `now`, the new log has at most `L`
entries, is non-decreasing and lies within `[now - W, now]`. -/
theorem log_step_inv (L : Int) (W : Duration) (hW : 0 ≤ W) (keep : Time → Bool) (now : Time)
    (old : List Time) (hkeep : ∀ ts, keep ts = true → now - W ≤ ts)
    (hlen : (old.length : Int) ≤ L) (hsorted : old.Pairwise (· ≤ ·))
    (hle : ∀ ts ∈ old, ts ≤ now) :
    (((if ((old.filter keep).length : Int) ≥ L then old.filter keep
        else old.filter keep ++ [now]).length : Nat) : Int) ≤ L
      ∧ (if ((old.filter keep).length : Int) ≥ L then old.filter keep
        else old.filter keep ++ [now]).Pairwise (· ≤ ·)
      ∧ ∀ ts ∈ (if ((old.filter keep).length : Int) ≥ L then old.filter keep
        else old.filter keep ++ [now]), now - W ≤ ts ∧ ts ≤ now := by
  have hfl : (old.filter keep).length ≤ old.length := List.length_filter_le _ _
  have hfs : (old.filter keep).Pairwise (· ≤ ·) := hsorted.filter _
  have hfw : ∀ ts ∈ old.filter keep, now - W ≤ ts ∧ ts ≤ now := by
    intro ts hts
    have := List.mem_filter.mp hts
    exact ⟨hkeep ts this.2, hle ts this.1⟩
  by_cases hfull : ((old.filter keep).length : Int) ≥ L
  · simp only [hfull, if_true]
    exact ⟨by omega, hfs, hfw⟩
  · simp only [hfull, if_false]
    refine ⟨?_, ?_, ?_⟩
    · rw [List.length_append, List.length_singleton]
      omega
    · rw [List.pairwise_append]
      refine ⟨hfs, List.pairwise_singleton _ _, ?_⟩
      intro a ha b hb
      have : b = now := by simpa using hb
      subst this
      exact (hfw a ha).2
    · intro ts hts
      rcases List.mem_append.mp hts with h | h
      · exact hfw ts h
      · have : ts = now := by simpa using h
        subst this
        constructor
        · linarith
        · exact le_refl _

/-- One slidinglog call keeps the invariant of all logs and leaves the log of the
called key within `[now - W, now]`. -/
theorem slidinglog_step_inv (L : Int) (W : Duration) (hW : 0 ≤ W)
    (rl : slidinglog.RateLimiter) (ip : String) (lo now : Time)
    (hrate : rl.rate = L) (hwin : rl.window = W) (hlo : lo ≤ now)
    (hinv : logsBounded rl.logs L lo) :
    logsBounded (rl.Allow ip now).2.logs L now
      ∧ ∀ ts ∈ ((rl.Allow ip now).2.logs ip).getD [], now - W ≤ ts ∧ ts ≤ now := by
  obtain ⟨h1, h2, h3⟩ := hinv ip
  have hstep := log_step_inv L W hW (fun ts => !decide (ts ≤ now - W)) now
    ((rl.logs ip).getD [])
    (by
      intro ts hts
      have : ¬ (ts ≤ now - W) := by simpa using hts
      linarith [not_le.mp this])
    h1 h2 (fun ts hts => le_trans (h3 ts hts) hlo)
  have hnew : ((rl.Allow ip now).2.logs ip).getD []
      = if ((((rl.logs ip).getD []).filter (fun ts => !decide (ts ≤ now - W))).length : Int) ≥ L
        then ((rl.logs ip).getD []).filter (fun ts => !decide (ts ≤ now - W))
        else ((rl.logs ip).getD []).filter (fun ts => !decide (ts ≤ now - W)) ++ [now] := by
    rw [slidinglog_allow_eq rl ip now (by rw [hwin]; intro h; rw [h] at hW; exact absurd hW (by decide)),
      hwin, hrate]
    split_ifs <;> simp [GoMap.store]
  constructor
  · intro k
    by_cases hk : k = ip
    · subst hk
      rw [hnew]
      exact ⟨hstep.1, hstep.2.1, fun ts hts => (hstep.2.2 ts hts).2⟩
    · rw [(slidinglog_frame rl ip k now).2.2 (Ne.symm hk)]
      obtain ⟨k1, k2, k3⟩ := hinv k
      exact ⟨k1, k2, fun ts hts => le_trans (k3 ts hts) hlo⟩
  · rw [hnew]
    exact hstep.2.2

/-- One slidingwindow call keeps the invariant of all logs and leaves the log of
the called key within `[now - W, now]`. -/
theorem slidingwindow_step_inv (L : Int) (W : Duration) (hW : 0 ≤ W)
    (rl : slidingwindow.RateLimiter) (ip : String) (lo now : Time)
    (hlim : rl.limit = L) (hwin : rl.window = W) (hlo : lo ≤ now)
    (hinv : logsBounded rl.requestsMap L lo) :
    logsBounded (rl.Allow ip now).2.requestsMap L now
      ∧ ∀ ts ∈ ((rl.Allow ip now).2.requestsMap ip).getD [], now - W ≤ ts ∧ ts ≤ now := by
  obtain ⟨h1, h2, h3⟩ := hinv ip
  have hstep := log_step_inv L W hW (fun ts => decide (now - ts ≤ W)) now
    ((rl.requestsMap ip).getD [])
    (by
      intro ts hts
      have : now - ts ≤ W := by simpa using hts
      linarith)
    h1 h2 (fun ts hts => le_trans (h3 ts hts) hlo)
  have hnew : ((rl.Allow ip now).2.requestsMap ip).getD []
      = if ((((rl.requestsMap ip).getD []).filter (fun ts => decide (now - ts ≤ W))).length
            : Int) ≥ L
        then ((rl.requestsMap ip).getD []).filter (fun ts => decide (now - ts ≤ W))
        else ((rl.requestsMap ip).getD []).filter (fun ts => decide (now - ts ≤ W)) ++ [now] := by
    rw [slidingwindow_allow_eq, hwin, hlim]
    split_ifs <;> simp [GoMap.store]
  constructor
  · intro k
    by_cases hk : k = ip
    · subst hk
      rw [hnew]
      exact ⟨hstep.1, hstep.2.1, fun ts hts => (hstep.2.2 ts hts).2⟩
    · rw [(slidingwindow_frame rl ip k now).2.2 (Ne.symm hk)]
      obtain ⟨k1, k2, k3⟩ := hinv k
      exact ⟨k1, k2, fun ts hts => le_trans (k3 ts hts) hlo⟩
  · rw [hnew]
    exact hstep.2.2

/-- Running a concatenated call sequence on slidinglog. -/
theorem slidinglog_run_append (a b : List (String × Time)) :
    ∀ rl : slidinglog.RateLimiter,
      slidinglog.run rl (a ++ b) = slidinglog.run (slidinglog.run rl a) b := by
  induction a with
  | nil => intro rl; rfl
  | cons c a ih =>
    intro rl
    rw [List.cons_append]
    simp only [slidinglog.run, ih]

/-- Running a concatenated call sequence on slidingwindow. -/
theorem slidingwindow_run_append (a b : List (String × Time)) :
    ∀ rl : slidingwindow.RateLimiter,
      slidingwindow.run rl (a ++ b) = slidingwindow.run (slidingwindow.run rl a) b := by
  induction a with
  | nil => intro rl; rfl
  | cons c a ih =>
    intro rl
    rw [List.cons_append]
    simp only [slidingwindow.run, ih]

/-- Allow of slidinglog keeps rate and window along a run. -/
theorem slidinglog_run_config (calls : List (String × Time)) :
    ∀ rl : slidinglog.RateLimiter,
      (slidinglog.run rl calls).rate = rl.rate ∧ (slidinglog.run rl calls).window = rl.window := by
  induction calls with
  | nil => intro rl; exact ⟨rfl, rfl⟩
  | cons c calls ih =>
    intro rl
    have h := ih (rl.Allow c.1 c.2).2
    have f := slidinglog_frame rl c.1 c.1 c.2
    exact ⟨h.1.trans f.1, h.2.trans f.2.1⟩

/-- Allow of slidingwindow keeps limit and window along a run. -/
theorem slidingwindow_run_config (calls : List (String × Time)) :
    ∀ rl : slidingwindow.RateLimiter,
      (slidingwindow.run rl calls).limit = rl.limit
        ∧ (slidingwindow.run rl calls).window = rl.window := by
  induction calls with
  | nil => intro rl; exact ⟨rfl, rfl⟩
  | cons c calls ih =>
    intro rl
    have h := ih (rl.Allow c.1 c.2).2
    have f := slidingwindow_frame rl c.1 c.1 c.2
    exact ⟨h.1.trans f.1, h.2.trans f.2.1⟩

/-- Invariant of slidinglog along a run from the empty limiter. -/
theorem slidinglog_run_inv (L : Int) (W : Duration) (hL : 0 ≤ L) (hW : 0 ≤ W)
    (calls : List (String × Time)) :
    (calls.map Prod.snd).Pairwise (· ≤ ·) →
      ∀ hi : Time, (∀ x ∈ calls.map Prod.snd, x ≤ hi) →
        logsBounded (slidinglog.run (slidinglog.NewRateLimiter L W) calls).logs L hi := by
  induction calls using List.reverseRecOn with
  | nil =>
    intro _ hi _ k
    simp [slidinglog.run, slidinglog.NewRateLimiter, GoMap.make, hL]
  | append_singleton calls c ih =>
    intro hmono hi hhi
    rw [List.map_append, List.pairwise_append] at hmono
    obtain ⟨hp, _, hlast⟩ := hmono
    have hcalls : ∀ x ∈ calls.map Prod.snd, x ≤ c.2 := fun x hx => hlast x hx c.2 (by simp)
    have hinv := ih hp c.2 hcalls
    have hcfg := slidinglog_run_config calls (slidinglog.NewRateLimiter L W)
    rw [slidinglog_run_append]
    have hstep := (slidinglog_step_inv L W hW
      (slidinglog.run (slidinglog.NewRateLimiter L W) calls) c.1 c.2 c.2 hcfg.1 hcfg.2
      (le_refl _) hinv).1
    have hc : c.2 ≤ hi := hhi c.2 (by simp)
    intro k
    obtain ⟨k1, k2, k3⟩ := hstep k
    exact ⟨k1, k2, fun ts hts => le_trans (k3 ts hts) hc⟩

/-- Invariant of slidingwindow along a run from the empty limiter. -/
theorem slidingwindow_run_inv (L : Int) (W : Duration) (hL : 0 ≤ L) (hW : 0 ≤ W)
    (calls : List (String × Time)) :
    (calls.map Prod.snd).Pairwise (· ≤ ·) →
      ∀ hi : Time, (∀ x ∈ calls.map Prod.snd, x ≤ hi) →
        logsBounded (slidingwindow.run (slidingwindow.NewRateLimiter L W) calls).requestsMap
          L hi := by
  induction calls using List.reverseRecOn with
  | nil =>
    intro _ hi _ k
    simp [slidingwindow.run, slidingwindow.NewRateLimiter, GoMap.make, hL]
  | append_singleton calls c ih =>
    intro hmono hi hhi
    rw [List.map_append, List.pairwise_append] at hmono
    obtain ⟨hp, _, hlast⟩ := hmono
    have hcalls : ∀ x ∈ calls.map Prod.snd, x ≤ c.2 := fun x hx => hlast x hx c.2 (by simp)
    have hinv := ih hp c.2 hcalls
    have hcfg := slidingwindow_run_config calls (slidingwindow.NewRateLimiter L W)
    rw [slidingwindow_run_append]
    have hstep := (slidingwindow_step_inv L W hW
      (slidingwindow.run (slidingwindow.NewRateLimiter L W) calls) c.1 c.2 c.2 hcfg.1 hcfg.2
      (le_refl _) hinv).1
    have hc : c.2 ≤ hi := hhi c.2 (by simp)
    intro k
    obtain ⟨k1, k2, k3⟩ := hstep k
    exact ⟨k1, k2, fun ts hts => le_trans (k3 ts hts) hc⟩

/-- C17 as stated fails in two ways.  Negative window: the slidinglog limiter with
limit 1 and window -1ns admits the call of "a" at 0 and stores the log [0], and 0
is not within `[now - window, now] = [1, 0]`.  Other keys: with limit 1 and
window 10, after the call of "a" at 0 and the call of "b" at 100 the log of "a" is
still [0], which is not within `[90, 100]` of that last call. -/
theorem sliding_log_window_counterexample :
    (0 : Int) ≤ 1
      ∧ (slidinglog.run (slidinglog.NewRateLimiter 1 (-1)) [("a", 0)]).logs "a" = some [0]
      ∧ ¬ ((0 : Time) - (-1) ≤ 0 ∧ (0 : Time) ≤ 0)
      ∧ (slidinglog.run (slidinglog.NewRateLimiter 1 10) [("a", 0), ("b", 100)]).logs "a"
          = some [0]
      ∧ ¬ ((100 : Time) - 10 ≤ 0 ∧ (0 : Time) ≤ 100) := by
  decide

/-- C17, amended: for slidinglog and slidingwindow with limit `L >= 0` and window
`W >= 0`, starting from an empty limiter, after every call of every sequence of
calls at non-decreasing times (here the call of `ip` at `now`, after `calls`), the
stored log of every key has at most `L` entries and is in non-decreasing order,
and the log of the called key holds only times within `[now - W, now]`. -/
theorem sliding_log_state_invariant (L : Int) (W : Duration) (calls : List (String × Time))
    (ip : String) (now : Time) (hL : 0 ≤ L) (hW : 0 ≤ W)
    (hmono : ((calls ++ [(ip, now)]).map Prod.snd).Pairwise (· ≤ ·)) :
    ((∀ k : String,
        ((((slidinglog.run (slidinglog.NewRateLimiter L W) (calls ++ [(ip, now)])).logs k).getD
          []).length : Int) ≤ L
        ∧ (((slidinglog.run (slidinglog.NewRateLimiter L W) (calls ++ [(ip, now)])).logs k).getD
          []).Pairwise (· ≤ ·))
      ∧ ∀ ts ∈ ((slidinglog.run (slidinglog.NewRateLimiter L W)
          (calls ++ [(ip, now)])).logs ip).getD [], now - W ≤ ts ∧ ts ≤ now)
    ∧ ((∀ k : String,
        ((((slidingwindow.run (slidingwindow.NewRateLimiter L W)
          (calls ++ [(ip, now)])).requestsMap k).getD []).length : Int) ≤ L
        ∧ (((slidingwindow.run (slidingwindow.NewRateLimiter L W)
          (calls ++ [(ip, now)])).requestsMap k).getD []).Pairwise (· ≤ ·))
      ∧ ∀ ts ∈ ((slidingwindow.run (slidingwindow.NewRateLimiter L W)
          (calls ++ [(ip, now)])).requestsMap ip).getD [], now - W ≤ ts ∧ ts ≤ now) := by
  have hm := hmono
  rw [List.map_append, List.pairwise_append] at hm
  obtain ⟨hp, _, hlast⟩ := hm
  have hcalls : ∀ x ∈ calls.map Prod.snd, x ≤ now := fun x hx => hlast x hx now (by simp)
  constructor
  · have hinv := slidinglog_run_inv L W hL hW calls hp now hcalls
    have hcfg := slidinglog_run_config calls (slidinglog.NewRateLimiter L W)
    have hstep := slidinglog_step_inv L W hW
      (slidinglog.run (slidinglog.NewRateLimiter L W) calls) ip now now hcfg.1 hcfg.2
      (le_refl _) hinv
    rw [slidinglog_run_append]
    exact ⟨fun k => ⟨(hstep.1 k).1, (hstep.1 k).2.1⟩, hstep.2⟩
  · have hinv := slidingwindow_run_inv L W hL hW calls hp now hcalls
    have hcfg := slidingwindow_run_config calls (slidingwindow.NewRateLimiter L W)
    have hstep := slidingwindow_step_inv L W hW
      (slidingwindow.run (slidingwindow.NewRateLimiter L W) calls) ip now now hcfg.1 hcfg.2
      (le_refl _) hinv
    rw [slidingwindow_run_append]
    exact ⟨fun k => ⟨(hstep.1 k).1, (hstep.1 k).2.1⟩, hstep.2⟩

/-- Witness for the amended C17: limit 1, window 10, the call of "a" at 20 after
the calls of "a" at 0 and of "b" at 5. -/
theorem sliding_log_state_invariant_witness :
    (0 : Int) ≤ 1 ∧ (0 : Duration) ≤ 10
      ∧ ((([("a", 0), ("b", 5)] ++ [("a", 20)] : List (String × Time)).map Prod.snd).Pairwise
          (· ≤ ·))
      ∧ ∀ ts ∈ ((slidinglog.run (slidinglog.NewRateLimiter 1 10)
          ([("a", 0), ("b", 5)] ++ [("a", 20)])).logs "a").getD [],
          (20 : Time) - 10 ≤ ts ∧ ts ≤ 20 :=
  ⟨by decide, by decide, by decide,
    (sliding_log_state_invariant 1 10 [("a", 0), ("b", 5)] "a" 20 (by decide) (by decide)
      (by decide)).1.2⟩

/-- One call on a leaky bucket with a float64 level `0 <= Water <= Capacity`,
`FillRate >= 0`, an amount that is not negative and a clock read not earlier than
lastChecked: capacity and fill rate are kept, `0 <= Water <= Capacity` holds
again for a float64 level, lastChecked is not later than the clock read, and
Water does not grow unless the call is an admitted AddWater. -/
theorem leakybucket_call_inv (b : leakybucket.LeakyBucket) (c : leakybucket.Call)
    (hF : 0 ≤ b.FillRate) (h0 : 0 ≤ b.Water) (hcap : b.Water ≤ b.Capacity)
    (hrep : f64 b.Water = b.Water)
    (hamt : 0 ≤ c.amount) (hnow : b.lastChecked ≤ c.now) :
    (b.call c).Capacity = b.Capacity ∧ (b.call c).FillRate = b.FillRate
      ∧ 0 ≤ (b.call c).Water ∧ (b.call c).Water ≤ b.Capacity
      ∧ f64 (b.call c).Water = (b.call c).Water
      ∧ (b.call c).lastChecked ≤ c.now
      ∧ (b.admits c = false → (b.call c).Water ≤ b.Water) := by
  cases c with
  | AddWater amount now =>
    simp only [leakybucket.Call.now, leakybucket.Call.amount] at hamt hnow
    obtain ⟨l0, l1, l2⟩ := leakybucket_leaked_bounds b now hF h0 hrep hnow
    simp only [leakybucket.LeakyBucket.call, leakybucket.LeakyBucket.admits,
      leakybucket.Call.now]
    rw [leakybucket_addWater_eq]
    by_cases hfull : f64 (b.leaked now + amount) > b.Capacity
    · rw [if_pos hfull]
      exact ⟨rfl, rfl, l0, le_trans l1 hcap, l2, hnow, fun _ => l1⟩
    · rw [if_neg hfull]
      refine ⟨rfl, rfl, ?_, not_lt.mp hfull, ?_, le_refl _, fun h => ?_⟩
      · show 0 ≤ f64 (b.leaked now + amount)
        exact f64_nonneg _ (by linarith)
      · show f64 (f64 (b.leaked now + amount)) = f64 (b.leaked now + amount)
        exact f64_f64 _ (by linarith)
      · exact absurd h (by simp)
  | LeakWater now =>
    simp only [leakybucket.Call.now] at hnow
    obtain ⟨l0, l1, l2⟩ := leakybucket_leaked_bounds b now hF h0 hrep hnow
    simp only [leakybucket.LeakyBucket.call, leakybucket.Call.now]
    rw [leakybucket_leakWater_eq]
    exact ⟨rfl, rfl, l0, le_trans l1 hcap, l2, le_refl _, fun _ => l1⟩

/-- The leaky-bucket invariant along a run of calls with amounts that are not
negative and clock reads that are non-decreasing from `lo >= lastChecked`. -/
theorem leakybucket_run_inv (pre rest : List leakybucket.Call) :
    ∀ (b : leakybucket.LeakyBucket) (lo : Time), 0 ≤ b.FillRate → 0 ≤ b.Water →
      b.Water ≤ b.Capacity → f64 b.Water = b.Water → b.lastChecked ≤ lo →
      (∀ c ∈ pre, 0 ≤ c.amount) →
      List.Chain (· ≤ ·) lo ((pre ++ rest).map leakybucket.Call.now) →
      (b.run pre).Capacity = b.Capacity ∧ (b.run pre).FillRate = b.FillRate
        ∧ 0 ≤ (b.run pre).Water ∧ (b.run pre).Water ≤ b.Capacity
        ∧ f64 (b.run pre).Water = (b.run pre).Water
        ∧ ∃ lo' : Time, (b.run pre).lastChecked ≤ lo'
          ∧ List.Chain (· ≤ ·) lo' (rest.map leakybucket.Call.now) := by
  induction pre with
  | nil =>
    intro b lo _ h0 hcap hrep hlo _ hchain
    exact ⟨rfl, rfl, h0, hcap, hrep, lo, hlo, hchain⟩
  | cons c pre ih =>
    intro b lo hF h0 hcap hrep hlo hamt hchain
    rw [List.cons_append, List.map_cons, List.chain_cons] at hchain
    obtain ⟨s1, s2, s3, s4, s4', s5, _⟩ := leakybucket_call_inv b c hF h0 hcap hrep
      (hamt c (List.mem_cons_self _ _)) (le_trans hlo hchain.1)
    obtain ⟨i1, i2, i3, i4, i4', i5⟩ := ih (b.call c) c.now (by rw [s2]; exact hF) s3
      (by rw [s1]; exact s4) s4' s5 (fun x hx => hamt x (List.mem_cons_of_mem _ hx)) hchain.2
    simp only [leakybucket.LeakyBucket.run]
    exact ⟨i1.trans s1, i2.trans s2, i3, by rw [← s1]; exact i4, i4', i5⟩

/-- C18: leaky-bucket level invariant.  For the bucket from
NewLeakyBucket(capacity > 0, fillRate > 0) at `t0` and every sequence of AddWater
(amount >= 0) and LeakWater calls with non-decreasing clock reads not earlier than
`t0`, after every call (here `op`, after the calls `pre`) `0 <= Water <= Capacity`
holds, and a call that is not an admitted AddWater does not increase Water. -/
theorem leakybucket_level_invariant (capacity fillRate : ℚ) (t0 : Time)
    (pre : List leakybucket.Call) (op : leakybucket.Call)
    (hc : 0 < capacity) (hf : 0 < fillRate) (hamt : ∀ c ∈ pre ++ [op], 0 ≤ c.amount)
    (htime : List.Chain (· ≤ ·) t0 ((pre ++ [op]).map leakybucket.Call.now)) :
    0 ≤ (((leakybucket.NewLeakyBucket capacity fillRate t0).run pre).call op).Water
      ∧ (((leakybucket.NewLeakyBucket capacity fillRate t0).run pre).call op).Water
          ≤ (((leakybucket.NewLeakyBucket capacity fillRate t0).run pre).call op).Capacity
      ∧ (((leakybucket.NewLeakyBucket capacity fillRate t0).run pre).call op).Capacity
          = capacity
      ∧ (((leakybucket.NewLeakyBucket capacity fillRate t0).run pre).admits op = false →
          (((leakybucket.NewLeakyBucket capacity fillRate t0).run pre).call op).Water
            ≤ ((leakybucket.NewLeakyBucket capacity fillRate t0).run pre).Water) := by
  obtain ⟨i1, i2, i3, i4, i4', lo', i5, i6⟩ := leakybucket_run_inv pre [op]
    (leakybucket.NewLeakyBucket capacity fillRate t0) t0 hf.le (le_refl _) hc.le f64_zero
    (le_refl _) (fun c hc' => hamt c (List.mem_append_left _ hc')) htime
  simp only [List.map_cons, List.map_nil, List.chain_cons] at i6
  obtain ⟨s1, _, s3, s4, _, _, s6⟩ := leakybucket_call_inv
    ((leakybucket.NewLeakyBucket capacity fillRate t0).run pre) op
    (by rw [i2]; exact hf.le) i3 (by rw [i1]; exact i4) i4'
    (hamt op (List.mem_append_right _ (List.mem_singleton_self _))) (le_trans i5 i6.1)
  refine ⟨s3, by rw [s1]; exact s4, s1.trans i1, s6⟩

/-- Witness for C18: Capacity 5, FillRate 1, created at 0s; AddWater(3) at 0s, then
the rejected AddWater(3) at 1s. -/
theorem leakybucket_level_invariant_witness :
    (0 : ℚ) ≤ (((leakybucket.NewLeakyBucket 5 1 0).run
        [leakybucket.Call.AddWater 3 0]).call (leakybucket.Call.AddWater 3 1000000000)).Water
      ∧ (((leakybucket.NewLeakyBucket 5 1 0).run
        [leakybucket.Call.AddWater 3 0]).call (leakybucket.Call.AddWater 3 1000000000)).Water
          ≤ (((leakybucket.NewLeakyBucket 5 1 0).run
        [leakybucket.Call.AddWater 3 0]).call
          (leakybucket.Call.AddWater 3 1000000000)).Capacity :=
  ⟨(leakybucket_level_invariant 5 1 0 [leakybucket.Call.AddWater 3 0]
      (leakybucket.Call.AddWater 3 1000000000) (by norm_num) (by norm_num)
      (by simp [leakybucket.Call.amount]) (by simp [leakybucket.Call.now])).1,
    (leakybucket_level_invariant 5 1 0 [leakybucket.Call.AddWater 3 0]
      (leakybucket.Call.AddWater 3 1000000000) (by norm_num) (by norm_num)
      (by simp [leakybucket.Call.amount]) (by simp [leakybucket.Call.now])).2.1⟩

/-- One Allow or Refill call keeps the token-bucket invariant, and the clock reads
that follow are not earlier than the new lastRefill. -/
theorem tokenbucket_call_inv (tb : tokenbucket.TokenBucket) (c : tokenbucket.Call)
    (rest : List Time) (hr : 0 ≤ tb.rate) (hr2 : tb.rate ≤ 268435456)
    (hc : tb.capacity ≤ 4611686018427387903)
    (ht : 0 ≤ tb.tokens) (ht2 : tb.tokens ≤ tb.capacity)
    (hchain : List.Chain (· ≤ ·) tb.lastRefill (c.reads ++ rest))
    (hspan : ∀ t ∈ c.reads ++ rest, t - tb.lastRefill ≤ 9223372036854775807) :
    (tb.call c).rate = tb.rate ∧ (tb.call c).capacity = tb.capacity
      ∧ 0 ≤ (tb.call c).tokens ∧ (tb.call c).tokens ≤ tb.capacity
      ∧ List.Chain (· ≤ ·) (tb.call c).lastRefill rest
      ∧ (∀ t ∈ rest, t - (tb.call c).lastRefill ≤ 9223372036854775807) := by
  cases c with
  | Allow s e =>
    simp only [tokenbucket.Call.reads, List.cons_append, List.nil_append,
      List.chain_cons] at hchain
    have hs2 : s - tb.lastRefill ≤ 9223372036854775807 :=
      hspan s (by simp [tokenbucket.Call.reads])
    have hsp' : ∀ t ∈ rest, t - e ≤ 9223372036854775807 := by
      intro t ht'
      have := hspan t (by simp [tokenbucket.Call.reads, ht'])
      linarith [hchain.1, hchain.2.1]
    obtain ⟨r1, r2, r3, r4, r5, _, _⟩ := tokenbucket_refill_step tb s e hr hr2 hc ht ht2
      hchain.1 hs2
    simp only [tokenbucket.TokenBucket.call]
    rw [tokenbucket_allow_eq]
    by_cases hp : (tb.refillInternal s e).tokens > 0
    · rw [if_pos hp]
      refine ⟨r1, r2, ?_, ?_, ?_, ?_⟩
      · show 0 ≤ (tb.refillInternal s e).tokens - 1
        omega
      · show (tb.refillInternal s e).tokens - 1 ≤ tb.capacity
        omega
      · show List.Chain (· ≤ ·) (tb.refillInternal s e).lastRefill rest
        rw [r3]
        exact hchain.2.2
      · show ∀ t ∈ rest, t - (tb.refillInternal s e).lastRefill ≤ 9223372036854775807
        rw [r3]
        exact hsp'
    · rw [if_neg hp]
      refine ⟨r1, r2, r4, r5, ?_, ?_⟩
      · rw [r3]
        exact hchain.2.2
      · rw [r3]
        exact hsp'
  | Refill s e =>
    simp only [tokenbucket.Call.reads, List.cons_append, List.nil_append,
      List.chain_cons] at hchain
    have hs2 : s - tb.lastRefill ≤ 9223372036854775807 :=
      hspan s (by simp [tokenbucket.Call.reads])
    have hsp' : ∀ t ∈ rest, t - e ≤ 9223372036854775807 := by
      intro t ht'
      have := hspan t (by simp [tokenbucket.Call.reads, ht'])
      linarith [hchain.1, hchain.2.1]
    obtain ⟨r1, r2, r3, r4, r5, _, _⟩ := tokenbucket_refill_step tb s e hr hr2 hc ht ht2
      hchain.1 hs2
    simp only [tokenbucket.TokenBucket.call, tokenbucket.TokenBucket.Refill]
    refine ⟨r1, r2, r4, r5, ?_, ?_⟩
    · rw [r3]
      exact hchain.2.2
    · rw [r3]
      exact hsp'

/-- The token-bucket invariant along a run of Allow and Refill calls whose clock
reads are non-decreasing from lastRefill on and less than `2^63` ns after it. -/
theorem tokenbucket_runCalls_inv (pre : List tokenbucket.Call) (rest : List Time) :
    ∀ tb : tokenbucket.TokenBucket, 0 ≤ tb.rate → tb.rate ≤ 268435456 →
      tb.capacity ≤ 4611686018427387903 → 0 ≤ tb.tokens → tb.tokens ≤ tb.capacity →
      List.Chain (· ≤ ·) tb.lastRefill (tokenbucket.callReads pre ++ rest) →
      (∀ t ∈ tokenbucket.callReads pre ++ rest, t - tb.lastRefill ≤ 9223372036854775807) →
      (tb.runCalls pre).rate = tb.rate ∧ (tb.runCalls pre).capacity = tb.capacity
        ∧ 0 ≤ (tb.runCalls pre).tokens ∧ (tb.runCalls pre).tokens ≤ tb.capacity
        ∧ List.Chain (· ≤ ·) (tb.runCalls pre).lastRefill rest
        ∧ (∀ t ∈ rest, t - (tb.runCalls pre).lastRefill ≤ 9223372036854775807) := by
  induction pre with
  | nil =>
    intro tb _ _ _ ht hle hchain hspan
    exact ⟨rfl, rfl, ht, hle, hchain, hspan⟩
  | cons c pre ih =>
    intro tb hr hr2 hc ht ht2 hchain hspan
    simp only [tokenbucket.callReads, List.append_assoc] at hchain hspan
    obtain ⟨s1, s2, s3, s4, s5, s6⟩ := tokenbucket_call_inv tb c
      (tokenbucket.callReads pre ++ rest) hr hr2 hc ht ht2 hchain hspan
    obtain ⟨i1, i2, i3, i4, i5, i6⟩ := ih (tb.call c) (by rw [s1]; exact hr)
      (by rw [s1]; exact hr2) (by rw [s2]; exact hc) s3 (by rw [s2]; exact s4) s5 s6
    simp only [tokenbucket.TokenBucket.runCalls]
    exact ⟨i1.trans s1, i2.trans s2, i3, by rw [← s2]; exact i4, i5, i6⟩

/-- C19, counterexample: the sum `tb.tokens + newTokens` wraps.  The bucket from
newTokenBucket(1, math.MaxInt64) at 0 holds MaxInt64 tokens; an Allow one second
later computes newTokens = 1, the int64 sum wraps to math.MinInt64, `min` keeps
it, and the call is denied with tokens = math.MinInt64 < 0. -/
theorem tokenbucket_overflow_counterexample :
    (1 : Int) ≤ 1 ∧ (1 : Int) ≤ 9223372036854775807
      ∧ List.Chain (· ≤ ·) (0 : Time)
          (tokenbucket.callReads [tokenbucket.Call.Allow 1000000000 1000000000])
      ∧ ((tokenbucket.newTokenBucket 1 9223372036854775807 0).Allow
          1000000000 1000000000).1 = false
      ∧ (((tokenbucket.newTokenBucket 1 9223372036854775807 0).runCalls []).call
          (tokenbucket.Call.Allow 1000000000 1000000000)).tokens = -9223372036854775808 := by
  have hn : tokenbucket.newTokens (1000000000 - 0) 1 = 1 := by
    have := newTokens_whole 1 1 (by decide) (by decide) (by decide) (by decide) (by decide)
    simpa using this
  have hw : min (wrap64 (9223372036854775807 + 1)) 9223372036854775807
      = -9223372036854775808 := by decide
  have hre : ((tokenbucket.newTokenBucket 1 9223372036854775807 0).refillInternal
      1000000000 1000000000).tokens = -9223372036854775808 := by
    rw [tokenbucket_refill_eq]
    simp only [tokenbucket.newTokenBucket]
    rw [hn, hw]
  have hA : (tokenbucket.newTokenBucket 1 9223372036854775807 0).Allow 1000000000 1000000000
      = (false, (tokenbucket.newTokenBucket 1 9223372036854775807 0).refillInternal
          1000000000 1000000000) := by
    rw [tokenbucket_allow_eq, if_neg (by rw [hre]; decide)]
  refine ⟨by decide, by decide, by simp [tokenbucket.callReads, tokenbucket.Call.reads], ?_, ?_⟩
  · rw [hA]
  · show ((tokenbucket.newTokenBucket 1 9223372036854775807 0).Allow
        1000000000 1000000000).2.tokens = -9223372036854775808
    rw [hA]
    exact hre

/-- C19, amended: token-bucket invariant where the int64 arithmetic cannot wrap.
For the bucket from newTokenBucket(rate, capacity) at `t0` with
`0 <= rate <= 2^28` and `0 <= capacity < 2^62` (in particular both `>= 1`) and
every sequence of Allow and Refill calls with non-decreasing clock reads not
earlier than `t0` and less than `2^63` ns after it, after every call (here `op`,
after the calls `pre`) `0 <= tokens <= capacity` holds; when `op` is an Allow, an
admitted call leaves the refilled tokens minus one, and a denied call leaves
tokens at 0. -/
theorem tokenbucket_state_invariant (r C : Int) (t0 : Time) (pre : List tokenbucket.Call)
    (op : tokenbucket.Call) (hr : 0 ≤ r) (hr2 : r ≤ 268435456) (hC : 0 ≤ C)
    (hC2 : C ≤ 4611686018427387903)
    (htime : List.Chain (· ≤ ·) t0 (tokenbucket.callReads (pre ++ [op])))
    (hspan : ∀ t ∈ tokenbucket.callReads (pre ++ [op]), t - t0 ≤ 9223372036854775807) :
    0 ≤ (((tokenbucket.newTokenBucket r C t0).runCalls pre).call op).tokens
      ∧ (((tokenbucket.newTokenBucket r C t0).runCalls pre).call op).tokens
          ≤ (((tokenbucket.newTokenBucket r C t0).runCalls pre).call op).capacity
      ∧ (((tokenbucket.newTokenBucket r C t0).runCalls pre).call op).capacity = C
      ∧ ∀ s e : Time, op = tokenbucket.Call.Allow s e →
          ((((tokenbucket.newTokenBucket r C t0).runCalls pre).Allow s e).1 = true →
            (((tokenbucket.newTokenBucket r C t0).runCalls pre).Allow s e).2.tokens
              = (((tokenbucket.newTokenBucket r C t0).runCalls pre).refillInternal s e).tokens
                - 1)
          ∧ ((((tokenbucket.newTokenBucket r C t0).runCalls pre).Allow s e).1 = false →
            (((tokenbucket.newTokenBucket r C t0).runCalls pre).Allow s e).2.tokens = 0) := by
  have hreads : ∀ a b : List tokenbucket.Call,
      tokenbucket.callReads (a ++ b) = tokenbucket.callReads a ++ tokenbucket.callReads b := by
    intro a b
    induction a with
    | nil => rfl
    | cons c a ih =>
      rw [List.cons_append]
      simp only [tokenbucket.callReads, ih, List.append_assoc]
  rw [hreads] at htime hspan
  obtain ⟨i1, i2, i3, i4, i5, i6⟩ := tokenbucket_runCalls_inv pre (tokenbucket.callReads [op])
    (tokenbucket.newTokenBucket r C t0) hr hr2 hC2 hC (le_refl _) htime hspan
  have hop : tokenbucket.callReads [op] = op.reads ++ [] := rfl
  rw [hop] at i5 i6
  obtain ⟨s1, s2, s3, s4, _, _⟩ := tokenbucket_call_inv
    ((tokenbucket.newTokenBucket r C t0).runCalls pre) op []
    (by rw [i1]; exact hr) (by rw [i1]; exact hr2) (by rw [i2]; exact hC2) i3
    (by rw [i2]; exact i4) i5 i6
  refine ⟨s3, by rw [s2]; exact s4, s2.trans i2, ?_⟩
  intro s e hop'
  subst hop'
  simp only [tokenbucket.Call.reads, List.cons_append, List.nil_append,
    List.chain_cons] at i5
  obtain ⟨_, _, _, r4, _, _, _⟩ := tokenbucket_refill_step
    ((tokenbucket.newTokenBucket r C t0).runCalls pre) s e
    (by rw [i1]; exact hr) (by rw [i1]; exact hr2) (by rw [i2]; exact hC2) i3
    (by rw [i2]; exact i4) i5.1 (i6 s (by simp [tokenbucket.Call.reads]))
  rw [tokenbucket_allow_eq]
  by_cases hp : (((tokenbucket.newTokenBucket r C t0).runCalls pre).refillInternal s e).tokens
      > 0
  · rw [if_pos hp]
    exact ⟨fun _ => rfl, fun h => absurd h (by simp)⟩
  · rw [if_neg hp]
    refine ⟨fun h => absurd h (by simp), fun _ => ?_⟩
    show (((tokenbucket.newTokenBucket r C t0).runCalls pre).refillInternal s e).tokens = 0
    omega

/-- Witness for C19: rate 1, capacity 2, created at 0s; Allow at 0s, Refill at 1s,
then Allow at 1s. -/
theorem tokenbucket_state_invariant_witness :
    (0 : Int) ≤ 1 ∧ (1 : Int) ≤ 268435456 ∧ (0 : Int) ≤ 2 ∧ (2 : Int) ≤ 4611686018427387903
      ∧ 0 ≤ (((tokenbucket.newTokenBucket 1 2 0).runCalls
          [tokenbucket.Call.Allow 0 0, tokenbucket.Call.Refill 1000000000 1000000000]).call
            (tokenbucket.Call.Allow 1000000000 1000000000)).tokens :=
  ⟨by decide, by decide, by decide, by decide,
    (tokenbucket_state_invariant 1 2 0
      [tokenbucket.Call.Allow 0 0, tokenbucket.Call.Refill 1000000000 1000000000]
      (tokenbucket.Call.Allow 1000000000 1000000000) (by decide) (by decide) (by decide)
      (by decide)
      (by simp [tokenbucket.callReads, tokenbucket.Call.reads])
      (by simp [tokenbucket.callReads, tokenbucket.Call.reads])).1⟩

/-- Closely spaced calls on an empty bucket, generalised over the state: every
call is denied and tokens is 0 after every call. -/
theorem tokenbucket_starved_aux (r : Int) (hr : 1 ≤ r) (calls : List (Time × Time)) :
    ∀ tb : tokenbucket.TokenBucket, tb.rate = r → tb.tokens = 0 → 0 ≤ tb.capacity →
      tokenbucket.closelySpaced r tb.lastRefill calls →
      tokenbucket.decisions tb calls = List.replicate calls.length false
        ∧ ∀ n : Nat, (tokenbucket.run tb (calls.take n)).tokens = 0 := by
  induction calls with
  | nil =>
    intro tb _ ht _ _
    exact ⟨rfl, fun n => by simpa [tokenbucket.run] using ht⟩
  | cons c rest ih =>
    intro tb hrate ht hcap hsp
    obtain ⟨h1, h2, h3⟩ := hsp
    have hn : tokenbucket.newTokens (c.1 - tb.lastRefill) tb.rate = 0 := by
      rw [hrate]
      exact newTokens_eq_zero _ r (sub_nonneg.mpr h1) hr h2
    have hre : tb.refillInternal c.1 c.2 = { tb with tokens := 0, lastRefill := c.2 } := by
      rw [tokenbucket_refill_eq, hn, ht, add_zero,
        wrap64_of_range 0 (by decide) (by decide), min_eq_left hcap]
    have hA : tb.Allow c.1 c.2 = (false, { tb with tokens := 0, lastRefill := c.2 }) := by
      rw [tokenbucket_allow_eq, hre]
      rfl
    obtain ⟨i1, i2⟩ := ih { tb with tokens := 0, lastRefill := c.2 } hrate rfl hcap h3
    constructor
    · rw [tokenbucket.decisions, hA]
      simp only []
      rw [i1, List.length_cons, List.replicate_succ]
    · intro n
      cases n with
      | zero => simpa [tokenbucket.run] using ht
      | succ n =>
        rw [List.take_succ_cons, tokenbucket.run, hA]
        exact i2 n

/-- C20: the truncating refill drops the fractional accrual of every call.  For a
token bucket with rate `r >= 1` in a state with tokens = 0 (a state of the
bucket: tokens does not exceed capacity) and every sequence of Allow
calls each of which reads the clock not earlier than, and less than `1/r` seconds
after, the instant the previous call stored in lastRefill (the first one after
the lastRefill of the state): every call is denied and tokens is 0 after every
call, whatever the length of the sequence. -/
theorem tokenbucket_truncation_starves (tb : tokenbucket.TokenBucket)
    (calls : List (Time × Time)) (hr : 1 ≤ tb.rate) (ht : tb.tokens = 0)
    (hcap : tb.tokens ≤ tb.capacity)
    (hsp : tokenbucket.closelySpaced tb.rate tb.lastRefill calls) :
    tokenbucket.decisions tb calls = List.replicate calls.length false
      ∧ ∀ n : Nat, (tokenbucket.run tb (calls.take n)).tokens = 0 :=
  tokenbucket_starved_aux tb.rate hr calls tb rfl ht (by omega) hsp

/-- Witness for C20: rate 2, capacity 5, tokens 0, lastRefill 0s; calls at 0.4s,
0.8s and 1.2s are all denied although 1.2s of refill time have passed. -/
theorem tokenbucket_truncation_starves_witness :
    tokenbucket.decisions
        { rate := 2, capacity := 5, tokens := 0, lastRefill := 0 }
        [(400000000, 400000000), (800000000, 800000000), (1200000000, 1200000000)]
      = [false, false, false] :=
  (tokenbucket_truncation_starves
    { rate := 2, capacity := 5, tokens := 0, lastRefill := 0 }
    [(400000000, 400000000), (800000000, 800000000), (1200000000, 1200000000)]
    (by decide) rfl (by decide)
    (by norm_num [tokenbucket.closelySpaced, seconds])).1

/-- One fixedwindow call with a limit of at least 1 keeps every stored count at or
below the limit. -/
theorem fixedwindow_count_step (rl : fixedwindow.RateLimiter) (ip : String) (now : Time)
    (hrps : 1 ≤ rl.requestsPerSecond)
    (hinv : ∀ k w, rl.windows k = some w → w.count ≤ rl.requestsPerSecond) :
    ∀ k w, (rl.Allow ip now).2.windows k = some w → w.count ≤ rl.requestsPerSecond := by
  intro k w hk
  by_cases hki : k = ip
  · subst hki
    cases hw : rl.windows k with
    | none =>
      rw [fixedwindow_allow_none rl k now hw] at hk
      simp only [GoMap.store, if_true, Option.some.injEq] at hk
      rw [← hk]
      exact hrps
    | some w0 =>
      rw [fixedwindow_allow_some rl k now w0 hw] at hk
      by_cases hexp : now > w0.expireTime
      · rw [if_pos hexp] at hk
        simp only [GoMap.store, if_true, Option.some.injEq] at hk
        rw [← hk]
        exact hrps
      · rw [if_neg hexp] at hk
        by_cases hlt : w0.count < rl.requestsPerSecond
        · rw [if_pos hlt] at hk
          simp only [GoMap.store, if_true, Option.some.injEq] at hk
          rw [← hk]
          show w0.count + 1 ≤ rl.requestsPerSecond
          omega
        · rw [if_neg hlt] at hk
          exact hinv k w hk
  · rw [(fixedwindow_frame rl ip k now).2 (Ne.symm hki)] at hk
    exact hinv k w hk

/-- With a limit of at least 1 every stored count stays at or below the limit
along a run. -/
theorem fixedwindow_count_run (rps : Int) (hrps : 1 ≤ rps) (calls : List (String × Time)) :
    ∀ rl : fixedwindow.RateLimiter, rl.requestsPerSecond = rps →
      (∀ k w, rl.windows k = some w → w.count ≤ rps) →
      ∀ k w, (fixedwindow.run rl calls).windows k = some w → w.count ≤ rps := by
  induction calls with
  | nil =>
    intro rl _ hinv
    exact hinv
  | cons c rest ih =>
    intro rl hr hinv
    have hstep := fixedwindow_count_step rl c.1 c.2 (by rw [hr]; exact hrps)
      (by rw [hr]; exact hinv)
    rw [hr] at hstep
    exact ih (rl.Allow c.1 c.2).2 ((fixedwindow_frame rl c.1 c.1 c.2).1.trans hr) hstep

/-- C21: the fixed-window limit is not consulted when a window opens.  For every
limiter with any requestsPerSecond `rps` (0 and negative values included), an
Allow call for a key without a window, and an Allow call later than the
expireTime of the key's window, returns true and stores count = 1.  Hence a
limiter built by NewRateLimiter(rps) can reach a stored count above `rps` exactly
when `rps < 1`. -/
theorem fixedwindow_limit_not_consulted_on_open (rps : Int) :
    (∀ (rl : fixedwindow.RateLimiter) (ip : String) (now : Time),
      rl.requestsPerSecond = rps →
      (rl.windows ip = none ∨ ∃ w, rl.windows ip = some w ∧ now > w.expireTime) →
      (rl.Allow ip now).1 = true
        ∧ (rl.Allow ip now).2.windows ip = some { count := 1, expireTime := now + Second })
    ∧ ((∃ (calls : List (String × Time)) (ip : String) (w : fixedwindow.Window),
          (fixedwindow.run (fixedwindow.NewRateLimiter rps) calls).windows ip = some w
            ∧ ¬ (w.count ≤ rps))
        ↔ rps < 1) := by
  constructor
  · intro rl ip now _ hopen
    have hA : rl.Allow ip now
        = (true, { rl with windows := (rl.windows.store ip
            { count := 1, expireTime := now + Second }) }) := by
      rcases hopen with h | ⟨w, h, hgt⟩
      · exact fixedwindow_allow_none rl ip now h
      · rw [fixedwindow_allow_some rl ip now w h, if_pos hgt]
    rw [hA]
    exact ⟨rfl, by simp [GoMap.store]⟩
  · constructor
    · rintro ⟨calls, ip, w, hw, hnot⟩
      by_contra hge
      have hrps : 1 ≤ rps := by omega
      exact hnot (fixedwindow_count_run rps hrps calls (fixedwindow.NewRateLimiter rps) rfl
        (by intro k w' h; simp [fixedwindow.NewRateLimiter, GoMap.make] at h) ip w hw)
    · intro hlt
      refine ⟨[("a", 0)], "a", { count := 1, expireTime := 0 + Second }, ?_, ?_⟩
      · simp only [fixedwindow.run]
        rw [fixedwindow_allow_none (fixedwindow.NewRateLimiter rps) "a" 0 rfl]
        simp [GoMap.store]
      · show ¬ ((1 : Int) ≤ rps)
        omega

/-- Witness for C21: the limiter built with requestsPerSecond 0 admits the first
call of "a" and stores count 1. -/
theorem fixedwindow_limit_not_consulted_on_open_witness :
    ((fixedwindow.NewRateLimiter 0).Allow "a" 0).1 = true
      ∧ ((fixedwindow.NewRateLimiter 0).Allow "a" 0).2.windows "a"
        = some { count := 1, expireTime := 0 + Second } :=
  (fixedwindow_limit_not_consulted_on_open 0).1 (fixedwindow.NewRateLimiter 0) "a" 0 rfl
    (Or.inl rfl)
